import Mathlib

/-!
# Truth_Table: a shallow embedding of `main.go`

The expression pipeline of the repository (tokenizer, recursive-descent parser,
AST rendering, evaluator, variable extraction, table enumeration) is translated
function by function into Lean, and the properties of the pipeline are proved
over these definitions.

Modelling conventions.

* A Go `string` is a Lean `String` (a sequence of Unicode code points); ranging
  over a Go string yields its runes, which is `String.data` here.
* A Go `map[string]T` is an association list with at most one entry per key
  (`GoMap T`); reading is `GoMap.get?`, writing `m[k] = v` is `GoMap.set`.
  Go leaves the order of the entries unspecified; what is proved of the content
  of a map is stated through `get?` and `keys`.
* A `panic` is the `error` case of `Except String`.
* The shared cursor `pos *int` is passed in and returned next to the result.
* The mutually recursive parser is written with a recursion budget (`fuel`);
  `none` means the budget ran out.  `parseExpression_total` shows that the
  budget `parseFuel tokens` is always enough, and `parseExpression_of_fuel`
  that every budget under which the parse ends gives the same result.
* `int` is 64 bits wide.
* `unicode.IsLetter` is a parameter (`isLetter`) of the functions that call it;
  `AsciiLetters` and `GlyphsNotLetters` state what is used of it.
-/

namespace TruthTable

/-! ## Tokens and the lexer (`main.go` lines 14-80) -/

/-- The eight token kinds (`TokenType` constants of the source). -/
inductive TokenType where
  | TokenTypeAnd
  | TokenTypeOr
  | TokenTypeNot
  | TokenTypeImplies
  | TokenTypeEquivalent
  | TokenTypeLparen
  | TokenTypeRparen
  | TokenTypeVar
  deriving DecidableEq, Repr

open TokenType

/-- A token: its kind and, for variables, the name (`Token` struct; the field
`Type` of the source is `Typ` here). -/
structure Token where
  Typ : TokenType
  Value : String
  deriving DecidableEq, Repr

/-- The closure `isVarChar` of `Lexer`: ASCII letters and digits. -/
def isVarChar (ch : Char) : Bool :=
  (decide ('a' ≤ ch) && decide (ch ≤ 'z')) || (decide ('A' ≤ ch) && decide (ch ≤ 'Z'))
    || (decide ('0' ≤ ch) && decide (ch ≤ '9'))

/-- The two local variables of `Lexer` that the loop updates. -/
structure LexState where
  tokens : List Token
  currentVar : String
  deriving DecidableEq, Repr

/-- The closure `commitVar` of `Lexer`: append the pending name as a VAR token,
if there is one, and clear it. -/
def commitVar (st : LexState) : LexState :=
  if st.currentVar ≠ "" then
    { tokens := st.tokens ++ [⟨TokenTypeVar, st.currentVar⟩], currentVar := "" }
  else st

/-- One operator case of the `switch` in `Lexer`: `commitVar()` followed by
`tokens = append(tokens, Token{Type: ty})`. -/
def emitToken (st : LexState) (ty : TokenType) : LexState :=
  { tokens := (commitVar st).tokens ++ [⟨ty, ""⟩], currentVar := (commitVar st).currentVar }

/-- The body of the `for _, ch := range input` loop of `Lexer`.  The `default`
case leaves both variables untouched. -/
def lexStep (st : LexState) (ch : Char) : LexState :=
  if isVarChar ch then { tokens := st.tokens, currentVar := st.currentVar ++ String.singleton ch }
  else if ch = '&' then emitToken st TokenTypeAnd
  else if ch = '|' then emitToken st TokenTypeOr
  else if ch = '!' then emitToken st TokenTypeNot
  else if ch = '→' then emitToken st TokenTypeImplies
  else if ch = '⇔' then emitToken st TokenTypeEquivalent
  else if ch = '(' then emitToken st TokenTypeLparen
  else if ch = ')' then emitToken st TokenTypeRparen
  else st

/-- The function `Lexer`: run the loop over the runes of the input, then commit the
last pending name. -/
def Lexer (input : String) : List Token :=
  (commitVar (input.data.foldl lexStep ⟨[], ""⟩)).tokens

/-! ## The AST and its rendering (`main.go` lines 82-116) -/

/-- The six node types implementing the interface `Expr`. -/
inductive Expr where
  | Var (Name : String)
  | Not (Operand : Expr)
  | And (Left Right : Expr)
  | Or (Left Right : Expr)
  | Implies (Left Right : Expr)
  | Equivalent (Left Right : Expr)
  deriving DecidableEq, Repr

/-- The method `String` of the six node types. -/
def Expr.String : Expr → String
  | .Var name => name
  | .Not operand => "!" ++ operand.String
  | .And left right => "(" ++ left.String ++ " & " ++ right.String ++ ")"
  | .Or left right => "(" ++ left.String ++ " | " ++ right.String ++ ")"
  | .Implies left right => "(" ++ left.String ++ " → " ++ right.String ++ ")"
  | .Equivalent left right => "(" ++ left.String ++ " ⇔ " ++ right.String ++ ")"

/-! ## Go maps -/

/-- A Go `map[string]T`, as an association list with one entry per key. -/
abbrev GoMap (T : Type) := List (String × T)

/-- Reading `m[k]` with the comma-ok form: `none` when the key is absent. -/
def GoMap.get? {T : Type} : GoMap T → String → Option T
  | [], _ => none
  | (k1, v1) :: rest, k => if k1 = k then some v1 else GoMap.get? rest k

/-- The assignment `m[k] = v`: overwrite the entry of `k`, or add one. -/
def GoMap.set {T : Type} : GoMap T → String → T → GoMap T
  | [], k, v => [(k, v)]
  | (k1, v1) :: rest, k, v => if k1 = k then (k, v) :: rest else (k1, v1) :: GoMap.set rest k v

/-- The keys of a map. -/
def GoMap.keys {T : Type} (m : GoMap T) : List String := m.map Prod.fst

/-! ## The evaluator (`main.go` lines 118-141) -/

deriving instance DecidableEq for Except

/-- The method `Evaluate` of the six node types.  `&&` and `||` evaluate their
right operand only when the left one does not decide the result, and a panic
in an operand that is evaluated is the outcome of the whole call. -/
def Evaluate : Expr → GoMap Bool → Except String Bool
  | .Var name, vars =>
    match vars.get? name with
    | some value => .ok value
    | none => .error ("Variable " ++ name ++ " not defined")
  | .Not operand, vars =>
    match Evaluate operand vars with
    | .error msg => .error msg
    | .ok b => .ok (!b)
  | .And left right, vars =>
    match Evaluate left vars with
    | .error msg => .error msg
    | .ok true => Evaluate right vars
    | .ok false => .ok false
  | .Or left right, vars =>
    match Evaluate left vars with
    | .error msg => .error msg
    | .ok true => .ok true
    | .ok false => Evaluate right vars
  | .Implies left right, vars =>
    match Evaluate left vars with
    | .error msg => .error msg
    | .ok false => .ok true
    | .ok true => Evaluate right vars
  | .Equivalent left right, vars =>
    -- (L && R) || (!L && !R), each operand evaluated again where it is used again
    match Evaluate left vars with
    | .error msg => .error msg
    | .ok true =>
      match Evaluate right vars with
      | .error msg => .error msg
      | .ok true => .ok true
      | .ok false =>
        match Evaluate left vars with
        | .error msg => .error msg
        | .ok true => .ok false
        | .ok false =>
          match Evaluate right vars with
          | .error msg => .error msg
          | .ok b => .ok (!b)
    | .ok false =>
      match Evaluate left vars with
      | .error msg => .error msg
      | .ok true => .ok false
      | .ok false =>
        match Evaluate right vars with
        | .error msg => .error msg
        | .ok b => .ok (!b)

/-! ## The parser (`main.go` lines 143-258) -/

/-- The outcome of a parse function: `none` when the recursion budget ran out,
otherwise the error message or the tree together with the new cursor. -/
abbrev ParseResult := Option (Except String (Expr × Nat))

/-- The loop and branch condition `*pos < len(tokens) && tokens[*pos].Type == ty`. -/
def peekIs (tokens : List Token) (pos : Nat) (ty : TokenType) : Bool :=
  match tokens[pos]? with
  | some token => decide (token.Typ = ty)
  | none => false

mutual

/-- The function `parsePrimary`. -/
def parsePrimary : Nat → List Token → Nat → ParseResult
  | 0, _, _ => none
  | fuel + 1, tokens, pos =>
    match tokens[pos]? with
    | none => some (.error "unexpected end of expression")
    | some token =>
      match token.Typ with
      | TokenTypeVar => some (.ok (.Var token.Value, pos + 1))
      | TokenTypeLparen =>
        match parseEquivalent fuel tokens (pos + 1) with
        | none => none
        | some (.error err) => some (.error err)
        | some (.ok (expr, pos1)) =>
          if peekIs tokens pos1 TokenTypeRparen then some (.ok (expr, pos1 + 1))
          else some (.error ("expected ')' at position " ++ toString pos1))
      | _ =>
        some (.error ("unexpected token '" ++ token.Value ++ "' at position " ++ toString pos))
termination_by structural fuel => fuel

/-- The function `parseNot`. -/
def parseNot : Nat → List Token → Nat → ParseResult
  | 0, _, _ => none
  | fuel + 1, tokens, pos =>
    if peekIs tokens pos TokenTypeNot then
      match parsePrimary fuel tokens (pos + 1) with
      | none => none
      | some (.error err) => some (.error err)
      | some (.ok (expr, pos1)) => some (.ok (.Not expr, pos1))
    else parsePrimary fuel tokens pos
termination_by structural fuel => fuel

/-- The function `parseAnd`: the first operand, then the `for` loop. -/
def parseAnd : Nat → List Token → Nat → ParseResult
  | 0, _, _ => none
  | fuel + 1, tokens, pos =>
    match parseNot fuel tokens pos with
    | none => none
    | some (.error err) => some (.error err)
    | some (.ok (expr, pos1)) => parseAndLoop fuel tokens expr pos1
termination_by structural fuel => fuel

/-- The `for` loop of `parseAnd`, entered with the tree built so far. -/
def parseAndLoop : Nat → List Token → Expr → Nat → ParseResult
  | 0, _, _, _ => none
  | fuel + 1, tokens, expr, pos =>
    if peekIs tokens pos TokenTypeAnd then
      match parseNot fuel tokens (pos + 1) with
      | none => none
      | some (.error err) => some (.error err)
      | some (.ok (rightExpr, pos1)) => parseAndLoop fuel tokens (.And expr rightExpr) pos1
    else some (.ok (expr, pos))
termination_by structural fuel => fuel

/-- The function `parseOr`: the first operand, then the `for` loop. -/
def parseOr : Nat → List Token → Nat → ParseResult
  | 0, _, _ => none
  | fuel + 1, tokens, pos =>
    match parseAnd fuel tokens pos with
    | none => none
    | some (.error err) => some (.error err)
    | some (.ok (expr, pos1)) => parseOrLoop fuel tokens expr pos1
termination_by structural fuel => fuel

/-- The `for` loop of `parseOr`. -/
def parseOrLoop : Nat → List Token → Expr → Nat → ParseResult
  | 0, _, _, _ => none
  | fuel + 1, tokens, expr, pos =>
    if peekIs tokens pos TokenTypeOr then
      match parseAnd fuel tokens (pos + 1) with
      | none => none
      | some (.error err) => some (.error err)
      | some (.ok (rightExpr, pos1)) => parseOrLoop fuel tokens (.Or expr rightExpr) pos1
    else some (.ok (expr, pos))
termination_by structural fuel => fuel

/-- The function `parseImplies`: the first operand, then the `for` loop. -/
def parseImplies : Nat → List Token → Nat → ParseResult
  | 0, _, _ => none
  | fuel + 1, tokens, pos =>
    match parseOr fuel tokens pos with
    | none => none
    | some (.error err) => some (.error err)
    | some (.ok (expr, pos1)) => parseImpliesLoop fuel tokens expr pos1
termination_by structural fuel => fuel

/-- The `for` loop of `parseImplies`; its right operand is a recursive call of
`parseImplies`. -/
def parseImpliesLoop : Nat → List Token → Expr → Nat → ParseResult
  | 0, _, _, _ => none
  | fuel + 1, tokens, expr, pos =>
    if peekIs tokens pos TokenTypeImplies then
      match parseImplies fuel tokens (pos + 1) with
      | none => none
      | some (.error err) => some (.error err)
      | some (.ok (rightExpr, pos1)) =>
        parseImpliesLoop fuel tokens (.Implies expr rightExpr) pos1
    else some (.ok (expr, pos))
termination_by structural fuel => fuel

/-- The function `parseEquivalent`: the first operand, then the `for` loop. -/
def parseEquivalent : Nat → List Token → Nat → ParseResult
  | 0, _, _ => none
  | fuel + 1, tokens, pos =>
    match parseImplies fuel tokens pos with
    | none => none
    | some (.error err) => some (.error err)
    | some (.ok (expr, pos1)) => parseEquivalentLoop fuel tokens expr pos1
termination_by structural fuel => fuel

/-- The `for` loop of `parseEquivalent`. -/
def parseEquivalentLoop : Nat → List Token → Expr → Nat → ParseResult
  | 0, _, _, _ => none
  | fuel + 1, tokens, expr, pos =>
    if peekIs tokens pos TokenTypeEquivalent then
      match parseImplies fuel tokens (pos + 1) with
      | none => none
      | some (.error err) => some (.error err)
      | some (.ok (rightExpr, pos1)) =>
        parseEquivalentLoop fuel tokens (.Equivalent expr rightExpr) pos1
    else some (.ok (expr, pos))
termination_by structural fuel => fuel

end

/-- A recursion budget that is enough for every token sequence: six nested
calls per token, and six more. -/
def parseFuel (tokens : List Token) : Nat := 6 * tokens.length + 6

/-- The call `parseEquivalent(tokens, &pos)` with `pos = 0`, as `ExpressHandler`
makes it. -/
def parseExpression (tokens : List Token) : ParseResult :=
  parseEquivalent (parseFuel tokens) tokens 0

/-! ## Variable extraction (`main.go` lines 328-356 and 413-448) -/

/-- Lexicographic comparison of two rune sequences, strictly less. -/
def runesLess : List Char → List Char → Bool
  | [], [] => false
  | [], _ :: _ => true
  | _ :: _, [] => false
  | a :: as, b :: bs =>
    if a.toNat < b.toNat then true
    else if b.toNat < a.toNat then false
    else runesLess as bs

/-- The order `a <= b` of Go strings.  Go compares the UTF-8 bytes, which orders
strings as their code points do. -/
def stringLE (a b : String) : Prop := runesLess b.data a.data = false

instance : DecidableRel stringLE := fun a b =>
  inferInstanceAs (Decidable (runesLess b.data a.data = false))

/-- The call `sort.Strings`: ascending lexicographic order. -/
def sortStrings (l : List String) : List String :=
  l.insertionSort stringLE

/-- The two local variables of `ExtractVariables` that the loop updates. -/
structure ExtractState where
  varSet : GoMap Unit
  currentVar : String
  deriving DecidableEq, Repr

/-- The body of the `for _, char := range expression` loop of
`ExtractVariables`.  The library predicate `unicode.IsLetter` is the parameter
`isLetter`. -/
def extractStep (isLetter : Char → Bool) (st : ExtractState) (char : Char) : ExtractState :=
  if isLetter char then
    { varSet := st.varSet, currentVar := st.currentVar ++ String.singleton char }
  else if st.currentVar.length > 0 then
    { varSet := st.varSet.set st.currentVar (), currentVar := "" }
  else st

/-- The function `ExtractVariables`: the loop, the check for a name pending at the
end, then the keys of the set in sorted order. -/
def ExtractVariables (isLetter : Char → Bool) (expression : String) : List String :=
  let st := expression.data.foldl (extractStep isLetter) ⟨[], ""⟩
  let varSet := if st.currentVar.length > 0 then st.varSet.set st.currentVar () else st.varSet
  sortStrings varSet.keys

/-- What the development uses of `unicode.IsLetter`: on ASCII it holds of the
fifty-two letters and of nothing else. -/
def AsciiLetters (isLetter : Char → Bool) : Prop :=
  ∀ c : Char, c.val < 128 → isLetter c = c.isAlpha

/-- The loop of `removeDuplicates`, with its two local variables. -/
def removeDuplicatesLoop : List String → GoMap Bool → List String → List String
  | [], _, result => result
  | v :: rest, encountered, result =>
    if (encountered.get? v).getD false = true then removeDuplicatesLoop rest encountered result
    else removeDuplicatesLoop rest (encountered.set v true) (result ++ [v])

/-- The function `removeDuplicates`. -/
def removeDuplicates (elements : List String) : List String :=
  removeDuplicatesLoop elements [] []

/-- The function `extractVariablesFromExpr`.  Its type switch has the cases `And`,
`Or`, `Not` and `Var`; for the other two node types `variables` stays empty. -/
def extractVariablesFromExpr : Expr → List String → List String
  | .And left right, parentVars =>
    removeDuplicates (sortStrings
      ((extractVariablesFromExpr left parentVars ++ extractVariablesFromExpr right parentVars)
        ++ parentVars))
  | .Or left right, parentVars =>
    removeDuplicates (sortStrings
      ((extractVariablesFromExpr left parentVars ++ extractVariablesFromExpr right parentVars)
        ++ parentVars))
  | .Not operand, parentVars =>
    removeDuplicates (sortStrings (extractVariablesFromExpr operand parentVars ++ parentVars))
  | .Var name, parentVars => removeDuplicates (sortStrings ([name] ++ parentVars))
  | .Implies _ _, parentVars => removeDuplicates (sortStrings ([] ++ parentVars))
  | .Equivalent _ _, parentVars => removeDuplicates (sortStrings ([] ++ parentVars))

/-! ## The subexpression collector and the table (`main.go` lines 450-509) -/

/-- The function `mergeResults`: every entry of `subResult` is written into
`mainResult`. -/
def mergeResults (mainResult subResult : GoMap Int) : GoMap Int :=
  subResult.foldl (fun m kv => m.set kv.1 kv.2) mainResult

/-- The function `evaluateExpressionAndSubexpressions`: the value of the node under
its rendering, then the rows of the children merged in. -/
def evaluateExpressionAndSubexpressions (expr : Expr) (combination : GoMap Bool) :
    Except String (GoMap Int) :=
  match Evaluate expr combination with
  | .error msg => .error msg
  | .ok b =>
    let result : GoMap Int := GoMap.set [] expr.String (if b then 1 else 0)
    match expr with
    | .And left right =>
      match evaluateExpressionAndSubexpressions left combination with
      | .error msg => .error msg
      | .ok subLeft =>
        match evaluateExpressionAndSubexpressions right combination with
        | .error msg => .error msg
        | .ok subRight => .ok (mergeResults (mergeResults result subLeft) subRight)
    | .Or left right =>
      match evaluateExpressionAndSubexpressions left combination with
      | .error msg => .error msg
      | .ok subLeft =>
        match evaluateExpressionAndSubexpressions right combination with
        | .error msg => .error msg
        | .ok subRight => .ok (mergeResults (mergeResults result subLeft) subRight)
    | .Not operand =>
      match evaluateExpressionAndSubexpressions operand combination with
      | .error msg => .error msg
      | .ok sub => .ok (mergeResults result sub)
    | .Implies left right =>
      match evaluateExpressionAndSubexpressions left combination with
      | .error msg => .error msg
      | .ok subLeft =>
        match evaluateExpressionAndSubexpressions right combination with
        | .error msg => .error msg
        | .ok subRight => .ok (mergeResults (mergeResults result subLeft) subRight)
    | .Equivalent left right =>
      match evaluateExpressionAndSubexpressions left combination with
      | .error msg => .error msg
      | .ok subLeft =>
        match evaluateExpressionAndSubexpressions right combination with
        | .error msg => .error msg
        | .ok subRight => .ok (mergeResults (mergeResults result subLeft) subRight)
    | .Var _ => .ok result

/-- The bound `int(math.Pow(2, float64(len(variables))))` of the table loop.  The
power is exact; it fits a 64-bit `int` up to `2^62`, and beyond that the
conversion is out of range, where Go leaves the result to the platform: this is
the value on amd64, the smallest `int`. -/
def totalCombinations (n : Nat) : Int :=
  if n ≤ 62 then (2 : Int) ^ n else -(2 : Int) ^ 63

/-- The inner loop of `truthTableToJson` from index `j` on:
`combination[variable] = (i>>j)&1 == 1` for each variable in turn. -/
def combinationLoop (i : Nat) : List String → Nat → GoMap Bool → GoMap Bool
  | [], _, combination => combination
  | variableName :: rest, j, combination =>
    combinationLoop i rest (j + 1) (combination.set variableName (decide ((i >>> j) &&& 1 = 1)))

/-- The assignment that `truthTableToJson` builds in iteration `i`. -/
def combinationOf (variableList : List String) (i : Nat) : GoMap Bool :=
  combinationLoop i variableList 0 []

/-- The outer loop of `truthTableToJson` over the indices still to do: one row
per index, and a panic of the collector ends the call. -/
def tableRows (expr : Expr) (variableList : List String) :
    List Nat → Except String (List (GoMap Int))
  | [] => .ok []
  | i :: rest =>
    match evaluateExpressionAndSubexpressions expr (combinationOf variableList i) with
    | .error msg => .error msg
    | .ok result =>
      match tableRows expr variableList rest with
      | .error msg => .error msg
      | .ok results => .ok (result :: results)

/-- The function `truthTableToJson` up to the value `results` that it hands to
`json.Marshal`; the encoding of that value as text is not part of the model. -/
def truthTableToJson (expr : Expr) (variableList : List String) :
    Except String (List (GoMap Int)) :=
  tableRows expr variableList (List.range (totalCombinations variableList.length).toNat)

/-- What a call of `ExpressHandler` ends in. -/
inductive Response where
  | badRequest (error : String)
  | ok (truthTable : List (GoMap Int))
  | panicked (msg : String)
  deriving DecidableEq, Repr

/-- The function `ExpressHandler` on the query parameter `exp`: status 400 with
the parse error, or the table of the parsed tree over the variables extracted
from the text. -/
def ExpressHandler (isLetter : Char → Bool) (expression : String) : Option Response :=
  match parseExpression (Lexer expression) with
  | none => none
  | some (.error err) => some (.badRequest err)
  | some (.ok (ast, _)) =>
    match truthTableToJson ast (ExtractVariables isLetter expression) with
    | .error msg => some (.panicked msg)
    | .ok truthTable => some (.ok truthTable)

/-! ## Vocabulary of the properties -/

/-- The variable names occurring in a tree, left to right, with repetitions. -/
def occurringVars : Expr → List String
  | .Var name => [name]
  | .Not operand => occurringVars operand
  | .And left right => occurringVars left ++ occurringVars right
  | .Or left right => occurringVars left ++ occurringVars right
  | .Implies left right => occurringVars left ++ occurringVars right
  | .Equivalent left right => occurringVars left ++ occurringVars right

/-- An assignment defines every variable that occurs in the tree. -/
def DefinesAll (sigma : GoMap Bool) (e : Expr) : Prop :=
  ∀ x ∈ occurringVars e, sigma.get? x ≠ none

instance (sigma : GoMap Bool) (e : Expr) : Decidable (DefinesAll sigma e) :=
  inferInstanceAs (Decidable (∀ x ∈ occurringVars e, sigma.get? x ≠ none))

/-- A name as the lexer produces it: non-empty, ASCII letters and digits only. -/
def IsVarName (name : String) : Prop :=
  name ≠ "" ∧ ∀ c ∈ name.data, isVarChar c = true

instance (name : String) : Decidable (IsVarName name) :=
  inferInstanceAs (Decidable (name ≠ "" ∧ ∀ c ∈ name.data, isVarChar c = true))

/-- A character that `Lexer` handles in its `default` case: neither a name
character nor one of the seven operator and parenthesis characters. -/
def IsOtherChar (c : Char) : Prop :=
  isVarChar c = false ∧ c ≠ '&' ∧ c ≠ '|' ∧ c ≠ '!' ∧ c ≠ '→' ∧ c ≠ '⇔' ∧ c ≠ '(' ∧ c ≠ ')'

instance (c : Char) : Decidable (IsOtherChar c) :=
  inferInstanceAs (Decidable (isVarChar c = false ∧ c ≠ '&' ∧ c ≠ '|' ∧ c ≠ '!' ∧ c ≠ '→' ∧
    c ≠ '⇔' ∧ c ≠ '(' ∧ c ≠ ')'))

/-- One more unit of budget does not change a result. -/
def FuelMono (tokens : List Token) (fuel : Nat) : Prop :=
  (∀ pos r, parsePrimary fuel tokens pos = some r → parsePrimary (fuel + 1) tokens pos = some r) ∧
  (∀ pos r, parseNot fuel tokens pos = some r → parseNot (fuel + 1) tokens pos = some r) ∧
  (∀ pos r, parseAnd fuel tokens pos = some r → parseAnd (fuel + 1) tokens pos = some r) ∧
  (∀ e pos r, parseAndLoop fuel tokens e pos = some r →
    parseAndLoop (fuel + 1) tokens e pos = some r) ∧
  (∀ pos r, parseOr fuel tokens pos = some r → parseOr (fuel + 1) tokens pos = some r) ∧
  (∀ e pos r, parseOrLoop fuel tokens e pos = some r →
    parseOrLoop (fuel + 1) tokens e pos = some r) ∧
  (∀ pos r, parseImplies fuel tokens pos = some r → parseImplies (fuel + 1) tokens pos = some r) ∧
  (∀ e pos r, parseImpliesLoop fuel tokens e pos = some r →
    parseImpliesLoop (fuel + 1) tokens e pos = some r) ∧
  (∀ pos r, parseEquivalent fuel tokens pos = some r →
    parseEquivalent (fuel + 1) tokens pos = some r) ∧
  (∀ e pos r, parseEquivalentLoop fuel tokens e pos = some r →
    parseEquivalentLoop (fuel + 1) tokens e pos = some r)

/-- A successful parse moves the cursor: forward by at least one token for the
six parse functions, not backward for the four loops, and never past the end. -/
def Advances (tokens : List Token) (fuel : Nat) : Prop :=
  (∀ pos e p, parsePrimary fuel tokens pos = some (.ok (e, p)) → pos < p ∧ p ≤ tokens.length) ∧
  (∀ pos e p, parseNot fuel tokens pos = some (.ok (e, p)) → pos < p ∧ p ≤ tokens.length) ∧
  (∀ pos e p, parseAnd fuel tokens pos = some (.ok (e, p)) → pos < p ∧ p ≤ tokens.length) ∧
  (∀ e0 pos e p, parseAndLoop fuel tokens e0 pos = some (.ok (e, p)) →
    pos ≤ p ∧ (pos ≤ tokens.length → p ≤ tokens.length)) ∧
  (∀ pos e p, parseOr fuel tokens pos = some (.ok (e, p)) → pos < p ∧ p ≤ tokens.length) ∧
  (∀ e0 pos e p, parseOrLoop fuel tokens e0 pos = some (.ok (e, p)) →
    pos ≤ p ∧ (pos ≤ tokens.length → p ≤ tokens.length)) ∧
  (∀ pos e p, parseImplies fuel tokens pos = some (.ok (e, p)) → pos < p ∧ p ≤ tokens.length) ∧
  (∀ e0 pos e p, parseImpliesLoop fuel tokens e0 pos = some (.ok (e, p)) →
    pos ≤ p ∧ (pos ≤ tokens.length → p ≤ tokens.length)) ∧
  (∀ pos e p, parseEquivalent fuel tokens pos = some (.ok (e, p)) → pos < p ∧ p ≤ tokens.length) ∧
  (∀ e0 pos e p, parseEquivalentLoop fuel tokens e0 pos = some (.ok (e, p)) →
    pos ≤ p ∧ (pos ≤ tokens.length → p ≤ tokens.length))

/-- The budget that each parse function needs at a cursor position: six units per
remaining token, and one unit for each level the function is above
`parsePrimary`. -/
def EnoughFuel (tokens : List Token) (fuel : Nat) : Prop :=
  (∀ pos, 6 * (tokens.length - pos) + 1 ≤ fuel → parsePrimary fuel tokens pos ≠ none) ∧
  (∀ pos, 6 * (tokens.length - pos) + 2 ≤ fuel → parseNot fuel tokens pos ≠ none) ∧
  (∀ pos, 6 * (tokens.length - pos) + 3 ≤ fuel → parseAnd fuel tokens pos ≠ none) ∧
  (∀ e0 pos, pos ≤ tokens.length → 6 * (tokens.length - pos) + 1 ≤ fuel →
    parseAndLoop fuel tokens e0 pos ≠ none) ∧
  (∀ pos, 6 * (tokens.length - pos) + 4 ≤ fuel → parseOr fuel tokens pos ≠ none) ∧
  (∀ e0 pos, pos ≤ tokens.length → 6 * (tokens.length - pos) + 1 ≤ fuel →
    parseOrLoop fuel tokens e0 pos ≠ none) ∧
  (∀ pos, 6 * (tokens.length - pos) + 5 ≤ fuel → parseImplies fuel tokens pos ≠ none) ∧
  (∀ e0 pos, pos ≤ tokens.length → 6 * (tokens.length - pos) + 1 ≤ fuel →
    parseImpliesLoop fuel tokens e0 pos ≠ none) ∧
  (∀ pos, 6 * (tokens.length - pos) + 6 ≤ fuel → parseEquivalent fuel tokens pos ≠ none) ∧
  (∀ e0 pos, pos ≤ tokens.length → 6 * (tokens.length - pos) + 1 ≤ fuel →
    parseEquivalentLoop fuel tokens e0 pos ≠ none)

/-- None of the six parse functions returns a tree. -/
def NeverOk (tokens : List Token) (fuel : Nat) : Prop :=
  (∀ pos e p, parsePrimary fuel tokens pos ≠ some (.ok (e, p))) ∧
  (∀ pos e p, parseNot fuel tokens pos ≠ some (.ok (e, p))) ∧
  (∀ pos e p, parseAnd fuel tokens pos ≠ some (.ok (e, p))) ∧
  (∀ pos e p, parseOr fuel tokens pos ≠ some (.ok (e, p))) ∧
  (∀ pos e p, parseImplies fuel tokens pos ≠ some (.ok (e, p))) ∧
  (∀ pos e p, parseEquivalent fuel tokens pos ≠ some (.ok (e, p)))

/-- Sixty-three distinct names: `a`, `aa`, `aaa`, and so on. -/
def sixtyThreeNames : List String :=
  (List.range 63).map (fun k => String.mk (List.replicate (k + 1) 'a'))

/-- The assignment maps the `j`-th variable of the list to bit `j` of `i`. -/
def IsAssignmentOfIndex (sigma : GoMap Bool) (variableList : List String) (i : Nat) : Prop :=
  ∀ j, ∀ hj : j < variableList.length,
    sigma.get? (variableList.get ⟨j, hj⟩) = some (decide ((i >>> j) &&& 1 = 1))

/-- The subexpressions of a tree: the tree itself and every descendant. -/
def subexpressions : Expr → List Expr
  | .Var name => [.Var name]
  | .Not operand => .Not operand :: subexpressions operand
  | .And left right => .And left right :: (subexpressions left ++ subexpressions right)
  | .Or left right => .Or left right :: (subexpressions left ++ subexpressions right)
  | .Implies left right => .Implies left right :: (subexpressions left ++ subexpressions right)
  | .Equivalent left right =>
    .Equivalent left right :: (subexpressions left ++ subexpressions right)

/-- Every variable of the tree has a name as the lexer produces it. -/
def HasVarNames (e : Expr) : Prop := ∀ x ∈ occurringVars e, IsVarName x

instance (e : Expr) : Decidable (HasVarNames e) :=
  inferInstanceAs (Decidable (∀ x ∈ occurringVars e, IsVarName x))

/-- What a row of the collector holds, stated without reference to the order of
the writes: one entry per key, every entry is the rendering of a subexpression
with the value of one subexpression of that rendering, and the rendering of
every subexpression is a key. -/
def RowOf (e : Expr) (sigma : GoMap Bool) (row : GoMap Int) : Prop :=
  (GoMap.keys row).Nodup ∧
  (∀ k v, GoMap.get? row k = some v → ∃ s ∈ subexpressions e, k = s.String ∧
    ∃ b, Evaluate s sigma = .ok b ∧ v = (if b then 1 else 0)) ∧
  (∀ s ∈ subexpressions e, GoMap.get? row s.String ≠ none)

/-- A rune sequence that does not continue a name: it is empty or starts with a
character that is not a name character. -/
def Stops (r : List Char) : Prop := ∀ c ∈ r.head?, isVarChar c = false

/-- The tokens of the rendering of a tree. -/
def tokensOf : Expr → List Token
  | .Var name => [⟨TokenTypeVar, name⟩]
  | .Not operand => ⟨TokenTypeNot, ""⟩ :: tokensOf operand
  | .And left right =>
    ⟨TokenTypeLparen, ""⟩ :: (tokensOf left ++ ⟨TokenTypeAnd, ""⟩ :: (tokensOf right
      ++ [⟨TokenTypeRparen, ""⟩]))
  | .Or left right =>
    ⟨TokenTypeLparen, ""⟩ :: (tokensOf left ++ ⟨TokenTypeOr, ""⟩ :: (tokensOf right
      ++ [⟨TokenTypeRparen, ""⟩]))
  | .Implies left right =>
    ⟨TokenTypeLparen, ""⟩ :: (tokensOf left ++ ⟨TokenTypeImplies, ""⟩ :: (tokensOf right
      ++ [⟨TokenTypeRparen, ""⟩]))
  | .Equivalent left right =>
    ⟨TokenTypeLparen, ""⟩ :: (tokensOf left ++ ⟨TokenTypeEquivalent, ""⟩ :: (tokensOf right
      ++ [⟨TokenTypeRparen, ""⟩]))

/-- The node is a negation. -/
def isNot : Expr → Bool
  | .Not _ => true
  | _ => false

/-- No negation in the tree has a negation as its operand. -/
def noNestedNot : Expr → Bool
  | .Var _ => true
  | .Not operand => !isNot operand && noNestedNot operand
  | .And left right => noNestedNot left && noNestedNot right
  | .Or left right => noNestedNot left && noNestedNot right
  | .Implies left right => noNestedNot left && noNestedNot right
  | .Equivalent left right => noNestedNot left && noNestedNot right

/-- The invariant of the loop of `Lexer`: the VAR tokens so far carry lexer-shaped
names, and the pending name has name characters only. -/
def LexInv (st : LexState) : Prop :=
  (∀ tok ∈ st.tokens, tok.Typ = TokenTypeVar → IsVarName tok.Value) ∧
  (∀ c ∈ st.currentVar.data, isVarChar c = true)

/-- Text in front of which a pending name is committed before anything else is
read: lexing it with the name pending gives what lexing it after the commit
gives. -/
def CommitsFirst (rest : List Char) : Prop :=
  ∀ (ts : List Token) (n : String), n ≠ "" →
    commitVar (rest.foldl lexStep ⟨ts, n⟩)
      = commitVar (rest.foldl lexStep ⟨ts ++ [⟨TokenTypeVar, n⟩], ""⟩)

/-- The trees that the parse functions return have their variable names among
those with the property `Q`; for the loops, given that the tree they start
from has. -/
def NamesFrom (Q : String → Prop) (tokens : List Token) (fuel : Nat) : Prop :=
  (∀ pos e p, parsePrimary fuel tokens pos = some (.ok (e, p)) →
    ∀ x ∈ occurringVars e, Q x) ∧
  (∀ pos e p, parseNot fuel tokens pos = some (.ok (e, p)) → ∀ x ∈ occurringVars e, Q x) ∧
  (∀ pos e p, parseAnd fuel tokens pos = some (.ok (e, p)) → ∀ x ∈ occurringVars e, Q x) ∧
  (∀ e0 pos e p, (∀ x ∈ occurringVars e0, Q x) →
    parseAndLoop fuel tokens e0 pos = some (.ok (e, p)) → ∀ x ∈ occurringVars e, Q x) ∧
  (∀ pos e p, parseOr fuel tokens pos = some (.ok (e, p)) → ∀ x ∈ occurringVars e, Q x) ∧
  (∀ e0 pos e p, (∀ x ∈ occurringVars e0, Q x) →
    parseOrLoop fuel tokens e0 pos = some (.ok (e, p)) → ∀ x ∈ occurringVars e, Q x) ∧
  (∀ pos e p, parseImplies fuel tokens pos = some (.ok (e, p)) →
    ∀ x ∈ occurringVars e, Q x) ∧
  (∀ e0 pos e p, (∀ x ∈ occurringVars e0, Q x) →
    parseImpliesLoop fuel tokens e0 pos = some (.ok (e, p)) → ∀ x ∈ occurringVars e, Q x) ∧
  (∀ pos e p, parseEquivalent fuel tokens pos = some (.ok (e, p)) →
    ∀ x ∈ occurringVars e, Q x) ∧
  (∀ e0 pos e p, (∀ x ∈ occurringVars e0, Q x) →
    parseEquivalentLoop fuel tokens e0 pos = some (.ok (e, p)) → ∀ x ∈ occurringVars e, Q x)

/-- The message of the panic in `Var.Evaluate`. -/
def undefinedVariable (name : String) : String := "Variable " ++ name ++ " not defined"

/-- From the cursor `pos` on, the operands `es` follow one after another, each
behind a `⇔` token and each parsed by `parseImplies`, and the cursor behind the
last one is `q`. -/
def EquivalentChain (tokens : List Token) : Nat → List Expr → Nat → Prop
  | pos, [], q => q = pos
  | pos, e :: es, q =>
    peekIs tokens pos TokenTypeEquivalent = true ∧
    ∃ p1, (∃ fuel, parseImplies fuel tokens (pos + 1) = some (.ok (e, p1))) ∧
      EquivalentChain tokens p1 es q

/-- A successful parse of `ts` is also the parse of `ts ++ r`: same tree, same
cursor; for the loops, when entered at a cursor inside `ts` or at its end. -/
def Extends (ts r : List Token) (fuel : Nat) : Prop :=
  (∀ pos e p, parsePrimary fuel ts pos = some (.ok (e, p)) →
    parsePrimary fuel (ts ++ r) pos = some (.ok (e, p))) ∧
  (∀ pos e p, parseNot fuel ts pos = some (.ok (e, p)) →
    parseNot fuel (ts ++ r) pos = some (.ok (e, p))) ∧
  (∀ pos e p, parseAnd fuel ts pos = some (.ok (e, p)) →
    parseAnd fuel (ts ++ r) pos = some (.ok (e, p))) ∧
  (∀ e0 pos e p, pos ≤ ts.length → parseAndLoop fuel ts e0 pos = some (.ok (e, p)) →
    parseAndLoop fuel (ts ++ r) e0 pos = some (.ok (e, p))) ∧
  (∀ pos e p, parseOr fuel ts pos = some (.ok (e, p)) →
    parseOr fuel (ts ++ r) pos = some (.ok (e, p))) ∧
  (∀ e0 pos e p, pos ≤ ts.length → parseOrLoop fuel ts e0 pos = some (.ok (e, p)) →
    parseOrLoop fuel (ts ++ r) e0 pos = some (.ok (e, p))) ∧
  (∀ pos e p, parseImplies fuel ts pos = some (.ok (e, p)) →
    parseImplies fuel (ts ++ r) pos = some (.ok (e, p))) ∧
  (∀ e0 pos e p, pos ≤ ts.length → parseImpliesLoop fuel ts e0 pos = some (.ok (e, p)) →
    parseImpliesLoop fuel (ts ++ r) e0 pos = some (.ok (e, p))) ∧
  (∀ pos e p, parseEquivalent fuel ts pos = some (.ok (e, p)) →
    parseEquivalent fuel (ts ++ r) pos = some (.ok (e, p))) ∧
  (∀ e0 pos e p, pos ≤ ts.length → parseEquivalentLoop fuel ts e0 pos = some (.ok (e, p)) →
    parseEquivalentLoop fuel (ts ++ r) e0 pos = some (.ok (e, p)))

/-- The run `n` is a maximal run of letters of the text `s`: a non-empty stretch of
letters of `s` that is neither preceded nor followed by a letter. -/
def IsMaximalLetterRun (isLetter : Char → Bool) (s n : List Char) : Prop :=
  ∃ pre post, s = pre ++ n ++ post ∧ n ≠ [] ∧ (∀ c ∈ n, isLetter c = true) ∧
    (pre = [] ∨ ∃ pre1 x, pre = pre1 ++ [x] ∧ isLetter x = false) ∧
    (post = [] ∨ ∃ x post1, post = x :: post1 ∧ isLetter x = false)

/-- The set that `ExtractVariables` sorts: the set of the loop with the name that
is pending at the end of the text, if there is one. -/
def finalVarSet (st : ExtractState) : GoMap Unit :=
  if st.currentVar.length > 0 then st.varSet.set st.currentVar () else st.varSet

/-- What the development uses of `unicode.IsLetter` beyond ASCII: the two operator
glyphs are not letters. -/
def GlyphsNotLetters (isLetter : Char → Bool) : Prop :=
  isLetter '→' = false ∧ isLetter '⇔' = false

/-- A character of the expression language without digits: an ASCII letter or one
of the seven operator and parenthesis characters. -/
def IsLetterOrOperator (c : Char) : Prop :=
  c.isAlpha = true ∨ c = '&' ∨ c = '|' ∨ c = '!' ∨ c = '→' ∨ c = '⇔' ∨ c = '(' ∨ c = ')'

instance (c : Char) : Decidable (IsLetterOrOperator c) :=
  inferInstanceAs (Decidable (c.isAlpha = true ∨ c = '&' ∨ c = '|' ∨ c = '!' ∨ c = '→' ∨
    c = '⇔' ∨ c = '(' ∨ c = ')'))

/-- The loop of `Lexer` and the loop of `ExtractVariables` in step: the same
pending name, and every VAR token so far is in the set. -/
def InStep (lst : LexState) (est : ExtractState) : Prop :=
  lst.currentVar = est.currentVar ∧
  ∀ tok ∈ lst.tokens, tok.Typ = TokenTypeVar → tok.Value ∈ GoMap.keys est.varSet

/-- A call of one of the ten parse functions: which function, the cursor it is
entered with and, for a loop, the tree built so far. -/
inductive Call where
  | primary (pos : Nat)
  | not (pos : Nat)
  | and (pos : Nat)
  | andLoop (expr : Expr) (pos : Nat)
  | or (pos : Nat)
  | orLoop (expr : Expr) (pos : Nat)
  | implies (pos : Nat)
  | impliesLoop (expr : Expr) (pos : Nat)
  | equivalent (pos : Nat)
  | equivalentLoop (expr : Expr) (pos : Nat)

/-- The result of a call under a recursion budget. -/
def runCall (fuel : Nat) (tokens : List Token) : Call → ParseResult
  | .primary pos => parsePrimary fuel tokens pos
  | .not pos => parseNot fuel tokens pos
  | .and pos => parseAnd fuel tokens pos
  | .andLoop expr pos => parseAndLoop fuel tokens expr pos
  | .or pos => parseOr fuel tokens pos
  | .orLoop expr pos => parseOrLoop fuel tokens expr pos
  | .implies pos => parseImplies fuel tokens pos
  | .impliesLoop expr pos => parseImpliesLoop fuel tokens expr pos
  | .equivalent pos => parseEquivalent fuel tokens pos
  | .equivalentLoop expr pos => parseEquivalentLoop fuel tokens expr pos

/-- The calls that a call makes, read off the bodies of the parse functions: the
first call of a body, and each later call when the calls before it in the body
have returned a tree and the condition in front of it holds. -/
inductive Invokes (tokens : List Token) : Call → Call → Prop
  | primary_inner (pos : Nat) (token : Token) :
    tokens[pos]? = some token → token.Typ = TokenTypeLparen →
    Invokes tokens (.primary pos) (.equivalent (pos + 1))
  | not_operand (pos : Nat) :
    peekIs tokens pos TokenTypeNot = true → Invokes tokens (.not pos) (.primary (pos + 1))
  | not_plain (pos : Nat) :
    peekIs tokens pos TokenTypeNot = false → Invokes tokens (.not pos) (.primary pos)
  | and_first (pos : Nat) : Invokes tokens (.and pos) (.not pos)
  | and_loop (pos : Nat) (e : Expr) (p1 : Nat) :
    (∃ fuel, parseNot fuel tokens pos = some (.ok (e, p1))) →
    Invokes tokens (.and pos) (.andLoop e p1)
  | andLoop_right (e0 : Expr) (pos : Nat) :
    peekIs tokens pos TokenTypeAnd = true → Invokes tokens (.andLoop e0 pos) (.not (pos + 1))
  | andLoop_again (e0 : Expr) (pos : Nat) (r : Expr) (p1 : Nat) :
    peekIs tokens pos TokenTypeAnd = true →
    (∃ fuel, parseNot fuel tokens (pos + 1) = some (.ok (r, p1))) →
    Invokes tokens (.andLoop e0 pos) (.andLoop (.And e0 r) p1)
  | or_first (pos : Nat) : Invokes tokens (.or pos) (.and pos)
  | or_loop (pos : Nat) (e : Expr) (p1 : Nat) :
    (∃ fuel, parseAnd fuel tokens pos = some (.ok (e, p1))) →
    Invokes tokens (.or pos) (.orLoop e p1)
  | orLoop_right (e0 : Expr) (pos : Nat) :
    peekIs tokens pos TokenTypeOr = true → Invokes tokens (.orLoop e0 pos) (.and (pos + 1))
  | orLoop_again (e0 : Expr) (pos : Nat) (r : Expr) (p1 : Nat) :
    peekIs tokens pos TokenTypeOr = true →
    (∃ fuel, parseAnd fuel tokens (pos + 1) = some (.ok (r, p1))) →
    Invokes tokens (.orLoop e0 pos) (.orLoop (.Or e0 r) p1)
  | implies_first (pos : Nat) : Invokes tokens (.implies pos) (.or pos)
  | implies_loop (pos : Nat) (e : Expr) (p1 : Nat) :
    (∃ fuel, parseOr fuel tokens pos = some (.ok (e, p1))) →
    Invokes tokens (.implies pos) (.impliesLoop e p1)
  | impliesLoop_right (e0 : Expr) (pos : Nat) :
    peekIs tokens pos TokenTypeImplies = true → Invokes tokens (.impliesLoop e0 pos) (.implies (pos + 1))
  | impliesLoop_again (e0 : Expr) (pos : Nat) (r : Expr) (p1 : Nat) :
    peekIs tokens pos TokenTypeImplies = true →
    (∃ fuel, parseImplies fuel tokens (pos + 1) = some (.ok (r, p1))) →
    Invokes tokens (.impliesLoop e0 pos) (.impliesLoop (.Implies e0 r) p1)
  | equivalent_first (pos : Nat) : Invokes tokens (.equivalent pos) (.implies pos)
  | equivalent_loop (pos : Nat) (e : Expr) (p1 : Nat) :
    (∃ fuel, parseImplies fuel tokens pos = some (.ok (e, p1))) →
    Invokes tokens (.equivalent pos) (.equivalentLoop e p1)
  | equivalentLoop_right (e0 : Expr) (pos : Nat) :
    peekIs tokens pos TokenTypeEquivalent = true → Invokes tokens (.equivalentLoop e0 pos) (.implies (pos + 1))
  | equivalentLoop_again (e0 : Expr) (pos : Nat) (r : Expr) (p1 : Nat) :
    peekIs tokens pos TokenTypeEquivalent = true →
    (∃ fuel, parseImplies fuel tokens (pos + 1) = some (.ok (r, p1))) →
    Invokes tokens (.equivalentLoop e0 pos) (.equivalentLoop (.Equivalent e0 r) p1)

/-- The call is made in the course of `parseEquivalent(tokens, &pos)` with
`pos = 0`: there is a chain of calls from that one to it. -/
def Reaches (tokens : List Token) (c : Call) : Prop :=
  Relation.ReflTransGen (Invokes tokens) (.equivalent 0) c

/-! ## The lexer -/

theorem foldl_lexStep_varChars (l : List Char) (h : ∀ c ∈ l, isVarChar c = true)
    (st : LexState) :
    l.foldl lexStep st = ⟨st.tokens, st.currentVar ++ String.mk l⟩ := by
  induction l generalizing st with
  | nil =>
    cases st
    simp [String.ext_iff]
  | cons c l ih =>
    have hc : isVarChar c = true := h c (List.mem_cons_self _ _)
    have hl : ∀ d ∈ l, isVarChar d = true := fun d hd => h d (List.mem_cons_of_mem _ hd)
    rw [List.foldl_cons, ih hl]
    simp [lexStep, hc, String.ext_iff]

theorem lexStep_other (st : LexState) (c : Char) (hc : IsOtherChar c) : lexStep st c = st := by
  obtain ⟨h0, h1, h2, h3, h4, h5, h6, h7⟩ := hc
  simp [lexStep, h0, h1, h2, h3, h4, h5, h6, h7]

/-- C4, as the code has it: a character of the `default` case is skipped and
does not end the pending name, so `u`, the character and `v` lex to the single
token `VARIABLE(u ++ v)`. -/
theorem Lexer_other_char_joins (u v : String) (c : Char) (hu : IsVarName u)
    (hv : IsVarName v) (hc : IsOtherChar c) :
    Lexer (u ++ String.singleton c ++ v) = [⟨TokenTypeVar, u ++ v⟩] := by
  have hne : u ++ v ≠ "" := by
    intro h
    apply hu.1
    have := congrArg String.data h
    simp at this
    exact String.ext (by simpa using this.1)
  have hs : (String.singleton c).data = [c] := rfl
  unfold Lexer
  simp only [String.data_append, hs, List.foldl_append, List.foldl_cons, List.foldl_nil]
  rw [foldl_lexStep_varChars _ hu.2, lexStep_other _ _ hc, foldl_lexStep_varChars _ hv.2]
  have e : ("" ++ String.mk u.data) ++ String.mk v.data = u ++ v := by
    simp [String.ext_iff]
  simp only [e, commitVar]
  simp [hne]

/-- Witness of `Lexer_other_char_joins`: the input `p q`. -/
theorem Lexer_other_char_joins_witness :
    Lexer ("p" ++ String.singleton ' ' ++ "q") = [⟨TokenTypeVar, "p" ++ "q"⟩] :=
  Lexer_other_char_joins "p" "q" ' ' (by decide) (by decide) (by decide)

/-- C4 fails as stated: `p q` lexes to one token, not to `VARIABLE(p)`,
`VARIABLE(q)`. -/
theorem Lexer_space_does_not_flush :
    IsVarName "p" ∧ IsVarName "q" ∧ IsOtherChar ' ' ∧
      Lexer ("p" ++ String.singleton ' ' ++ "q") = [⟨TokenTypeVar, "pq"⟩] ∧
      Lexer ("p" ++ String.singleton ' ' ++ "q") ≠
        [⟨TokenTypeVar, "p"⟩, ⟨TokenTypeVar, "q"⟩] := by
  decide

/-! ## The evaluator -/

theorem Evaluate_ok_of_definesAll (e : Expr) (sigma : GoMap Bool) (h : DefinesAll sigma e) :
    ∃ b, Evaluate e sigma = .ok b := by
  induction e with
  | Var name =>
    have hx : sigma.get? name ≠ none := h name (by simp [occurringVars])
    obtain ⟨v, hv⟩ := Option.ne_none_iff_exists'.mp hx
    exact ⟨v, by simp [Evaluate, hv]⟩
  | Not operand ih =>
    obtain ⟨b, hb⟩ := ih (fun x hx => h x (by simpa [occurringVars] using hx))
    exact ⟨!b, by simp [Evaluate, hb]⟩
  | And left right ihl ihr =>
    obtain ⟨a, ha⟩ := ihl (fun x hx => h x (by simp [occurringVars, hx]))
    obtain ⟨b, hb⟩ := ihr (fun x hx => h x (by simp [occurringVars, hx]))
    cases a <;> cases b <;> simp [Evaluate, ha, hb]
  | Or left right ihl ihr =>
    obtain ⟨a, ha⟩ := ihl (fun x hx => h x (by simp [occurringVars, hx]))
    obtain ⟨b, hb⟩ := ihr (fun x hx => h x (by simp [occurringVars, hx]))
    cases a <;> cases b <;> simp [Evaluate, ha, hb]
  | Implies left right ihl ihr =>
    obtain ⟨a, ha⟩ := ihl (fun x hx => h x (by simp [occurringVars, hx]))
    obtain ⟨b, hb⟩ := ihr (fun x hx => h x (by simp [occurringVars, hx]))
    cases a <;> cases b <;> simp [Evaluate, ha, hb]
  | Equivalent left right ihl ihr =>
    obtain ⟨a, ha⟩ := ihl (fun x hx => h x (by simp [occurringVars, hx]))
    obtain ⟨b, hb⟩ := ihr (fun x hx => h x (by simp [occurringVars, hx]))
    cases a <;> cases b <;> simp [Evaluate, ha, hb]

/-- C6: `Implies{L,R}` and `Or{Not{L},R}` evaluate to the same outcome under every
assignment, the same boolean or the same panic. -/
theorem Evaluate_Implies_eq_Or_Not (L R : Expr) (sigma : GoMap Bool) :
    Evaluate (.Implies L R) sigma = Evaluate (.Or (.Not L) R) sigma := by
  simp only [Evaluate]
  cases hL : Evaluate L sigma with
  | error msg => rfl
  | ok a => cases a <;> rfl

/-- C7: when the assignment defines the variables of `L` and `R`,
`Equivalent{L,R}` evaluates to a boolean, which is true exactly when `L` and `R`
evaluate equal, and it evaluates as `Equivalent{R,L}` does; for `a⇔b` the
results are 1,0,0,1 for (a,b) = (0,0),(0,1),(1,0),(1,1), and the four rows of
its table hold 1,0,0,1 under the key of the root. -/
theorem Evaluate_Equivalent_iff_equal (L R : Expr) (sigma : GoMap Bool)
    (hL : DefinesAll sigma L) (hR : DefinesAll sigma R) :
    (∃ b, Evaluate (.Equivalent L R) sigma = .ok b) ∧
    (Evaluate (.Equivalent L R) sigma = .ok true ↔ Evaluate L sigma = Evaluate R sigma) ∧
    Evaluate (.Equivalent L R) sigma = Evaluate (.Equivalent R L) sigma ∧
    Evaluate (.Equivalent (.Var "a") (.Var "b")) [("a", false), ("b", false)] = .ok true ∧
    Evaluate (.Equivalent (.Var "a") (.Var "b")) [("a", false), ("b", true)] = .ok false ∧
    Evaluate (.Equivalent (.Var "a") (.Var "b")) [("a", true), ("b", false)] = .ok false ∧
    Evaluate (.Equivalent (.Var "a") (.Var "b")) [("a", true), ("b", true)] = .ok true ∧
    (truthTableToJson (.Equivalent (.Var "a") (.Var "b")) ["a", "b"]).map
        (List.map (fun row => row.get? "(a ⇔ b)")) = .ok [some 1, some 0, some 0, some 1] := by
  obtain ⟨a, ha⟩ := Evaluate_ok_of_definesAll L sigma hL
  obtain ⟨b, hb⟩ := Evaluate_ok_of_definesAll R sigma hR
  refine ⟨?_, ?_, ?_, by decide, by decide, by decide, by decide, by decide⟩
  · cases a <;> cases b <;> simp [Evaluate, ha, hb]
  · cases a <;> cases b <;> simp [Evaluate, ha, hb]
  · cases a <;> cases b <;> simp [Evaluate, ha, hb]

/-- Witness of `Evaluate_Equivalent_iff_equal`: `p ⇔ !q` under p = q = true. -/
theorem Evaluate_Equivalent_iff_equal_witness :
    (∃ b, Evaluate (.Equivalent (.Var "p") (.Not (.Var "q"))) [("p", true), ("q", true)]
      = .ok b) ∧
    (Evaluate (.Equivalent (.Var "p") (.Not (.Var "q"))) [("p", true), ("q", true)] = .ok true ↔
      Evaluate (.Var "p") [("p", true), ("q", true)]
        = Evaluate (.Not (.Var "q")) [("p", true), ("q", true)]) ∧
    Evaluate (.Equivalent (.Var "p") (.Not (.Var "q"))) [("p", true), ("q", true)]
      = Evaluate (.Equivalent (.Not (.Var "q")) (.Var "p")) [("p", true), ("q", true)] ∧
    Evaluate (.Equivalent (.Var "a") (.Var "b")) [("a", false), ("b", false)] = .ok true ∧
    Evaluate (.Equivalent (.Var "a") (.Var "b")) [("a", false), ("b", true)] = .ok false ∧
    Evaluate (.Equivalent (.Var "a") (.Var "b")) [("a", true), ("b", false)] = .ok false ∧
    Evaluate (.Equivalent (.Var "a") (.Var "b")) [("a", true), ("b", true)] = .ok true ∧
    (truthTableToJson (.Equivalent (.Var "a") (.Var "b")) ["a", "b"]).map
        (List.map (fun row => row.get? "(a ⇔ b)")) = .ok [some 1, some 0, some 0, some 1] :=
  Evaluate_Equivalent_iff_equal (.Var "p") (.Not (.Var "q")) [("p", true), ("q", true)]
    (by decide) (by decide)

/-! ## Variable extraction -/

/-- C10 at the input `Implies{Var a, Var b}`: the type switch of
`extractVariablesFromExpr` has no case for `Implies` (nor for `Equivalent`), so
the result is empty although `a` and `b` occur; under `And` the same tree
contributes nothing either. -/
theorem extractVariablesFromExpr_misses_Implies :
    extractVariablesFromExpr (.Implies (.Var "a") (.Var "b")) [] = [] ∧
    extractVariablesFromExpr (.Equivalent (.Var "a") (.Var "b")) [] = [] ∧
    extractVariablesFromExpr (.And (.Implies (.Var "a") (.Var "b")) (.Var "c")) [] = ["c"] ∧
    extractVariablesFromExpr (.Or (.Var "b") (.Not (.Var "a"))) [] = ["a", "b"] := by
  decide

/-! ## The parser: budget, progress and totality -/

theorem peekIs_lt {tokens : List Token} {pos : Nat} {ty : TokenType}
    (h : peekIs tokens pos ty = true) : pos < tokens.length := by
  unfold peekIs at h
  split at h
  · rename_i token ht
    exact (List.getElem?_eq_some_iff.mp ht).1
  · simp at h

theorem fuelMono (tokens : List Token) : ∀ fuel, FuelMono tokens fuel := by
  intro fuel
  induction fuel with
  | zero =>
    refine ⟨?_, ?_, ?_, ?_, ?_, ?_, ?_, ?_, ?_, ?_⟩ <;> intros <;> rename_i h <;>
      simp [parsePrimary, parseNot, parseAnd, parseAndLoop, parseOr, parseOrLoop, parseImplies,
        parseImpliesLoop, parseEquivalent, parseEquivalentLoop] at h
  | succ fuel ih =>
    obtain ⟨iP, iN, iA, iAL, iO, iOL, iI, iIL, iE, iEL⟩ := ih
    refine ⟨?_, ?_, ?_, ?_, ?_, ?_, ?_, ?_, ?_, ?_⟩
    · intro pos r h
      rw [parsePrimary] at h ⊢
      cases ht : tokens[pos]? with
      | none => simpa [ht] using h
      | some token =>
        simp only [ht] at h ⊢
        cases hty : token.Typ <;> simp only [hty] at h ⊢ <;> try exact h
        cases hE : parseEquivalent fuel tokens (pos + 1) with
        | none => simp [hE] at h
        | some res =>
          rw [iE _ _ hE]
          simpa [hE] using h
    · intro pos r h
      rw [parseNot] at h ⊢
      by_cases hc : peekIs tokens pos TokenTypeNot = true
      · simp only [hc, if_true] at h ⊢
        cases hE : parsePrimary fuel tokens (pos + 1) with
        | none => simp [hE] at h
        | some res =>
          rw [iP _ _ hE]
          simpa [hE] using h
      · simp only [hc] at h ⊢
        exact iP _ _ h
    · intro pos r h
      rw [parseAnd] at h ⊢
      cases hE : parseNot fuel tokens pos with
      | none => simp [hE] at h
      | some res =>
        rw [iN _ _ hE]
        rw [hE] at h
        rcases res with msg | ⟨e1, p1⟩
        · exact h
        · exact iAL _ _ _ h
    · intro e pos r h
      rw [parseAndLoop] at h ⊢
      by_cases hc : peekIs tokens pos TokenTypeAnd = true
      · simp only [hc, if_true] at h ⊢
        cases hE : parseNot fuel tokens (pos + 1) with
        | none => simp [hE] at h
        | some res =>
          rw [iN _ _ hE]
          rw [hE] at h
          rcases res with msg | ⟨e1, p1⟩
          · exact h
          · exact iAL _ _ _ h
      · simp only [hc] at h ⊢
        exact h
    · intro pos r h
      rw [parseOr] at h ⊢
      cases hE : parseAnd fuel tokens pos with
      | none => simp [hE] at h
      | some res =>
        rw [iA _ _ hE]
        rw [hE] at h
        rcases res with msg | ⟨e1, p1⟩
        · exact h
        · exact iOL _ _ _ h
    · intro e pos r h
      rw [parseOrLoop] at h ⊢
      by_cases hc : peekIs tokens pos TokenTypeOr = true
      · simp only [hc, if_true] at h ⊢
        cases hE : parseAnd fuel tokens (pos + 1) with
        | none => simp [hE] at h
        | some res =>
          rw [iA _ _ hE]
          rw [hE] at h
          rcases res with msg | ⟨e1, p1⟩
          · exact h
          · exact iOL _ _ _ h
      · simp only [hc] at h ⊢
        exact h
    · intro pos r h
      rw [parseImplies] at h ⊢
      cases hE : parseOr fuel tokens pos with
      | none => simp [hE] at h
      | some res =>
        rw [iO _ _ hE]
        rw [hE] at h
        rcases res with msg | ⟨e1, p1⟩
        · exact h
        · exact iIL _ _ _ h
    · intro e pos r h
      rw [parseImpliesLoop] at h ⊢
      by_cases hc : peekIs tokens pos TokenTypeImplies = true
      · simp only [hc, if_true] at h ⊢
        cases hE : parseImplies fuel tokens (pos + 1) with
        | none => simp [hE] at h
        | some res =>
          rw [iI _ _ hE]
          rw [hE] at h
          rcases res with msg | ⟨e1, p1⟩
          · exact h
          · exact iIL _ _ _ h
      · simp only [hc] at h ⊢
        exact h
    · intro pos r h
      rw [parseEquivalent] at h ⊢
      cases hE : parseImplies fuel tokens pos with
      | none => simp [hE] at h
      | some res =>
        rw [iI _ _ hE]
        rw [hE] at h
        rcases res with msg | ⟨e1, p1⟩
        · exact h
        · exact iEL _ _ _ h
    · intro e pos r h
      rw [parseEquivalentLoop] at h ⊢
      by_cases hc : peekIs tokens pos TokenTypeEquivalent = true
      · simp only [hc, if_true] at h ⊢
        cases hE : parseImplies fuel tokens (pos + 1) with
        | none => simp [hE] at h
        | some res =>
          rw [iI _ _ hE]
          rw [hE] at h
          rcases res with msg | ⟨e1, p1⟩
          · exact h
          · exact iEL _ _ _ h
      · simp only [hc] at h ⊢
        exact h

theorem advances (tokens : List Token) : ∀ fuel, Advances tokens fuel := by
  intro fuel
  induction fuel with
  | zero =>
    refine ⟨?_, ?_, ?_, ?_, ?_, ?_, ?_, ?_, ?_, ?_⟩ <;> intros <;> rename_i h <;>
      simp [parsePrimary, parseNot, parseAnd, parseAndLoop, parseOr, parseOrLoop, parseImplies, parseImpliesLoop, parseEquivalent, parseEquivalentLoop] at h
  | succ fuel ih =>
    obtain ⟨iP, iN, iA, iAL, iO, iOL, iI, iIL, iE, iEL⟩ := ih
    refine ⟨?_, ?_, ?_, ?_, ?_, ?_, ?_, ?_, ?_, ?_⟩
    · intro pos e p h
      rw [parsePrimary] at h
      cases ht : tokens[pos]? with
      | none => simp [ht] at h
      | some token =>
        have hlt : pos < tokens.length := (List.getElem?_eq_some_iff.mp ht).1
        simp only [ht] at h
        cases hty : token.Typ <;> simp only [hty] at h <;> try (simp at h; done)
        · cases hE : parseEquivalent fuel tokens (pos + 1) with
          | none => simp [hE] at h
          | some res =>
            rw [hE] at h
            rcases res with msg | ⟨e1, p1⟩
            · simp at h
            · have a := iE _ _ _ hE
              by_cases hc : peekIs tokens p1 TokenTypeRparen = true
              · have := peekIs_lt hc
                simp [hc] at h
                omega
              · simp [hc] at h
        · simp at h
          omega
    · intro pos e p h
      rw [parseNot] at h
      by_cases hc : peekIs tokens pos TokenTypeNot = true
      · simp only [hc, if_true] at h
        cases hE : parsePrimary fuel tokens (pos + 1) with
        | none => simp [hE] at h
        | some res =>
          rw [hE] at h
          rcases res with msg | ⟨e1, p1⟩
          · simp at h
          · have a := iP _ _ _ hE
            simp at h
            omega
      · simp only [hc] at h
        exact iP _ _ _ h
    · intro pos e p h
      rw [parseAnd] at h
      cases hE : parseNot fuel tokens pos with
      | none => simp [hE] at h
      | some res =>
        rw [hE] at h
        rcases res with msg | ⟨e1, p1⟩
        · simp at h
        · have a := iN _ _ _ hE
          have b := iAL _ _ _ _ h
          omega
    · intro e0 pos e p h
      rw [parseAndLoop] at h
      by_cases hc : peekIs tokens pos TokenTypeAnd = true
      · simp only [hc, if_true] at h
        have := peekIs_lt hc
        cases hE : parseNot fuel tokens (pos + 1) with
        | none => simp [hE] at h
        | some res =>
          rw [hE] at h
          rcases res with msg | ⟨e1, p1⟩
          · simp at h
          · have a := iN _ _ _ hE
            have b := iAL _ _ _ _ h
            omega
      · simp [hc] at h
        omega
    · intro pos e p h
      rw [parseOr] at h
      cases hE : parseAnd fuel tokens pos with
      | none => simp [hE] at h
      | some res =>
        rw [hE] at h
        rcases res with msg | ⟨e1, p1⟩
        · simp at h
        · have a := iA _ _ _ hE
          have b := iOL _ _ _ _ h
          omega
    · intro e0 pos e p h
      rw [parseOrLoop] at h
      by_cases hc : peekIs tokens pos TokenTypeOr = true
      · simp only [hc, if_true] at h
        have := peekIs_lt hc
        cases hE : parseAnd fuel tokens (pos + 1) with
        | none => simp [hE] at h
        | some res =>
          rw [hE] at h
          rcases res with msg | ⟨e1, p1⟩
          · simp at h
          · have a := iA _ _ _ hE
            have b := iOL _ _ _ _ h
            omega
      · simp [hc] at h
        omega
    · intro pos e p h
      rw [parseImplies] at h
      cases hE : parseOr fuel tokens pos with
      | none => simp [hE] at h
      | some res =>
        rw [hE] at h
        rcases res with msg | ⟨e1, p1⟩
        · simp at h
        · have a := iO _ _ _ hE
          have b := iIL _ _ _ _ h
          omega
    · intro e0 pos e p h
      rw [parseImpliesLoop] at h
      by_cases hc : peekIs tokens pos TokenTypeImplies = true
      · simp only [hc, if_true] at h
        have := peekIs_lt hc
        cases hE : parseImplies fuel tokens (pos + 1) with
        | none => simp [hE] at h
        | some res =>
          rw [hE] at h
          rcases res with msg | ⟨e1, p1⟩
          · simp at h
          · have a := iI _ _ _ hE
            have b := iIL _ _ _ _ h
            omega
      · simp [hc] at h
        omega
    · intro pos e p h
      rw [parseEquivalent] at h
      cases hE : parseImplies fuel tokens pos with
      | none => simp [hE] at h
      | some res =>
        rw [hE] at h
        rcases res with msg | ⟨e1, p1⟩
        · simp at h
        · have a := iI _ _ _ hE
          have b := iEL _ _ _ _ h
          omega
    · intro e0 pos e p h
      rw [parseEquivalentLoop] at h
      by_cases hc : peekIs tokens pos TokenTypeEquivalent = true
      · simp only [hc, if_true] at h
        have := peekIs_lt hc
        cases hE : parseImplies fuel tokens (pos + 1) with
        | none => simp [hE] at h
        | some res =>
          rw [hE] at h
          rcases res with msg | ⟨e1, p1⟩
          · simp at h
          · have a := iI _ _ _ hE
            have b := iEL _ _ _ _ h
            omega
      · simp [hc] at h
        omega

theorem enoughFuel (tokens : List Token) : ∀ fuel, EnoughFuel tokens fuel := by
  intro fuel
  induction fuel with
  | zero =>
    refine ⟨?_, ?_, ?_, ?_, ?_, ?_, ?_, ?_, ?_, ?_⟩ <;> intros <;> omega
  | succ fuel ih =>
    obtain ⟨iP, iN, iA, iAL, iO, iOL, iI, iIL, iE, iEL⟩ := ih
    obtain ⟨aP, aN, aA, aAL, aO, aOL, aI, aIL, aE, aEL⟩ := advances tokens fuel
    refine ⟨?_, ?_, ?_, ?_, ?_, ?_, ?_, ?_, ?_, ?_⟩
    · intro pos hf
      rw [parsePrimary]
      cases ht : tokens[pos]? with
      | none => simp
      | some token =>
        have hlt : pos < tokens.length := (List.getElem?_eq_some_iff.mp ht).1
        simp only
        cases hty : token.Typ <;> simp only <;> try (simp; done)
        cases hE : parseEquivalent fuel tokens (pos + 1) with
        | none => exact absurd hE (iE (pos + 1) (by omega))
        | some res =>
          rcases res with msg | ⟨e1, p1⟩
          · simp
          · by_cases hc : peekIs tokens p1 TokenTypeRparen = true <;> simp [hc]
    · intro pos hf
      rw [parseNot]
      by_cases hc : peekIs tokens pos TokenTypeNot = true
      · simp only [hc, if_true]
        have := peekIs_lt hc
        cases hE : parsePrimary fuel tokens (pos + 1) with
        | none => exact absurd hE (iP (pos + 1) (by omega))
        | some res =>
          rcases res with msg | ⟨e1, p1⟩ <;> simp
      · simp only [hc]
        exact iP pos (by omega)
    · intro pos hf
      rw [parseAnd]
      cases hE : parseNot fuel tokens pos with
      | none => exact absurd hE (iN pos (by omega))
      | some res =>
        rcases res with msg | ⟨e1, p1⟩
        · simp
        · have a := aN _ _ _ hE
          exact iAL e1 p1 a.2 (by omega)
    · intro e0 pos hp hf
      rw [parseAndLoop]
      by_cases hc : peekIs tokens pos TokenTypeAnd = true
      · simp only [hc, if_true]
        have := peekIs_lt hc
        cases hE : parseNot fuel tokens (pos + 1) with
        | none => exact absurd hE (iN (pos + 1) (by omega))
        | some res =>
          rcases res with msg | ⟨e1, p1⟩
          · simp
          · have a := aN _ _ _ hE
            exact iAL _ p1 a.2 (by omega)
      · simp [hc]
    · intro pos hf
      rw [parseOr]
      cases hE : parseAnd fuel tokens pos with
      | none => exact absurd hE (iA pos (by omega))
      | some res =>
        rcases res with msg | ⟨e1, p1⟩
        · simp
        · have a := aA _ _ _ hE
          exact iOL e1 p1 a.2 (by omega)
    · intro e0 pos hp hf
      rw [parseOrLoop]
      by_cases hc : peekIs tokens pos TokenTypeOr = true
      · simp only [hc, if_true]
        have := peekIs_lt hc
        cases hE : parseAnd fuel tokens (pos + 1) with
        | none => exact absurd hE (iA (pos + 1) (by omega))
        | some res =>
          rcases res with msg | ⟨e1, p1⟩
          · simp
          · have a := aA _ _ _ hE
            exact iOL _ p1 a.2 (by omega)
      · simp [hc]
    · intro pos hf
      rw [parseImplies]
      cases hE : parseOr fuel tokens pos with
      | none => exact absurd hE (iO pos (by omega))
      | some res =>
        rcases res with msg | ⟨e1, p1⟩
        · simp
        · have a := aO _ _ _ hE
          exact iIL e1 p1 a.2 (by omega)
    · intro e0 pos hp hf
      rw [parseImpliesLoop]
      by_cases hc : peekIs tokens pos TokenTypeImplies = true
      · simp only [hc, if_true]
        have := peekIs_lt hc
        cases hE : parseImplies fuel tokens (pos + 1) with
        | none => exact absurd hE (iI (pos + 1) (by omega))
        | some res =>
          rcases res with msg | ⟨e1, p1⟩
          · simp
          · have a := aI _ _ _ hE
            exact iIL _ p1 a.2 (by omega)
      · simp [hc]
    · intro pos hf
      rw [parseEquivalent]
      cases hE : parseImplies fuel tokens pos with
      | none => exact absurd hE (iI pos (by omega))
      | some res =>
        rcases res with msg | ⟨e1, p1⟩
        · simp
        · have a := aI _ _ _ hE
          exact iEL e1 p1 a.2 (by omega)
    · intro e0 pos hp hf
      rw [parseEquivalentLoop]
      by_cases hc : peekIs tokens pos TokenTypeEquivalent = true
      · simp only [hc, if_true]
        have := peekIs_lt hc
        cases hE : parseImplies fuel tokens (pos + 1) with
        | none => exact absurd hE (iI (pos + 1) (by omega))
        | some res =>
          rcases res with msg | ⟨e1, p1⟩
          · simp
          · have a := aI _ _ _ hE
            exact iEL _ p1 a.2 (by omega)
      · simp [hc]

theorem parseEquivalent_fuel_mono (tokens : List Token) (pos : Nat)
    (r : Except String (Expr × Nat)) (fuel fuel2 : Nat) (hle : fuel ≤ fuel2)
    (h : parseEquivalent fuel tokens pos = some r) :
    parseEquivalent fuel2 tokens pos = some r := by
  induction hle with
  | refl => exact h
  | step _ ih => exact (fuelMono tokens _).2.2.2.2.2.2.2.2.1 _ _ ih

/-- The budget of `parseExpression` is enough: the parse of a token sequence from
position 0 ends, in an error or in a tree. -/
theorem parseExpression_total (tokens : List Token) :
    ∃ r, parseExpression tokens = some r := by
  have h := (enoughFuel tokens (parseFuel tokens)).2.2.2.2.2.2.2.2.1 0
    (by simp [parseFuel])
  exact Option.ne_none_iff_exists'.mp h

/-- Any budget under which `parseEquivalent` ends gives the result of
`parseExpression`. -/
theorem parseExpression_of_fuel (tokens : List Token) (fuel : Nat)
    (r : Except String (Expr × Nat)) (h : parseEquivalent fuel tokens 0 = some r) :
    parseExpression tokens = some r := by
  obtain ⟨r2, h2⟩ := parseExpression_total tokens
  rcases Nat.le_total fuel (parseFuel tokens) with hle | hle
  · exact parseEquivalent_fuel_mono tokens 0 r _ _ hle h
  · have := parseEquivalent_fuel_mono tokens 0 r2 _ _ hle h2
    rw [h] at this
    rw [h2]
    exact this.symm

/-! ## The parser on token sequences without a variable -/

theorem neverOk_of_no_var (tokens : List Token) (hv : ∀ t ∈ tokens, t.Typ ≠ TokenTypeVar) :
    ∀ fuel, NeverOk tokens fuel := by
  intro fuel
  induction fuel with
  | zero =>
    refine ⟨?_, ?_, ?_, ?_, ?_, ?_⟩ <;> intros <;>
      simp [parsePrimary, parseNot, parseAnd, parseOr, parseImplies, parseEquivalent]
  | succ fuel ih =>
    obtain ⟨iP, iN, iA, iO, iI, iE⟩ := ih
    refine ⟨?_, ?_, ?_, ?_, ?_, ?_⟩
    · intro pos e p
      rw [parsePrimary]
      cases ht : tokens[pos]? with
      | none => simp
      | some token =>
        have hmem : token ∈ tokens := List.getElem?_mem ht
        have hne := hv token hmem
        simp only
        cases hty : token.Typ <;> simp only <;> try (simp; done)
        · cases hE : parseEquivalent fuel tokens (pos + 1) with
          | none => simp
          | some res =>
            rcases res with msg | ⟨e1, p1⟩
            · simp
            · exact absurd hE (iE _ _ _)
        · exact absurd hty hne
    · intro pos e p
      rw [parseNot]
      by_cases hc : peekIs tokens pos TokenTypeNot = true
      · simp only [hc, if_true]
        cases hE : parsePrimary fuel tokens (pos + 1) with
        | none => simp
        | some res =>
          rcases res with msg | ⟨e1, p1⟩
          · simp
          · exact absurd hE (iP _ _ _)
      · simp only [hc]
        exact iP _ _ _
    · intro pos e p
      rw [parseAnd]
      cases hE : parseNot fuel tokens pos with
      | none => simp
      | some res =>
        rcases res with msg | ⟨e1, p1⟩
        · simp
        · exact absurd hE (iN _ _ _)
    · intro pos e p
      rw [parseOr]
      cases hE : parseAnd fuel tokens pos with
      | none => simp
      | some res =>
        rcases res with msg | ⟨e1, p1⟩
        · simp
        · exact absurd hE (iA _ _ _)
    · intro pos e p
      rw [parseImplies]
      cases hE : parseOr fuel tokens pos with
      | none => simp
      | some res =>
        rcases res with msg | ⟨e1, p1⟩
        · simp
        · exact absurd hE (iO _ _ _)
    · intro pos e p
      rw [parseEquivalent]
      cases hE : parseImplies fuel tokens pos with
      | none => simp
      | some res =>
        rcases res with msg | ⟨e1, p1⟩
        · simp
        · exact absurd hE (iI _ _ _)

/-- C5: when the tokens of the input hold no VARIABLE token, the parse from
position 0 ends in an error and returns no tree, and the handler answers with
that error and builds no table. -/
theorem parse_without_variable_fails (isLetter : Char → Bool) (s : String)
    (hv : ∀ t ∈ Lexer s, t.Typ ≠ TokenTypeVar) :
    ∃ msg, parseExpression (Lexer s) = some (.error msg) ∧
      ExpressHandler isLetter s = some (.badRequest msg) := by
  obtain ⟨r, hr⟩ := parseExpression_total (Lexer s)
  rcases r with msg | ⟨e, p⟩
  · exact ⟨msg, hr, by simp [ExpressHandler, hr]⟩
  · exact absurd hr ((neverOk_of_no_var (Lexer s) hv _).2.2.2.2.2 0 e p)

/-- Witness of `parse_without_variable_fails`: the input `(!)&`. -/
theorem parse_without_variable_fails_witness :
    ∃ msg, parseExpression (Lexer "(!)&") = some (.error msg) ∧
      ExpressHandler Char.isAlpha "(!)&" = some (.badRequest msg) :=
  parse_without_variable_fails Char.isAlpha "(!)&" (by decide)

/-! ## The handler on a name with a digit -/

theorem extractStep_congr (f g : Char → Bool) (l : List Char) (h : ∀ c ∈ l, f c = g c)
    (st : ExtractState) : l.foldl (extractStep f) st = l.foldl (extractStep g) st := by
  apply List.foldl_ext
  intro a b hb
  simp [extractStep, h b hb]

theorem ExtractVariables_congr (f g : Char → Bool) (s : String)
    (h : ∀ c ∈ s.data, f c = g c) : ExtractVariables f s = ExtractVariables g s := by
  simp only [ExtractVariables, extractStep_congr f g s.data h]

theorem ExtractVariables_ascii (isLetter : Char → Bool) (hl : AsciiLetters isLetter)
    (s : String) (h : ∀ c ∈ s.data, c.val < 128) :
    ExtractVariables isLetter s = ExtractVariables Char.isAlpha s :=
  ExtractVariables_congr _ _ s (fun c hc => hl c (h c hc))

/-- C9 at the input `p1`: the lexer reads the name `p1`, so the tree is `Var p1`,
while `ExtractVariables` ends a name at a digit and returns `[p]`; every
assignment of the table has the one key `p`, the variable `p1` of the tree is
not defined in it, and the handler ends in the undefined-variable panic. -/
theorem ExpressHandler_digit_name_panics (isLetter : Char → Bool)
    (hl : AsciiLetters isLetter) :
    parseExpression (Lexer "p1") = some (.ok (.Var "p1", 1)) ∧
    occurringVars (.Var "p1") = ["p1"] ∧
    ExtractVariables isLetter "p1" = ["p"] ∧
    (combinationOf (ExtractVariables isLetter "p1") 0).keys = ["p"] ∧
    (combinationOf (ExtractVariables isLetter "p1") 1).keys = ["p"] ∧
    ExpressHandler isLetter "p1" = some (.panicked "Variable p1 not defined") := by
  have hx : ExtractVariables isLetter "p1" = ["p"] := by
    rw [ExtractVariables_ascii isLetter hl "p1" (by decide)]
    decide
  refine ⟨by decide, by decide, hx, ?_, ?_, ?_⟩
  · rw [hx]
    decide
  · rw [hx]
    decide
  · have hp : parseExpression (Lexer "p1") = some (.ok (.Var "p1", 1)) := by decide
    simp only [ExpressHandler, hp, hx]
    decide

/-- Witness of `ExpressHandler_digit_name_panics`, with the ASCII letter test in
the place of `unicode.IsLetter`. -/
theorem ExpressHandler_digit_name_panics_witness :
    parseExpression (Lexer "p1") = some (.ok (.Var "p1", 1)) ∧
    occurringVars (.Var "p1") = ["p1"] ∧
    ExtractVariables Char.isAlpha "p1" = ["p"] ∧
    (combinationOf (ExtractVariables Char.isAlpha "p1") 0).keys = ["p"] ∧
    (combinationOf (ExtractVariables Char.isAlpha "p1") 1).keys = ["p"] ∧
    ExpressHandler Char.isAlpha "p1" = some (.panicked "Variable p1 not defined") :=
  ExpressHandler_digit_name_panics Char.isAlpha (fun _ _ => rfl)

/-! ## Go maps -/

theorem GoMap.get?_set {T : Type} (m : GoMap T) (k : String) (v : T) (k2 : String) :
    (m.set k v).get? k2 = if k = k2 then some v else m.get? k2 := by
  induction m with
  | nil => simp [GoMap.set, GoMap.get?]
  | cons hd tl ih =>
    obtain ⟨k1, v1⟩ := hd
    by_cases h1 : k1 = k
    · subst h1
      by_cases h2 : k1 = k2 <;> simp [GoMap.set, GoMap.get?, h2]
    · by_cases h2 : k1 = k2
      · subst h2
        have h3 : ¬ k = k1 := fun h => h1 h.symm
        simp [GoMap.set, GoMap.get?, h1, h3]
      · simp [GoMap.set, GoMap.get?, h1, h2, ih]

/-! ## The table -/

theorem combinationLoop_get?_of_not_mem (i : Nat) (l : List String) (j : Nat)
    (m : GoMap Bool) (x : String) (hx : x ∉ l) :
    (combinationLoop i l j m).get? x = m.get? x := by
  induction l generalizing j m with
  | nil => rfl
  | cons v rest ih =>
    have hne : ¬ v = x := fun h => hx (by simp [h])
    have hr : x ∉ rest := fun h => hx (List.mem_cons_of_mem _ h)
    rw [combinationLoop, ih _ _ hr, GoMap.get?_set]
    simp [hne]

theorem combinationLoop_get? (i : Nat) (l : List String) (hnd : l.Nodup) (j0 : Nat)
    (m : GoMap Bool) (k : Nat) (hk : k < l.length) :
    (combinationLoop i l j0 m).get? (l.get ⟨k, hk⟩)
      = some (decide ((i >>> (j0 + k)) &&& 1 = 1)) := by
  induction l generalizing j0 m k with
  | nil => simp at hk
  | cons v rest ih =>
    have hv : v ∉ rest := (List.nodup_cons.mp hnd).1
    have hr : rest.Nodup := (List.nodup_cons.mp hnd).2
    cases k with
    | zero =>
      have h0 : (v :: rest).get ⟨0, hk⟩ = v := rfl
      rw [h0, combinationLoop, combinationLoop_get?_of_not_mem _ _ _ _ _ hv, GoMap.get?_set]
      simp
    | succ k =>
      have hk2 : k < rest.length := by simpa using hk
      have h1 : (v :: rest).get ⟨k + 1, hk⟩ = rest.get ⟨k, hk2⟩ := rfl
      rw [h1, combinationLoop, ih hr (j0 + 1) _ k hk2]
      have : j0 + 1 + k = j0 + (k + 1) := by omega
      rw [this]

/-- The assignment built in iteration `i` is the assignment of index `i`. -/
theorem combinationOf_isAssignmentOfIndex (variableList : List String)
    (hnd : variableList.Nodup) (i : Nat) :
    IsAssignmentOfIndex (combinationOf variableList i) variableList i := by
  intro j hj
  have := combinationLoop_get? i variableList hnd 0 [] j hj
  simpa [combinationOf] using this

theorem Evaluate_congr (e : Expr) (s1 s2 : GoMap Bool)
    (h : ∀ x ∈ occurringVars e, s1.get? x = s2.get? x) : Evaluate e s1 = Evaluate e s2 := by
  induction e with
  | Var name => simp [Evaluate, h name (by simp [occurringVars])]
  | Not operand ih => simp only [Evaluate, ih h]
  | And left right ihl ihr =>
    simp only [Evaluate, ihl (fun x hx => h x (by simp [occurringVars, hx])),
      ihr (fun x hx => h x (by simp [occurringVars, hx]))]
  | Or left right ihl ihr =>
    simp only [Evaluate, ihl (fun x hx => h x (by simp [occurringVars, hx])),
      ihr (fun x hx => h x (by simp [occurringVars, hx]))]
  | Implies left right ihl ihr =>
    simp only [Evaluate, ihl (fun x hx => h x (by simp [occurringVars, hx])),
      ihr (fun x hx => h x (by simp [occurringVars, hx]))]
  | Equivalent left right ihl ihr =>
    simp only [Evaluate, ihl (fun x hx => h x (by simp [occurringVars, hx])),
      ihr (fun x hx => h x (by simp [occurringVars, hx]))]

/-- The collector reads the assignment only at the variables of the tree. -/
theorem collector_congr (e : Expr) (s1 s2 : GoMap Bool)
    (h : ∀ x ∈ occurringVars e, s1.get? x = s2.get? x) :
    evaluateExpressionAndSubexpressions e s1 = evaluateExpressionAndSubexpressions e s2 := by
  induction e with
  | Var name =>
    rw [evaluateExpressionAndSubexpressions.eq_1 _ s1,
      evaluateExpressionAndSubexpressions.eq_1 _ s2, Evaluate_congr _ s1 s2 h]
  | Not operand ih =>
    rw [evaluateExpressionAndSubexpressions.eq_1 _ s1,
      evaluateExpressionAndSubexpressions.eq_1 _ s2, Evaluate_congr _ s1 s2 h]
    simp only [ih h]
  | And left right ihl ihr =>
    rw [evaluateExpressionAndSubexpressions.eq_1 _ s1,
      evaluateExpressionAndSubexpressions.eq_1 _ s2, Evaluate_congr _ s1 s2 h]
    simp only [ihl (fun x hx => h x (by simp [occurringVars, hx])),
      ihr (fun x hx => h x (by simp [occurringVars, hx]))]
  | Or left right ihl ihr =>
    rw [evaluateExpressionAndSubexpressions.eq_1 _ s1,
      evaluateExpressionAndSubexpressions.eq_1 _ s2, Evaluate_congr _ s1 s2 h]
    simp only [ihl (fun x hx => h x (by simp [occurringVars, hx])),
      ihr (fun x hx => h x (by simp [occurringVars, hx]))]
  | Implies left right ihl ihr =>
    rw [evaluateExpressionAndSubexpressions.eq_1 _ s1,
      evaluateExpressionAndSubexpressions.eq_1 _ s2, Evaluate_congr _ s1 s2 h]
    simp only [ihl (fun x hx => h x (by simp [occurringVars, hx])),
      ihr (fun x hx => h x (by simp [occurringVars, hx]))]
  | Equivalent left right ihl ihr =>
    rw [evaluateExpressionAndSubexpressions.eq_1 _ s1,
      evaluateExpressionAndSubexpressions.eq_1 _ s2, Evaluate_congr _ s1 s2 h]
    simp only [ihl (fun x hx => h x (by simp [occurringVars, hx])),
      ihr (fun x hx => h x (by simp [occurringVars, hx]))]

/-- The collector returns a row when the assignment defines the variables of the
tree. -/
theorem collector_ok_of_definesAll (e : Expr) (sigma : GoMap Bool) (h : DefinesAll sigma e) :
    ∃ row, evaluateExpressionAndSubexpressions e sigma = .ok row := by
  induction e with
  | Var name =>
    obtain ⟨b, hb⟩ := Evaluate_ok_of_definesAll _ sigma h
    simp [evaluateExpressionAndSubexpressions, hb]
  | Not operand ih =>
    obtain ⟨b, hb⟩ := Evaluate_ok_of_definesAll _ sigma h
    obtain ⟨r, hr⟩ := ih (fun x hx => h x (by simpa [occurringVars] using hx))
    simp [evaluateExpressionAndSubexpressions, hb, hr]
  | And left right ihl ihr =>
    obtain ⟨b, hb⟩ := Evaluate_ok_of_definesAll _ sigma h
    obtain ⟨r1, hr1⟩ := ihl (fun x hx => h x (by simp [occurringVars, hx]))
    obtain ⟨r2, hr2⟩ := ihr (fun x hx => h x (by simp [occurringVars, hx]))
    simp [evaluateExpressionAndSubexpressions, hb, hr1, hr2]
  | Or left right ihl ihr =>
    obtain ⟨b, hb⟩ := Evaluate_ok_of_definesAll _ sigma h
    obtain ⟨r1, hr1⟩ := ihl (fun x hx => h x (by simp [occurringVars, hx]))
    obtain ⟨r2, hr2⟩ := ihr (fun x hx => h x (by simp [occurringVars, hx]))
    simp [evaluateExpressionAndSubexpressions, hb, hr1, hr2]
  | Implies left right ihl ihr =>
    obtain ⟨b, hb⟩ := Evaluate_ok_of_definesAll _ sigma h
    obtain ⟨r1, hr1⟩ := ihl (fun x hx => h x (by simp [occurringVars, hx]))
    obtain ⟨r2, hr2⟩ := ihr (fun x hx => h x (by simp [occurringVars, hx]))
    simp [evaluateExpressionAndSubexpressions, hb, hr1, hr2]
  | Equivalent left right ihl ihr =>
    obtain ⟨b, hb⟩ := Evaluate_ok_of_definesAll _ sigma h
    obtain ⟨r1, hr1⟩ := ihl (fun x hx => h x (by simp [occurringVars, hx]))
    obtain ⟨r2, hr2⟩ := ihr (fun x hx => h x (by simp [occurringVars, hx]))
    simp [evaluateExpressionAndSubexpressions, hb, hr1, hr2]

theorem tableRows_ok (e : Expr) (variableList : List String) (indices : List Nat)
    (h : ∀ i ∈ indices, ∃ row,
      evaluateExpressionAndSubexpressions e (combinationOf variableList i) = .ok row) :
    ∃ rows, tableRows e variableList indices = .ok rows ∧ rows.length = indices.length ∧
      ∀ k, ∀ hk : k < indices.length, ∃ row, rows[k]? = some row ∧
        evaluateExpressionAndSubexpressions e
          (combinationOf variableList (indices.get ⟨k, hk⟩)) = .ok row := by
  induction indices with
  | nil => exact ⟨[], rfl, rfl, fun k hk => absurd hk (by simp)⟩
  | cons i rest ih =>
    obtain ⟨row, hrow⟩ := h i (List.mem_cons_self _ _)
    obtain ⟨rows, hrows, hlen, hget⟩ := ih (fun j hj => h j (List.mem_cons_of_mem _ hj))
    refine ⟨row :: rows, by simp [tableRows, hrow, hrows], by simp [hlen], ?_⟩
    intro k hk
    cases k with
    | zero => exact ⟨row, by simp, hrow⟩
    | succ k =>
      have hk2 : k < rest.length := by simpa using hk
      obtain ⟨r, hr1, hr2⟩ := hget k hk2
      exact ⟨r, by simpa using hr1, hr2⟩

theorem combinationOf_definesAll (e : Expr) (variableList : List String)
    (hnd : variableList.Nodup) (hcov : ∀ x ∈ occurringVars e, x ∈ variableList) (i : Nat) :
    DefinesAll (combinationOf variableList i) e := by
  intro x hx
  obtain ⟨j, hj⟩ := List.get_of_mem (hcov x hx)
  rw [← hj, combinationOf_isAssignmentOfIndex variableList hnd i j.1 j.2]
  simp

/-- C1, for at most 62 variables: the table has `2^n` rows, and row `i` is the row
that the collector returns for the tree under the assignment of index `i`,
which maps the `j`-th variable to bit `j` of `i`. -/
theorem truthTableToJson_rows (e : Expr) (variableList : List String)
    (hnd : variableList.Nodup) (hcov : ∀ x ∈ occurringVars e, x ∈ variableList)
    (hn : variableList.length ≤ 62) :
    ∃ rows, truthTableToJson e variableList = .ok rows ∧
      rows.length = 2 ^ variableList.length ∧
      ∀ i, i < 2 ^ variableList.length → ∀ sigma : GoMap Bool,
        IsAssignmentOfIndex sigma variableList i →
        ∃ row, rows[i]? = some row ∧ evaluateExpressionAndSubexpressions e sigma = .ok row := by
  have htot : (totalCombinations variableList.length).toNat = 2 ^ variableList.length := by
    simp only [totalCombinations, hn, if_true]
    have : ((2 : Int) ^ variableList.length) = ((2 ^ variableList.length : Nat) : Int) := by
      push_cast
      rfl
    rw [this, Int.toNat_ofNat]
  obtain ⟨rows, hrows, hlen, hget⟩ := tableRows_ok e variableList
    (List.range (2 ^ variableList.length))
    (fun i _ => collector_ok_of_definesAll e _ (combinationOf_definesAll e _ hnd hcov i))
  refine ⟨rows, by simp only [truthTableToJson, htot, hrows], by simpa using hlen, ?_⟩
  intro i hi sigma hs
  obtain ⟨row, hr1, hr2⟩ := hget i (by simpa using hi)
  refine ⟨row, hr1, ?_⟩
  rw [← hr2]
  have hi2 : (List.range (2 ^ variableList.length)).get ⟨i, by simpa using hi⟩ = i := by simp
  rw [hi2]
  apply collector_congr
  intro x hx
  obtain ⟨j, hj⟩ := List.get_of_mem (hcov x hx)
  rw [← hj, hs j.1 j.2, combinationOf_isAssignmentOfIndex variableList hnd i j.1 j.2]

/-- Witness of `truthTableToJson_rows`: the tree `(p | q)` over the list `p`, `q`. -/
theorem truthTableToJson_rows_witness :
    ∃ rows, truthTableToJson (.Or (.Var "p") (.Var "q")) ["p", "q"] = .ok rows ∧
      rows.length = 2 ^ ["p", "q"].length ∧
      ∀ i, i < 2 ^ ["p", "q"].length → ∀ sigma : GoMap Bool,
        IsAssignmentOfIndex sigma ["p", "q"] i →
        ∃ row, rows[i]? = some row ∧
          evaluateExpressionAndSubexpressions (.Or (.Var "p") (.Var "q")) sigma = .ok row :=
  truthTableToJson_rows (.Or (.Var "p") (.Var "q")) ["p", "q"] (by decide) (by decide)
    (by decide)

set_option maxRecDepth 100000 in
/-- C1 fails as stated at 63 variables: the list is duplicate-free and holds the
variable of the tree, the loop bound does not fit an `int`, and the table has
no row where the claim has `2^63`. -/
theorem truthTableToJson_sixtyThree_names :
    sixtyThreeNames.Nodup ∧ sixtyThreeNames.length = 63 ∧
    (∀ x ∈ occurringVars (.Var "a"), x ∈ sixtyThreeNames) ∧
    truthTableToJson (.Var "a") sixtyThreeNames = .ok [] ∧
    ¬ ∃ rows, truthTableToJson (.Var "a") sixtyThreeNames = .ok rows ∧
      rows.length = 2 ^ sixtyThreeNames.length := by
  have h1 : sixtyThreeNames.Nodup := by decide
  have h2 : sixtyThreeNames.length = 63 := by decide
  have h3 : ∀ x ∈ occurringVars (.Var "a"), x ∈ sixtyThreeNames := by decide
  have h4 : truthTableToJson (.Var "a") sixtyThreeNames = .ok [] := by
    simp only [truthTableToJson, h2]
    decide
  refine ⟨h1, h2, h3, h4, ?_⟩
  rintro ⟨rows, hr, hl⟩
  rw [h4] at hr
  cases hr
  rw [h2] at hl
  simp at hl

/-! ## Go maps: keys and merging -/

theorem GoMap.mem_keys_iff {T : Type} (m : GoMap T) (k : String) :
    k ∈ m.keys ↔ m.get? k ≠ none := by
  induction m with
  | nil => simp [GoMap.keys, GoMap.get?]
  | cons hd tl ih =>
    obtain ⟨k1, v1⟩ := hd
    by_cases h : k1 = k
    · simp [GoMap.keys, GoMap.get?, h]
    · have h2 : ¬ k = k1 := fun e => h e.symm
      have ih2 : k ∈ List.map Prod.fst tl ↔ GoMap.get? tl k ≠ none := ih
      simp only [GoMap.keys, GoMap.get?, List.map_cons, List.mem_cons, h, h2, if_false,
        false_or]
      exact ih2

theorem GoMap.keys_set {T : Type} (m : GoMap T) (k : String) (v : T) :
    (m.set k v).keys = if k ∈ m.keys then m.keys else m.keys ++ [k] := by
  induction m with
  | nil => simp [GoMap.set, GoMap.keys]
  | cons hd tl ih =>
    obtain ⟨k1, v1⟩ := hd
    have ih2 : List.map Prod.fst (GoMap.set tl k v)
        = if k ∈ List.map Prod.fst tl then List.map Prod.fst tl
          else List.map Prod.fst tl ++ [k] := ih
    by_cases h : k1 = k
    · subst h
      simp [GoMap.set, GoMap.keys]
    · have h2 : ¬ k = k1 := fun e => h e.symm
      simp only [GoMap.set, GoMap.keys, h, if_false, List.map_cons, List.mem_cons, h2,
        false_or, ih2]
      split <;> simp

theorem GoMap.nodup_keys_set {T : Type} (m : GoMap T) (k : String) (v : T)
    (h : m.keys.Nodup) : (m.set k v).keys.Nodup := by
  rw [GoMap.keys_set]
  split
  · exact h
  · rename_i hk
    exact List.Nodup.append h (List.nodup_singleton k) (by simpa using hk)

theorem nodup_keys_mergeResults (mainResult subResult : GoMap Int)
    (h : GoMap.keys mainResult |>.Nodup) :
    (GoMap.keys (mergeResults mainResult subResult)).Nodup := by
  induction subResult generalizing mainResult with
  | nil => exact h
  | cons hd tl ih =>
    exact ih _ (GoMap.nodup_keys_set _ _ _ h)

theorem get?_mergeResults (mainResult subResult : GoMap Int)
    (hs : (GoMap.keys subResult).Nodup) (k : String) :
    GoMap.get? (mergeResults mainResult subResult) k
      = match GoMap.get? subResult k with
        | some v => some v
        | none => GoMap.get? mainResult k := by
  induction subResult generalizing mainResult with
  | nil => rfl
  | cons hd tl ih =>
    obtain ⟨k1, v1⟩ := hd
    have hnd : (GoMap.keys tl).Nodup := (List.nodup_cons.mp hs).2
    have hk1 : k1 ∉ GoMap.keys tl := (List.nodup_cons.mp hs).1
    have e : mergeResults mainResult ((k1, v1) :: tl)
        = mergeResults (GoMap.set mainResult k1 v1) tl := rfl
    rw [e, ih _ hnd, GoMap.get?_set]
    by_cases h : k1 = k
    · subst h
      have : GoMap.get? tl k1 = none := by
        by_contra hc
        exact hk1 ((GoMap.mem_keys_iff tl k1).mpr hc)
      simp [GoMap.get?, this]
    · simp [GoMap.get?, h]

/-! ## The rows of the collector -/

theorem get?_merge_two (root : String) (v0 : Int) (r1 r2 : GoMap Int)
    (n1 : (GoMap.keys r1).Nodup) (n2 : (GoMap.keys r2).Nodup) (k : String) :
    GoMap.get? (mergeResults (mergeResults (GoMap.set [] root v0) r1) r2) k
      = match GoMap.get? r2 k with
        | some v => some v
        | none =>
          match GoMap.get? r1 k with
          | some v => some v
          | none => if root = k then some v0 else none := by
  rw [get?_mergeResults _ _ n2, get?_mergeResults _ _ n1, GoMap.get?_set]
  rfl

theorem rowOf_binary (e left right : Expr) (sigma : GoMap Bool) (b : Bool) (r1 r2 : GoMap Int)
    (hsub : subexpressions e = e :: (subexpressions left ++ subexpressions right))
    (hE : Evaluate e sigma = .ok b) (h1 : RowOf left sigma r1) (h2 : RowOf right sigma r2) :
    RowOf e sigma
      (mergeResults (mergeResults (GoMap.set [] e.String (if b then 1 else 0)) r1) r2) := by
  obtain ⟨n1, f1, p1⟩ := h1
  obtain ⟨n2, f2, p2⟩ := h2
  refine ⟨?_, ?_, ?_⟩
  · apply nodup_keys_mergeResults
    apply nodup_keys_mergeResults
    simp [GoMap.set, GoMap.keys]
  · intro k v hk
    rw [get?_merge_two _ _ _ _ n1 n2] at hk
    cases h2k : GoMap.get? r2 k with
    | some w =>
      rw [h2k] at hk
      obtain ⟨s, hs, hks, hb⟩ := f2 k w h2k
      have hvw : w = v := by simpa using hk
      subst hvw
      exact ⟨s, by simp [hsub, hs], hks, hb⟩
    | none =>
      rw [h2k] at hk
      cases h1k : GoMap.get? r1 k with
      | some w =>
        rw [h1k] at hk
        obtain ⟨s, hs, hks, hb⟩ := f1 k w h1k
        have hvw : w = v := by simpa using hk
        subst hvw
        exact ⟨s, by simp [hsub, hs], hks, hb⟩
      | none =>
        rw [h1k] at hk
        by_cases hr : e.String = k
        · simp only [hr, if_true] at hk
          have hv : (if b then 1 else 0 : Int) = v := by simpa using hk
          exact ⟨e, by simp [hsub], hr.symm, b, hE, hv.symm⟩
        · simp [hr] at hk
  · intro s hs
    rw [get?_merge_two _ _ _ _ n1 n2]
    rw [hsub] at hs
    cases h2k : GoMap.get? r2 s.String with
    | some w => simp
    | none =>
      cases h1k : GoMap.get? r1 s.String with
      | some w => simp
      | none =>
        rcases List.mem_cons.mp hs with rfl | hs
        · simp
        · rcases List.mem_append.mp hs with hs | hs
          · exact absurd h1k (p1 s hs)
          · exact absurd h2k (p2 s hs)

theorem rowOf_collector (e : Expr) (sigma : GoMap Bool) :
    ∀ row, evaluateExpressionAndSubexpressions e sigma = .ok row → RowOf e sigma row := by
  induction e with
  | Var name =>
    intro row h
    rw [evaluateExpressionAndSubexpressions.eq_1] at h
    cases hE : Evaluate (.Var name) sigma with
    | error msg => simp [hE] at h
    | ok b =>
      simp only [hE] at h
      have hrow : row = GoMap.set [] (Expr.Var name).String (if b then 1 else 0) := by
        simpa using h.symm
      subst hrow
      refine ⟨by simp [GoMap.set, GoMap.keys], ?_, ?_⟩
      · intro k v hk
        rw [GoMap.get?_set] at hk
        by_cases hr : (Expr.Var name).String = k
        · simp only [hr, if_true] at hk
          have hv : (if b then 1 else 0 : Int) = v := by simpa using hk
          exact ⟨.Var name, by simp [subexpressions], hr.symm, b, hE, hv.symm⟩
        · simp [hr, GoMap.get?] at hk
      · intro s hs
        have : s = .Var name := by simpa [subexpressions] using hs
        subst this
        rw [GoMap.get?_set]
        simp
  | Not operand ih =>
    intro row h
    rw [evaluateExpressionAndSubexpressions.eq_1] at h
    cases hE : Evaluate (.Not operand) sigma with
    | error msg => simp [hE] at h
    | ok b =>
      cases h1 : evaluateExpressionAndSubexpressions operand sigma with
      | error msg => simp [hE, h1] at h
      | ok r1 =>
        simp only [hE, h1] at h
        have hrow : row = mergeResults
            (GoMap.set [] (Expr.Not operand).String (if b then 1 else 0)) r1 := by
          simpa using h.symm
        subst hrow
        obtain ⟨n1, f1, p1⟩ := ih r1 h1
        have key : ∀ k, GoMap.get? (mergeResults
            (GoMap.set [] (Expr.Not operand).String (if b then 1 else 0)) r1) k
            = match GoMap.get? r1 k with
              | some v => some v
              | none => if (Expr.Not operand).String = k then some (if b then 1 else 0)
                        else none := by
          intro k
          rw [get?_mergeResults _ _ n1, GoMap.get?_set]
          rfl
        refine ⟨?_, ?_, ?_⟩
        · apply nodup_keys_mergeResults
          simp [GoMap.set, GoMap.keys]
        · intro k v hk
          rw [key] at hk
          cases h1k : GoMap.get? r1 k with
          | some w =>
            rw [h1k] at hk
            obtain ⟨s, hs, hks, hb⟩ := f1 k w h1k
            have hvw : w = v := by simpa using hk
            subst hvw
            exact ⟨s, by simp [subexpressions, hs], hks, hb⟩
          | none =>
            rw [h1k] at hk
            by_cases hr : (Expr.Not operand).String = k
            · simp only [hr, if_true] at hk
              have hv : (if b then 1 else 0 : Int) = v := by simpa using hk
              exact ⟨.Not operand, by simp [subexpressions], hr.symm, b, hE, hv.symm⟩
            · simp [hr] at hk
        · intro s hs
          rw [key]
          cases h1k : GoMap.get? r1 s.String with
          | some w => simp
          | none =>
            rcases List.mem_cons.mp (by simpa [subexpressions] using hs) with rfl | hs
            · simp
            · exact absurd h1k (p1 s hs)
  | And left right ihl ihr =>
    intro row h
    rw [evaluateExpressionAndSubexpressions.eq_1] at h
    cases hE : Evaluate (.And left right) sigma with
    | error msg => simp [hE] at h
    | ok b =>
      cases h1 : evaluateExpressionAndSubexpressions left sigma with
      | error msg => simp [hE, h1] at h
      | ok r1 =>
        cases h2 : evaluateExpressionAndSubexpressions right sigma with
        | error msg => simp [hE, h1, h2] at h
        | ok r2 =>
          simp only [hE, h1, h2] at h
          have hrow : row = mergeResults (mergeResults
              (GoMap.set [] (Expr.And left right).String (if b then 1 else 0)) r1) r2 := by
            simpa using h.symm
          subst hrow
          exact rowOf_binary _ left right sigma b r1 r2 rfl hE (ihl r1 h1) (ihr r2 h2)
  | Or left right ihl ihr =>
    intro row h
    rw [evaluateExpressionAndSubexpressions.eq_1] at h
    cases hE : Evaluate (.Or left right) sigma with
    | error msg => simp [hE] at h
    | ok b =>
      cases h1 : evaluateExpressionAndSubexpressions left sigma with
      | error msg => simp [hE, h1] at h
      | ok r1 =>
        cases h2 : evaluateExpressionAndSubexpressions right sigma with
        | error msg => simp [hE, h1, h2] at h
        | ok r2 =>
          simp only [hE, h1, h2] at h
          have hrow : row = mergeResults (mergeResults
              (GoMap.set [] (Expr.Or left right).String (if b then 1 else 0)) r1) r2 := by
            simpa using h.symm
          subst hrow
          exact rowOf_binary _ left right sigma b r1 r2 rfl hE (ihl r1 h1) (ihr r2 h2)
  | Implies left right ihl ihr =>
    intro row h
    rw [evaluateExpressionAndSubexpressions.eq_1] at h
    cases hE : Evaluate (.Implies left right) sigma with
    | error msg => simp [hE] at h
    | ok b =>
      cases h1 : evaluateExpressionAndSubexpressions left sigma with
      | error msg => simp [hE, h1] at h
      | ok r1 =>
        cases h2 : evaluateExpressionAndSubexpressions right sigma with
        | error msg => simp [hE, h1, h2] at h
        | ok r2 =>
          simp only [hE, h1, h2] at h
          have hrow : row = mergeResults (mergeResults
              (GoMap.set [] (Expr.Implies left right).String (if b then 1 else 0)) r1) r2 := by
            simpa using h.symm
          subst hrow
          exact rowOf_binary _ left right sigma b r1 r2 rfl hE (ihl r1 h1) (ihr r2 h2)
  | Equivalent left right ihl ihr =>
    intro row h
    rw [evaluateExpressionAndSubexpressions.eq_1] at h
    cases hE : Evaluate (.Equivalent left right) sigma with
    | error msg => simp [hE] at h
    | ok b =>
      cases h1 : evaluateExpressionAndSubexpressions left sigma with
      | error msg => simp [hE, h1] at h
      | ok r1 =>
        cases h2 : evaluateExpressionAndSubexpressions right sigma with
        | error msg => simp [hE, h1, h2] at h
        | ok r2 =>
          simp only [hE, h1, h2] at h
          have hrow : row = mergeResults (mergeResults
              (GoMap.set [] (Expr.Equivalent left right).String (if b then 1 else 0)) r1) r2 := by
            simpa using h.symm
          subst hrow
          exact rowOf_binary _ left right sigma b r1 r2 rfl hE (ihl r1 h1) (ihr r2 h2)

/-! ## The rendering is injective -/

theorem data_Var (name : String) : (Expr.Var name).String.data = name.data := rfl

theorem data_Not (operand : Expr) :
    (Expr.Not operand).String.data = '!' :: operand.String.data := by
  simp [Expr.String]

theorem data_And (left right : Expr) :
    (Expr.And left right).String.data
      = '(' :: (left.String.data ++ ' ' :: '&' :: ' ' :: (right.String.data ++ [')'])) := by
  simp [Expr.String]

theorem data_Or (left right : Expr) :
    (Expr.Or left right).String.data
      = '(' :: (left.String.data ++ ' ' :: '|' :: ' ' :: (right.String.data ++ [')'])) := by
  simp [Expr.String]

theorem data_Implies (left right : Expr) :
    (Expr.Implies left right).String.data
      = '(' :: (left.String.data ++ ' ' :: '→' :: ' ' :: (right.String.data ++ [')'])) := by
  simp [Expr.String]

theorem data_Equivalent (left right : Expr) :
    (Expr.Equivalent left right).String.data
      = '(' :: (left.String.data ++ ' ' :: '⇔' :: ' ' :: (right.String.data ++ [')'])) := by
  simp [Expr.String]

theorem hasVarNames_Not {operand : Expr} (h : HasVarNames (.Not operand)) :
    HasVarNames operand := h

theorem hasVarNames_And {left right : Expr} (h : HasVarNames (.And left right)) :
    HasVarNames left ∧ HasVarNames right :=
  ⟨fun x hx => h x (by simp [occurringVars, hx]), fun x hx => h x (by simp [occurringVars, hx])⟩

theorem hasVarNames_Or {left right : Expr} (h : HasVarNames (.Or left right)) :
    HasVarNames left ∧ HasVarNames right :=
  ⟨fun x hx => h x (by simp [occurringVars, hx]), fun x hx => h x (by simp [occurringVars, hx])⟩

theorem hasVarNames_Implies {left right : Expr} (h : HasVarNames (.Implies left right)) :
    HasVarNames left ∧ HasVarNames right :=
  ⟨fun x hx => h x (by simp [occurringVars, hx]), fun x hx => h x (by simp [occurringVars, hx])⟩

theorem hasVarNames_Equivalent {left right : Expr} (h : HasVarNames (.Equivalent left right)) :
    HasVarNames left ∧ HasVarNames right :=
  ⟨fun x hx => h x (by simp [occurringVars, hx]), fun x hx => h x (by simp [occurringVars, hx])⟩

theorem isVarName_head {name : String} (h : IsVarName name) :
    ∃ c tl, name.data = c :: tl ∧ isVarChar c = true := by
  obtain ⟨hne, hall⟩ := h
  cases hd : name.data with
  | nil => exact absurd (String.ext (by simpa using hd)) hne
  | cons c tl => exact ⟨c, tl, rfl, hall c (by simp [hd])⟩

theorem names_unique (a b r1 r2 : List Char) (ha : ∀ c ∈ a, isVarChar c = true)
    (hb : ∀ c ∈ b, isVarChar c = true) (h1 : Stops r1) (h2 : Stops r2)
    (h : a ++ r1 = b ++ r2) : a = b ∧ r1 = r2 := by
  induction a generalizing b with
  | nil =>
    cases b with
    | nil => exact ⟨rfl, by simpa using h⟩
    | cons d b =>
      have hr : r1 = d :: (b ++ r2) := by simpa using h
      have := h1 d (by simp [hr])
      rw [hb d (by simp)] at this
      exact absurd this (by simp)
  | cons c a ih =>
    cases b with
    | nil =>
      have hr : r2 = c :: (a ++ r1) := by simpa using h.symm
      have := h2 c (by simp [hr])
      rw [ha c (by simp)] at this
      exact absurd this (by simp)
    | cons d b =>
      have hcd : c = d ∧ a ++ r1 = b ++ r2 := by simpa using h
      obtain ⟨hab, hr⟩ := ih b (fun x hx => ha x (by simp [hx]))
        (fun x hx => hb x (by simp [hx])) hcd.2
      exact ⟨by rw [hcd.1, hab], hr⟩

theorem binary_unique (L1 L2 R1 R2 : Expr) (o1 o2 : Char) (r1 r2 : List Char)
    (ihL : ∀ t2 s1 s2, HasVarNames t2 → Stops s1 → Stops s2 →
      L1.String.data ++ s1 = t2.String.data ++ s2 → L1 = t2 ∧ s1 = s2)
    (ihR : ∀ t2 s1 s2, HasVarNames t2 → Stops s1 → Stops s2 →
      R1.String.data ++ s1 = t2.String.data ++ s2 → R1 = t2 ∧ s1 = s2)
    (hL : HasVarNames L2) (hR : HasVarNames R2)
    (h : '(' :: (L1.String.data ++ ' ' :: o1 :: ' ' :: (R1.String.data ++ [')'])) ++ r1
       = '(' :: (L2.String.data ++ ' ' :: o2 :: ' ' :: (R2.String.data ++ [')'])) ++ r2) :
    L1 = L2 ∧ o1 = o2 ∧ R1 = R2 ∧ r1 = r2 := by
  simp only [List.cons_append, List.append_assoc, List.cons.injEq, true_and] at h
  have hsp : ∀ l : List Char, Stops (' ' :: l) := by
    intro l c hc
    have : c = ' ' := by simpa using hc.symm
    subst this
    decide
  have hrp : ∀ l : List Char, Stops (')' :: l) := by
    intro l c hc
    have : c = ')' := by simpa using hc.symm
    subst this
    decide
  obtain ⟨e1, h⟩ := ihL L2 _ _ hL (hsp _) (hsp _) h
  simp only [List.cons.injEq, true_and] at h
  obtain ⟨e2, h⟩ := h
  obtain ⟨e3, h⟩ := ihR R2 _ _ hR (hrp _) (hrp _) h
  simp only [List.nil_append, List.cons.injEq, true_and] at h
  exact ⟨e1, e2, e3, h⟩

/-- Two trees with lexer-shaped names whose renderings, each followed by text
that does not continue a name, are the same text, are the same tree followed by
the same text. -/
theorem String_unique (t1 : Expr) : ∀ t2 r1 r2, HasVarNames t1 → HasVarNames t2 →
    Stops r1 → Stops r2 → t1.String.data ++ r1 = t2.String.data ++ r2 →
    t1 = t2 ∧ r1 = r2 := by
  induction t1 with
  | Var n1 =>
    intro t2 r1 r2 h1 h2 s1 s2 h
    have hn1 : IsVarName n1 := h1 n1 (by simp [occurringVars])
    obtain ⟨c, tl, hd, hc⟩ := isVarName_head hn1
    cases t2 with
    | Var n2 =>
      have hn2 : IsVarName n2 := h2 n2 (by simp [occurringVars])
      obtain ⟨e, hr⟩ := names_unique _ _ _ _ hn1.2 hn2.2 s1 s2 h
      exact ⟨by rw [String.ext e], hr⟩
    | Not o2 =>
      rw [data_Var, data_Not, hd] at h
      have : c = '!' := by simpa using (List.cons.inj h).1
      subst this
      exact absurd hc (by decide)
    | And l2 r2 =>
      rw [data_Var, data_And, hd] at h
      have : c = '(' := by simpa using (List.cons.inj h).1
      subst this
      exact absurd hc (by decide)
    | Or l2 r2 =>
      rw [data_Var, data_Or, hd] at h
      have : c = '(' := by simpa using (List.cons.inj h).1
      subst this
      exact absurd hc (by decide)
    | Implies l2 r2 =>
      rw [data_Var, data_Implies, hd] at h
      have : c = '(' := by simpa using (List.cons.inj h).1
      subst this
      exact absurd hc (by decide)
    | Equivalent l2 r2 =>
      rw [data_Var, data_Equivalent, hd] at h
      have : c = '(' := by simpa using (List.cons.inj h).1
      subst this
      exact absurd hc (by decide)
  | Not o1 ih =>
    intro t2 r1 r2 h1 h2 s1 s2 h
    cases t2 with
    | Var n2 =>
      have hn2 : IsVarName n2 := h2 n2 (by simp [occurringVars])
      obtain ⟨c, tl, hd, hc⟩ := isVarName_head hn2
      rw [data_Var, data_Not, hd] at h
      have : '!' = c := by simpa using (List.cons.inj h).1
      subst this
      exact absurd hc (by decide)
    | Not o2 =>
      rw [data_Not, data_Not] at h
      obtain ⟨e, hr⟩ := ih o2 r1 r2 (hasVarNames_Not h1) (hasVarNames_Not h2) s1 s2
        (List.cons.inj h).2
      exact ⟨by rw [e], hr⟩
    | And l2 r2 =>
      rw [data_Not, data_And] at h
      exact absurd (List.cons.inj h).1 (by decide)
    | Or l2 r2 =>
      rw [data_Not, data_Or] at h
      exact absurd (List.cons.inj h).1 (by decide)
    | Implies l2 r2 =>
      rw [data_Not, data_Implies] at h
      exact absurd (List.cons.inj h).1 (by decide)
    | Equivalent l2 r2 =>
      rw [data_Not, data_Equivalent] at h
      exact absurd (List.cons.inj h).1 (by decide)
  | And l1 r1 ihl ihr =>
    intro t2 s1 s2 h1 h2 q1 q2 h
    have ihL : ∀ t2 s1 s2, HasVarNames t2 → Stops s1 → Stops s2 →
        l1.String.data ++ s1 = t2.String.data ++ s2 → l1 = t2 ∧ s1 = s2 :=
      fun t2 s1 s2 a b c d => ihl t2 s1 s2 (hasVarNames_And h1).1 a b c d
    have ihR : ∀ t2 s1 s2, HasVarNames t2 → Stops s1 → Stops s2 →
        r1.String.data ++ s1 = t2.String.data ++ s2 → r1 = t2 ∧ s1 = s2 :=
      fun t2 s1 s2 a b c d => ihr t2 s1 s2 (hasVarNames_And h1).2 a b c d
    cases t2 with
    | Var n2 =>
      have hn2 : IsVarName n2 := h2 n2 (by simp [occurringVars])
      obtain ⟨c, tl, hd, hc⟩ := isVarName_head hn2
      rw [data_Var, data_And, hd] at h
      have : '(' = c := by simpa using (List.cons.inj h).1
      subst this
      exact absurd hc (by decide)
    | Not o2 =>
      rw [data_Not, data_And] at h
      exact absurd (List.cons.inj h).1 (by decide)
    | And l2 r2 =>
      rw [data_And, data_And] at h
      obtain ⟨e1, _, e3, e4⟩ := binary_unique l1 l2 r1 r2 _ _ s1 s2 ihL ihR
        (hasVarNames_And h2).1 (hasVarNames_And h2).2 h
      exact ⟨by rw [e1, e3], e4⟩
    | Or l2 r2 =>
      rw [data_And, data_Or] at h
      obtain ⟨_, e2, _, _⟩ := binary_unique l1 l2 r1 r2 _ _ s1 s2 ihL ihR
        (hasVarNames_Or h2).1 (hasVarNames_Or h2).2 h
      exact absurd e2 (by decide)
    | Implies l2 r2 =>
      rw [data_And, data_Implies] at h
      obtain ⟨_, e2, _, _⟩ := binary_unique l1 l2 r1 r2 _ _ s1 s2 ihL ihR
        (hasVarNames_Implies h2).1 (hasVarNames_Implies h2).2 h
      exact absurd e2 (by decide)
    | Equivalent l2 r2 =>
      rw [data_And, data_Equivalent] at h
      obtain ⟨_, e2, _, _⟩ := binary_unique l1 l2 r1 r2 _ _ s1 s2 ihL ihR
        (hasVarNames_Equivalent h2).1 (hasVarNames_Equivalent h2).2 h
      exact absurd e2 (by decide)
  | Or l1 r1 ihl ihr =>
    intro t2 s1 s2 h1 h2 q1 q2 h
    have ihL : ∀ t2 s1 s2, HasVarNames t2 → Stops s1 → Stops s2 →
        l1.String.data ++ s1 = t2.String.data ++ s2 → l1 = t2 ∧ s1 = s2 :=
      fun t2 s1 s2 a b c d => ihl t2 s1 s2 (hasVarNames_Or h1).1 a b c d
    have ihR : ∀ t2 s1 s2, HasVarNames t2 → Stops s1 → Stops s2 →
        r1.String.data ++ s1 = t2.String.data ++ s2 → r1 = t2 ∧ s1 = s2 :=
      fun t2 s1 s2 a b c d => ihr t2 s1 s2 (hasVarNames_Or h1).2 a b c d
    cases t2 with
    | Var n2 =>
      have hn2 : IsVarName n2 := h2 n2 (by simp [occurringVars])
      obtain ⟨c, tl, hd, hc⟩ := isVarName_head hn2
      rw [data_Var, data_Or, hd] at h
      have : '(' = c := by simpa using (List.cons.inj h).1
      subst this
      exact absurd hc (by decide)
    | Not o2 =>
      rw [data_Not, data_Or] at h
      exact absurd (List.cons.inj h).1 (by decide)
    | And l2 r2 =>
      rw [data_Or, data_And] at h
      obtain ⟨_, e2, _, _⟩ := binary_unique l1 l2 r1 r2 _ _ s1 s2 ihL ihR
        (hasVarNames_And h2).1 (hasVarNames_And h2).2 h
      exact absurd e2 (by decide)
    | Or l2 r2 =>
      rw [data_Or, data_Or] at h
      obtain ⟨e1, _, e3, e4⟩ := binary_unique l1 l2 r1 r2 _ _ s1 s2 ihL ihR
        (hasVarNames_Or h2).1 (hasVarNames_Or h2).2 h
      exact ⟨by rw [e1, e3], e4⟩
    | Implies l2 r2 =>
      rw [data_Or, data_Implies] at h
      obtain ⟨_, e2, _, _⟩ := binary_unique l1 l2 r1 r2 _ _ s1 s2 ihL ihR
        (hasVarNames_Implies h2).1 (hasVarNames_Implies h2).2 h
      exact absurd e2 (by decide)
    | Equivalent l2 r2 =>
      rw [data_Or, data_Equivalent] at h
      obtain ⟨_, e2, _, _⟩ := binary_unique l1 l2 r1 r2 _ _ s1 s2 ihL ihR
        (hasVarNames_Equivalent h2).1 (hasVarNames_Equivalent h2).2 h
      exact absurd e2 (by decide)
  | Implies l1 r1 ihl ihr =>
    intro t2 s1 s2 h1 h2 q1 q2 h
    have ihL : ∀ t2 s1 s2, HasVarNames t2 → Stops s1 → Stops s2 →
        l1.String.data ++ s1 = t2.String.data ++ s2 → l1 = t2 ∧ s1 = s2 :=
      fun t2 s1 s2 a b c d => ihl t2 s1 s2 (hasVarNames_Implies h1).1 a b c d
    have ihR : ∀ t2 s1 s2, HasVarNames t2 → Stops s1 → Stops s2 →
        r1.String.data ++ s1 = t2.String.data ++ s2 → r1 = t2 ∧ s1 = s2 :=
      fun t2 s1 s2 a b c d => ihr t2 s1 s2 (hasVarNames_Implies h1).2 a b c d
    cases t2 with
    | Var n2 =>
      have hn2 : IsVarName n2 := h2 n2 (by simp [occurringVars])
      obtain ⟨c, tl, hd, hc⟩ := isVarName_head hn2
      rw [data_Var, data_Implies, hd] at h
      have : '(' = c := by simpa using (List.cons.inj h).1
      subst this
      exact absurd hc (by decide)
    | Not o2 =>
      rw [data_Not, data_Implies] at h
      exact absurd (List.cons.inj h).1 (by decide)
    | And l2 r2 =>
      rw [data_Implies, data_And] at h
      obtain ⟨_, e2, _, _⟩ := binary_unique l1 l2 r1 r2 _ _ s1 s2 ihL ihR
        (hasVarNames_And h2).1 (hasVarNames_And h2).2 h
      exact absurd e2 (by decide)
    | Or l2 r2 =>
      rw [data_Implies, data_Or] at h
      obtain ⟨_, e2, _, _⟩ := binary_unique l1 l2 r1 r2 _ _ s1 s2 ihL ihR
        (hasVarNames_Or h2).1 (hasVarNames_Or h2).2 h
      exact absurd e2 (by decide)
    | Implies l2 r2 =>
      rw [data_Implies, data_Implies] at h
      obtain ⟨e1, _, e3, e4⟩ := binary_unique l1 l2 r1 r2 _ _ s1 s2 ihL ihR
        (hasVarNames_Implies h2).1 (hasVarNames_Implies h2).2 h
      exact ⟨by rw [e1, e3], e4⟩
    | Equivalent l2 r2 =>
      rw [data_Implies, data_Equivalent] at h
      obtain ⟨_, e2, _, _⟩ := binary_unique l1 l2 r1 r2 _ _ s1 s2 ihL ihR
        (hasVarNames_Equivalent h2).1 (hasVarNames_Equivalent h2).2 h
      exact absurd e2 (by decide)
  | Equivalent l1 r1 ihl ihr =>
    intro t2 s1 s2 h1 h2 q1 q2 h
    have ihL : ∀ t2 s1 s2, HasVarNames t2 → Stops s1 → Stops s2 →
        l1.String.data ++ s1 = t2.String.data ++ s2 → l1 = t2 ∧ s1 = s2 :=
      fun t2 s1 s2 a b c d => ihl t2 s1 s2 (hasVarNames_Equivalent h1).1 a b c d
    have ihR : ∀ t2 s1 s2, HasVarNames t2 → Stops s1 → Stops s2 →
        r1.String.data ++ s1 = t2.String.data ++ s2 → r1 = t2 ∧ s1 = s2 :=
      fun t2 s1 s2 a b c d => ihr t2 s1 s2 (hasVarNames_Equivalent h1).2 a b c d
    cases t2 with
    | Var n2 =>
      have hn2 : IsVarName n2 := h2 n2 (by simp [occurringVars])
      obtain ⟨c, tl, hd, hc⟩ := isVarName_head hn2
      rw [data_Var, data_Equivalent, hd] at h
      have : '(' = c := by simpa using (List.cons.inj h).1
      subst this
      exact absurd hc (by decide)
    | Not o2 =>
      rw [data_Not, data_Equivalent] at h
      exact absurd (List.cons.inj h).1 (by decide)
    | And l2 r2 =>
      rw [data_Equivalent, data_And] at h
      obtain ⟨_, e2, _, _⟩ := binary_unique l1 l2 r1 r2 _ _ s1 s2 ihL ihR
        (hasVarNames_And h2).1 (hasVarNames_And h2).2 h
      exact absurd e2 (by decide)
    | Or l2 r2 =>
      rw [data_Equivalent, data_Or] at h
      obtain ⟨_, e2, _, _⟩ := binary_unique l1 l2 r1 r2 _ _ s1 s2 ihL ihR
        (hasVarNames_Or h2).1 (hasVarNames_Or h2).2 h
      exact absurd e2 (by decide)
    | Implies l2 r2 =>
      rw [data_Equivalent, data_Implies] at h
      obtain ⟨_, e2, _, _⟩ := binary_unique l1 l2 r1 r2 _ _ s1 s2 ihL ihR
        (hasVarNames_Implies h2).1 (hasVarNames_Implies h2).2 h
      exact absurd e2 (by decide)
    | Equivalent l2 r2 =>
      rw [data_Equivalent, data_Equivalent] at h
      obtain ⟨e1, _, e3, e4⟩ := binary_unique l1 l2 r1 r2 _ _ s1 s2 ihL ihR
        (hasVarNames_Equivalent h2).1 (hasVarNames_Equivalent h2).2 h
      exact ⟨by rw [e1, e3], e4⟩

/-- The rendering is injective on trees with lexer-shaped names. -/
theorem String_injective (t1 t2 : Expr) (h1 : HasVarNames t1) (h2 : HasVarNames t2)
    (h : t1.String = t2.String) : t1 = t2 := by
  have hs : Stops [] := by
    intro c hc
    simp at hc
  have := String_unique t1 t2 [] [] h1 h2 hs hs (by rw [h])
  exact this.1

theorem occurringVars_of_subexpression (e s : Expr) (hs : s ∈ subexpressions e) :
    ∀ x ∈ occurringVars s, x ∈ occurringVars e := by
  induction e with
  | Var name =>
    have : s = .Var name := by simpa [subexpressions] using hs
    subst this
    exact fun x hx => hx
  | Not operand ih =>
    rcases List.mem_cons.mp (by simpa [subexpressions] using hs) with rfl | hs
    · exact fun x hx => hx
    · exact fun x hx => ih hs x hx
  | And left right ihl ihr =>
    have hs2 : s = .And left right ∨ s ∈ subexpressions left ∨ s ∈ subexpressions right := by
      simpa [subexpressions] using hs
    rcases hs2 with rfl | hs | hs
    · exact fun x hx => hx
    · exact fun x hx => by simp [occurringVars, ihl hs x hx]
    · exact fun x hx => by simp [occurringVars, ihr hs x hx]
  | Or left right ihl ihr =>
    have hs2 : s = .Or left right ∨ s ∈ subexpressions left ∨ s ∈ subexpressions right := by
      simpa [subexpressions] using hs
    rcases hs2 with rfl | hs | hs
    · exact fun x hx => hx
    · exact fun x hx => by simp [occurringVars, ihl hs x hx]
    · exact fun x hx => by simp [occurringVars, ihr hs x hx]
  | Implies left right ihl ihr =>
    have hs2 : s = .Implies left right ∨ s ∈ subexpressions left ∨ s ∈ subexpressions right := by
      simpa [subexpressions] using hs
    rcases hs2 with rfl | hs | hs
    · exact fun x hx => hx
    · exact fun x hx => by simp [occurringVars, ihl hs x hx]
    · exact fun x hx => by simp [occurringVars, ihr hs x hx]
  | Equivalent left right ihl ihr =>
    have hs2 : s = .Equivalent left right ∨ s ∈ subexpressions left ∨ s ∈ subexpressions right := by
      simpa [subexpressions] using hs
    rcases hs2 with rfl | hs | hs
    · exact fun x hx => hx
    · exact fun x hx => by simp [occurringVars, ihl hs x hx]
    · exact fun x hx => by simp [occurringVars, ihr hs x hx]

/-- C2: for a tree with lexer-shaped names and an assignment defining its
variables, the collector returns a row whose keys are exactly the renderings of
the subexpressions of the tree; under the rendering of each subexpression the
row holds 1 if the subexpression evaluates to true and 0 if to false; and no
value other than 0 or 1 occurs. -/
theorem collector_row_keys_and_values (e : Expr) (sigma : GoMap Bool)
    (hn : HasVarNames e) (hd : DefinesAll sigma e) :
    ∃ row, evaluateExpressionAndSubexpressions e sigma = .ok row ∧
      (∀ k, k ∈ GoMap.keys row ↔ ∃ s ∈ subexpressions e, k = s.String) ∧
      (∀ s ∈ subexpressions e, ∃ b, Evaluate s sigma = .ok b ∧
        GoMap.get? row s.String = some (if b then 1 else 0)) ∧
      (∀ k v, GoMap.get? row k = some v → v = 0 ∨ v = 1) := by
  obtain ⟨row, hrow⟩ := collector_ok_of_definesAll e sigma hd
  obtain ⟨_, hfrom, hpresent⟩ := rowOf_collector e sigma row hrow
  refine ⟨row, hrow, ?_, ?_, ?_⟩
  · intro k
    rw [GoMap.mem_keys_iff]
    constructor
    · intro hk
      obtain ⟨v, hv⟩ := Option.ne_none_iff_exists'.mp hk
      obtain ⟨s, hs, hks, _⟩ := hfrom k v hv
      exact ⟨s, hs, hks⟩
    · rintro ⟨s, hs, rfl⟩
      exact hpresent s hs
  · intro s hs
    obtain ⟨v, hv⟩ := Option.ne_none_iff_exists'.mp (hpresent s hs)
    obtain ⟨s2, hs2, hks, b, hb, hvb⟩ := hfrom _ v hv
    have hsame : s = s2 :=
      String_injective s s2 (fun x hx => hn x (occurringVars_of_subexpression e s hs x hx))
        (fun x hx => hn x (occurringVars_of_subexpression e s2 hs2 x hx)) hks
    subst hsame
    exact ⟨b, hb, by rw [hv, hvb]⟩
  · intro k v hv
    obtain ⟨s, _, _, b, _, hvb⟩ := hfrom k v hv
    cases b <;> simp [hvb]

/-- Witness of `collector_row_keys_and_values`: the tree `(p & !q)` under p = true,
q = false. -/
theorem collector_row_keys_and_values_witness :
    ∃ row, evaluateExpressionAndSubexpressions (.And (.Var "p") (.Not (.Var "q")))
        [("p", true), ("q", false)] = .ok row ∧
      (∀ k, k ∈ GoMap.keys row ↔
        ∃ s ∈ subexpressions (.And (.Var "p") (.Not (.Var "q"))), k = s.String) ∧
      (∀ s ∈ subexpressions (.And (.Var "p") (.Not (.Var "q"))),
        ∃ b, Evaluate s [("p", true), ("q", false)] = .ok b ∧
          GoMap.get? row s.String = some (if b then 1 else 0)) ∧
      (∀ k v, GoMap.get? row k = some v → v = 0 ∨ v = 1) :=
  collector_row_keys_and_values (.And (.Var "p") (.Not (.Var "q")))
    [("p", true), ("q", false)] (by decide) (by decide)

/-! ## The lexer produces lexer-shaped names -/

theorem lexInv_commitVar (st : LexState) (h : LexInv st) :
    LexInv (commitVar st) ∧ (commitVar st).currentVar = "" := by
  unfold commitVar
  by_cases hc : st.currentVar = ""
  · rw [if_neg (not_not.mpr hc)]
    exact ⟨h, hc⟩
  · rw [if_pos hc]
    refine ⟨⟨?_, by simp⟩, rfl⟩
    intro tok htok hty
    rcases List.mem_append.mp htok with hm | hm
    · exact h.1 tok hm hty
    · have : tok = ⟨TokenTypeVar, st.currentVar⟩ := by simpa using hm
      subst this
      exact ⟨hc, h.2⟩

theorem lexInv_emitToken (st : LexState) (ty : TokenType) (hty : ty ≠ TokenTypeVar)
    (h : LexInv st) : LexInv (emitToken st ty) := by
  obtain ⟨⟨h1, h2⟩, h3⟩ := lexInv_commitVar st h
  refine ⟨?_, ?_⟩
  · intro tok htok hv
    rcases List.mem_append.mp htok with hm | hm
    · exact h1 tok hm hv
    · have : tok = ⟨ty, ""⟩ := by simpa using hm
      subst this
      exact absurd hv hty
  · simp [emitToken, h3]

theorem lexInv_lexStep (st : LexState) (ch : Char) (h : LexInv st) : LexInv (lexStep st ch) := by
  unfold lexStep
  split
  · rename_i hc
    refine ⟨h.1, ?_⟩
    intro c hmem
    have : c ∈ st.currentVar.data ∨ c = ch := by simpa [String.singleton] using hmem
    rcases this with hm | rfl
    · exact h.2 c hm
    · exact hc
  · repeat' split
    all_goals first
      | exact h
      | exact lexInv_emitToken _ _ (by decide) h

theorem lexInv_foldl (l : List Char) (st : LexState) (h : LexInv st) :
    LexInv (l.foldl lexStep st) := by
  induction l generalizing st with
  | nil => exact h
  | cons c l ih => exact ih _ (lexInv_lexStep st c h)

/-- Every VAR token of `Lexer` carries a non-empty name of ASCII letters and
digits. -/
theorem Lexer_var_names (s : String) :
    ∀ tok ∈ Lexer s, tok.Typ = TokenTypeVar → IsVarName tok.Value := by
  have h0 : LexInv ⟨[], ""⟩ := ⟨by simp, by simp⟩
  exact (lexInv_commitVar _ (lexInv_foldl s.data _ h0)).1.1

/-! ## The names of a parsed tree are names of tokens -/

theorem namesFrom (Q : String → Prop) (tokens : List Token)
    (hQ : ∀ tok ∈ tokens, tok.Typ = TokenTypeVar → Q tok.Value) :
    ∀ fuel, NamesFrom Q tokens fuel := by
  intro fuel
  induction fuel with
  | zero =>
    refine ⟨?_, ?_, ?_, ?_, ?_, ?_, ?_, ?_, ?_, ?_⟩ <;> intros <;> rename_i h _ _ <;>
      simp [parsePrimary, parseNot, parseAnd, parseAndLoop, parseOr, parseOrLoop, parseImplies,
        parseImpliesLoop, parseEquivalent, parseEquivalentLoop] at h
  | succ fuel ih =>
    obtain ⟨iP, iN, iA, iAL, iO, iOL, iI, iIL, iE, iEL⟩ := ih
    refine ⟨?_, ?_, ?_, ?_, ?_, ?_, ?_, ?_, ?_, ?_⟩
    · intro pos e p h
      rw [parsePrimary] at h
      cases ht : tokens[pos]? with
      | none => simp [ht] at h
      | some token =>
        have hmem : token ∈ tokens := List.getElem?_mem ht
        simp only [ht] at h
        cases hty : token.Typ <;> simp only [hty] at h <;> try (simp at h; done)
        · cases hE : parseEquivalent fuel tokens (pos + 1) with
          | none => simp [hE] at h
          | some res =>
            rw [hE] at h
            rcases res with msg | ⟨e1, p1⟩
            · simp at h
            · by_cases hc : peekIs tokens p1 TokenTypeRparen = true
              · simp [hc] at h
                rw [← h.1]
                exact iE _ _ _ hE
              · simp [hc] at h
        · simp at h
          rw [← h.1]
          intro x hx
          have : x = token.Value := by simpa [occurringVars] using hx
          rw [this]
          exact hQ token hmem hty
    · intro pos e p h
      rw [parseNot] at h
      by_cases hc : peekIs tokens pos TokenTypeNot = true
      · simp only [hc, if_true] at h
        cases hE : parsePrimary fuel tokens (pos + 1) with
        | none => simp [hE] at h
        | some res =>
          rw [hE] at h
          rcases res with msg | ⟨e1, p1⟩
          · simp at h
          · simp at h
            rw [← h.1]
            exact iP (pos + 1) e1 p1 hE
      · simp only [hc] at h
        exact iP _ _ _ h
    · intro pos e p h
      rw [parseAnd] at h
      cases hE : parseNot fuel tokens pos with
      | none => simp [hE] at h
      | some res =>
        rw [hE] at h
        rcases res with msg | ⟨e1, p1⟩
        · simp at h
        · exact iAL _ _ _ _ (iN _ _ _ hE) h
    · intro e0 pos e p h0 h
      rw [parseAndLoop] at h
      by_cases hc : peekIs tokens pos TokenTypeAnd = true
      · simp only [hc, if_true] at h
        cases hE : parseNot fuel tokens (pos + 1) with
        | none => simp [hE] at h
        | some res =>
          rw [hE] at h
          rcases res with msg | ⟨e1, p1⟩
          · simp at h
          · refine iAL _ _ _ _ ?_ h
            intro x hx
            rcases List.mem_append.mp (by simpa [occurringVars] using hx) with hm | hm
            · exact h0 x hm
            · exact iN _ _ _ hE x hm
      · simp [hc] at h
        rw [← h.1]
        exact h0
    · intro pos e p h
      rw [parseOr] at h
      cases hE : parseAnd fuel tokens pos with
      | none => simp [hE] at h
      | some res =>
        rw [hE] at h
        rcases res with msg | ⟨e1, p1⟩
        · simp at h
        · exact iOL _ _ _ _ (iA _ _ _ hE) h
    · intro e0 pos e p h0 h
      rw [parseOrLoop] at h
      by_cases hc : peekIs tokens pos TokenTypeOr = true
      · simp only [hc, if_true] at h
        cases hE : parseAnd fuel tokens (pos + 1) with
        | none => simp [hE] at h
        | some res =>
          rw [hE] at h
          rcases res with msg | ⟨e1, p1⟩
          · simp at h
          · refine iOL _ _ _ _ ?_ h
            intro x hx
            rcases List.mem_append.mp (by simpa [occurringVars] using hx) with hm | hm
            · exact h0 x hm
            · exact iA _ _ _ hE x hm
      · simp [hc] at h
        rw [← h.1]
        exact h0
    · intro pos e p h
      rw [parseImplies] at h
      cases hE : parseOr fuel tokens pos with
      | none => simp [hE] at h
      | some res =>
        rw [hE] at h
        rcases res with msg | ⟨e1, p1⟩
        · simp at h
        · exact iIL _ _ _ _ (iO _ _ _ hE) h
    · intro e0 pos e p h0 h
      rw [parseImpliesLoop] at h
      by_cases hc : peekIs tokens pos TokenTypeImplies = true
      · simp only [hc, if_true] at h
        cases hE : parseImplies fuel tokens (pos + 1) with
        | none => simp [hE] at h
        | some res =>
          rw [hE] at h
          rcases res with msg | ⟨e1, p1⟩
          · simp at h
          · refine iIL _ _ _ _ ?_ h
            intro x hx
            rcases List.mem_append.mp (by simpa [occurringVars] using hx) with hm | hm
            · exact h0 x hm
            · exact iI _ _ _ hE x hm
      · simp [hc] at h
        rw [← h.1]
        exact h0
    · intro pos e p h
      rw [parseEquivalent] at h
      cases hE : parseImplies fuel tokens pos with
      | none => simp [hE] at h
      | some res =>
        rw [hE] at h
        rcases res with msg | ⟨e1, p1⟩
        · simp at h
        · exact iEL _ _ _ _ (iI _ _ _ hE) h
    · intro e0 pos e p h0 h
      rw [parseEquivalentLoop] at h
      by_cases hc : peekIs tokens pos TokenTypeEquivalent = true
      · simp only [hc, if_true] at h
        cases hE : parseImplies fuel tokens (pos + 1) with
        | none => simp [hE] at h
        | some res =>
          rw [hE] at h
          rcases res with msg | ⟨e1, p1⟩
          · simp at h
          · refine iEL _ _ _ _ ?_ h
            intro x hx
            rcases List.mem_append.mp (by simpa [occurringVars] using hx) with hm | hm
            · exact h0 x hm
            · exact iI _ _ _ hE x hm
      · simp [hc] at h
        rw [← h.1]
        exact h0

/-- A tree parsed from the tokens of `Lexer` has lexer-shaped names. -/
theorem hasVarNames_of_parse (s : String) (fuel pos : Nat) (t : Expr) (p : Nat)
    (h : parseEquivalent fuel (Lexer s) pos = some (.ok (t, p))) : HasVarNames t :=
  (namesFrom IsVarName (Lexer s) (Lexer_var_names s) fuel).2.2.2.2.2.2.2.2.1 pos t p h

/-! ## Lexing a rendering -/

theorem commitVar_empty (ts : List Token) : commitVar ⟨ts, ""⟩ = ⟨ts, ""⟩ := rfl

theorem commitVar_pending (ts : List Token) (n : String) (hn : n ≠ "") :
    commitVar ⟨ts, n⟩ = ⟨ts ++ [⟨TokenTypeVar, n⟩], ""⟩ := by
  simp [commitVar, hn]

theorem commitsFirst_nil : CommitsFirst [] := by
  intro ts n hn
  simp only [List.foldl_nil]
  rw [commitVar_pending ts n hn]
  rfl

theorem lexStep_space (st : LexState) : lexStep st ' ' = st := lexStep_other st ' ' (by decide)

theorem commitsFirst_space (l : List Char) (h : CommitsFirst l) : CommitsFirst (' ' :: l) := by
  intro ts n hn
  simp only [List.foldl_cons, lexStep_space]
  exact h ts n hn

theorem lexStep_op_pending (ts : List Token) (n : String) (hn : n ≠ "") (c : Char)
    (hc : c = '&' ∨ c = '|' ∨ c = '!' ∨ c = '→' ∨ c = '⇔' ∨ c = '(' ∨ c = ')') :
    lexStep ⟨ts, n⟩ c = lexStep ⟨ts ++ [⟨TokenTypeVar, n⟩], ""⟩ c := by
  have e : commitVar ⟨ts, n⟩ = commitVar ⟨ts ++ [⟨TokenTypeVar, n⟩], ""⟩ := by
    rw [commitVar_pending ts n hn]
    rfl
  rcases hc with rfl | rfl | rfl | rfl | rfl | rfl | rfl <;>
    simp [lexStep, emitToken, isVarChar, e]

theorem commitsFirst_op (c : Char) (l : List Char)
    (hc : c = '&' ∨ c = '|' ∨ c = '!' ∨ c = '→' ∨ c = '⇔' ∨ c = '(' ∨ c = ')') :
    CommitsFirst (c :: l) := by
  intro ts n hn
  simp only [List.foldl_cons]
  rw [lexStep_op_pending ts n hn c hc]

theorem lexStep_op_empty (ts : List Token) :
    lexStep ⟨ts, ""⟩ '&' = ⟨ts ++ [⟨TokenTypeAnd, ""⟩], ""⟩ ∧
    lexStep ⟨ts, ""⟩ '|' = ⟨ts ++ [⟨TokenTypeOr, ""⟩], ""⟩ ∧
    lexStep ⟨ts, ""⟩ '!' = ⟨ts ++ [⟨TokenTypeNot, ""⟩], ""⟩ ∧
    lexStep ⟨ts, ""⟩ '→' = ⟨ts ++ [⟨TokenTypeImplies, ""⟩], ""⟩ ∧
    lexStep ⟨ts, ""⟩ '⇔' = ⟨ts ++ [⟨TokenTypeEquivalent, ""⟩], ""⟩ ∧
    lexStep ⟨ts, ""⟩ '(' = ⟨ts ++ [⟨TokenTypeLparen, ""⟩], ""⟩ ∧
    lexStep ⟨ts, ""⟩ ')' = ⟨ts ++ [⟨TokenTypeRparen, ""⟩], ""⟩ := by
  refine ⟨?_, ?_, ?_, ?_, ?_, ?_, ?_⟩ <;> rfl

theorem lex_binary (left right : Expr) (o : Char) (ty : TokenType) (rest : List Char)
    (ts : List Token)
    (ho : o = '&' ∨ o = '|' ∨ o = '!' ∨ o = '→' ∨ o = '⇔' ∨ o = '(' ∨ o = ')')
    (hstep : ∀ us : List Token, lexStep ⟨us, ""⟩ o = ⟨us ++ [⟨ty, ""⟩], ""⟩)
    (ihl : ∀ (ts : List Token) (rest : List Char), CommitsFirst rest →
      commitVar ((left.String.data ++ rest).foldl lexStep ⟨ts, ""⟩)
        = commitVar (rest.foldl lexStep ⟨ts ++ tokensOf left, ""⟩))
    (ihr : ∀ (ts : List Token) (rest : List Char), CommitsFirst rest →
      commitVar ((right.String.data ++ rest).foldl lexStep ⟨ts, ""⟩)
        = commitVar (rest.foldl lexStep ⟨ts ++ tokensOf right, ""⟩)) :
    commitVar (('(' :: (left.String.data ++ ' ' :: o :: ' ' :: (right.String.data ++ [')']))
        ++ rest).foldl lexStep ⟨ts, ""⟩)
      = commitVar (rest.foldl lexStep
          ⟨ts ++ ⟨TokenTypeLparen, ""⟩ :: (tokensOf left ++ ⟨ty, ""⟩ :: (tokensOf right
            ++ [⟨TokenTypeRparen, ""⟩])), ""⟩) := by
  have e1 : ('(' :: (left.String.data ++ ' ' :: o :: ' ' :: (right.String.data ++ [')']))
        ++ rest)
      = '(' :: (left.String.data ++ (' ' :: o :: ' ' :: (right.String.data ++ ')' :: rest))) := by
    simp
  rw [e1, List.foldl_cons, (lexStep_op_empty ts).2.2.2.2.2.1,
    ihl _ _ (commitsFirst_space _ (commitsFirst_op o _ ho))]
  simp only [List.foldl_cons, lexStep_space, hstep]
  rw [ihr _ _ (commitsFirst_op ')' _ (by simp))]
  simp only [List.foldl_cons, (lexStep_op_empty _).2.2.2.2.2.2]
  simp

theorem lex_rendering (t : Expr) (ht : HasVarNames t) :
    ∀ (ts : List Token) (rest : List Char), CommitsFirst rest →
      commitVar ((t.String.data ++ rest).foldl lexStep ⟨ts, ""⟩)
        = commitVar (rest.foldl lexStep ⟨ts ++ tokensOf t, ""⟩) := by
  induction t with
  | Var name =>
    intro ts rest hrest
    have hn : IsVarName name := ht name (by simp [occurringVars])
    rw [data_Var, List.foldl_append, foldl_lexStep_varChars _ hn.2]
    have e : ("" : String) ++ String.mk name.data = name := by simp [String.ext_iff]
    simp only [e]
    exact hrest ts name hn.1
  | Not operand ih =>
    intro ts rest hrest
    rw [data_Not, List.cons_append, List.foldl_cons, (lexStep_op_empty ts).2.2.1,
      ih (hasVarNames_Not ht) _ _ hrest]
    simp [tokensOf]
  | And left right ihl ihr =>
    intro ts rest hrest
    rw [data_And]
    exact lex_binary left right '&' TokenTypeAnd rest ts (by simp)
      (fun us => (lexStep_op_empty us).1) (ihl (hasVarNames_And ht).1)
      (ihr (hasVarNames_And ht).2)
  | Or left right ihl ihr =>
    intro ts rest hrest
    rw [data_Or]
    exact lex_binary left right '|' TokenTypeOr rest ts (by simp)
      (fun us => (lexStep_op_empty us).2.1) (ihl (hasVarNames_Or ht).1)
      (ihr (hasVarNames_Or ht).2)
  | Implies left right ihl ihr =>
    intro ts rest hrest
    rw [data_Implies]
    exact lex_binary left right '→' TokenTypeImplies rest ts (by simp)
      (fun us => (lexStep_op_empty us).2.2.2.1) (ihl (hasVarNames_Implies ht).1)
      (ihr (hasVarNames_Implies ht).2)
  | Equivalent left right ihl ihr =>
    intro ts rest hrest
    rw [data_Equivalent]
    exact lex_binary left right '⇔' TokenTypeEquivalent rest ts (by simp)
      (fun us => (lexStep_op_empty us).2.2.2.2.1) (ihl (hasVarNames_Equivalent ht).1)
      (ihr (hasVarNames_Equivalent ht).2)

/-- The tokens of the rendering of a tree with lexer-shaped names are `tokensOf`. -/
theorem Lexer_String (t : Expr) (ht : HasVarNames t) : Lexer t.String = tokensOf t := by
  have h := lex_rendering t ht [] [] commitsFirst_nil
  simp only [List.append_nil, List.foldl_nil, List.nil_append] at h
  unfold Lexer
  rw [h]
  rfl

/-! ## Parsing the tokens of a rendering -/

theorem getElem?_append_cons {α : Type} (pre : List α) (x : α) (rest : List α) (P : Nat)
    (hP : P = pre.length) : (pre ++ x :: rest)[P]? = some x := by
  subst hP
  rw [List.getElem?_append_right (Nat.le_refl _)]
  simp

theorem peekIs_of_getElem? {tokens : List Token} {pos : Nat} {tok : Token}
    (h : tokens[pos]? = some tok) (ty : TokenType) :
    peekIs tokens pos ty = decide (tok.Typ = ty) := by
  simp [peekIs, h]

theorem parsePrimary_And (l r : Expr) (T : List Token) (P0 P1 P2 m : Nat)
    (h0 : T[P0]? = some ⟨TokenTypeLparen, ""⟩)
    (hl : ∀ j, parseNot (m + j) T (P0 + 1) = some (.ok (l, P1)))
    (h1 : T[P1]? = some ⟨TokenTypeAnd, ""⟩)
    (hr : ∀ j, parseNot (m + j) T (P1 + 1) = some (.ok (r, P2)))
    (h2 : T[P2]? = some ⟨TokenTypeRparen, ""⟩) :
    parsePrimary (m + 10) T P0 = some (.ok (.And l r, P2 + 1)) := by
  have p1 := peekIs_of_getElem? h1
  have p2 := peekIs_of_getElem? h2
  simp only [] at p1 p2
  simp [parsePrimary, parseEquivalent, parseImplies, parseOr, parseAnd, parseAndLoop,
    parseOrLoop, parseImpliesLoop, parseEquivalentLoop, h0, hl, hr, p1, p2]

theorem parsePrimary_Or (l r : Expr) (T : List Token) (P0 P1 P2 m : Nat)
    (h0 : T[P0]? = some ⟨TokenTypeLparen, ""⟩)
    (hl : ∀ j, parseNot (m + j) T (P0 + 1) = some (.ok (l, P1)))
    (h1 : T[P1]? = some ⟨TokenTypeOr, ""⟩)
    (hr : ∀ j, parseNot (m + j) T (P1 + 1) = some (.ok (r, P2)))
    (h2 : T[P2]? = some ⟨TokenTypeRparen, ""⟩) :
    parsePrimary (m + 10) T P0 = some (.ok (.Or l r, P2 + 1)) := by
  have p1 := peekIs_of_getElem? h1
  have p2 := peekIs_of_getElem? h2
  simp only [] at p1 p2
  simp [parsePrimary, parseEquivalent, parseImplies, parseOr, parseAnd, parseAndLoop,
    parseOrLoop, parseImpliesLoop, parseEquivalentLoop, h0, hl, hr, p1, p2]

theorem parsePrimary_Implies (l r : Expr) (T : List Token) (P0 P1 P2 m : Nat)
    (h0 : T[P0]? = some ⟨TokenTypeLparen, ""⟩)
    (hl : ∀ j, parseNot (m + j) T (P0 + 1) = some (.ok (l, P1)))
    (h1 : T[P1]? = some ⟨TokenTypeImplies, ""⟩)
    (hr : ∀ j, parseNot (m + j) T (P1 + 1) = some (.ok (r, P2)))
    (h2 : T[P2]? = some ⟨TokenTypeRparen, ""⟩) :
    parsePrimary (m + 10) T P0 = some (.ok (.Implies l r, P2 + 1)) := by
  have p1 := peekIs_of_getElem? h1
  have p2 := peekIs_of_getElem? h2
  simp only [] at p1 p2
  simp [parsePrimary, parseEquivalent, parseImplies, parseOr, parseAnd, parseAndLoop,
    parseOrLoop, parseImpliesLoop, parseEquivalentLoop, h0, hl, hr, p1, p2]

theorem parsePrimary_Equivalent (l r : Expr) (T : List Token) (P0 P1 P2 m : Nat)
    (h0 : T[P0]? = some ⟨TokenTypeLparen, ""⟩)
    (hl : ∀ j, parseNot (m + j) T (P0 + 1) = some (.ok (l, P1)))
    (h1 : T[P1]? = some ⟨TokenTypeEquivalent, ""⟩)
    (hr : ∀ j, parseNot (m + j) T (P1 + 1) = some (.ok (r, P2)))
    (h2 : T[P2]? = some ⟨TokenTypeRparen, ""⟩) :
    parsePrimary (m + 10) T P0 = some (.ok (.Equivalent l r, P2 + 1)) := by
  have p1 := peekIs_of_getElem? h1
  have p2 := peekIs_of_getElem? h2
  simp only [] at p1 p2
  simp [parsePrimary, parseEquivalent, parseImplies, parseOr, parseAnd, parseAndLoop,
    parseOrLoop, parseImpliesLoop, parseEquivalentLoop, h0, hl, hr, p1, p2]

theorem parse_tokensOf_binary (e l r : Expr) (ty : TokenType)
    (htok : tokensOf e = ⟨TokenTypeLparen, ""⟩ :: (tokensOf l ++ ⟨ty, ""⟩ :: (tokensOf r
      ++ [⟨TokenTypeRparen, ""⟩])))
    (hprim : ∀ (T : List Token) (P0 P1 P2 m : Nat), T[P0]? = some ⟨TokenTypeLparen, ""⟩ →
      (∀ j, parseNot (m + j) T (P0 + 1) = some (.ok (l, P1))) →
      T[P1]? = some ⟨ty, ""⟩ →
      (∀ j, parseNot (m + j) T (P1 + 1) = some (.ok (r, P2))) →
      T[P2]? = some ⟨TokenTypeRparen, ""⟩ →
      parsePrimary (m + 10) T P0 = some (.ok (e, P2 + 1)))
    (ihl : ∀ (T pre rest : List Token), T = pre ++ (tokensOf l ++ rest) → ∃ f, ∀ fuel,
      f ≤ fuel → parseNot fuel T pre.length = some (.ok (l, pre.length + (tokensOf l).length)))
    (ihr : ∀ (T pre rest : List Token), T = pre ++ (tokensOf r ++ rest) → ∃ f, ∀ fuel,
      f ≤ fuel → parseNot fuel T pre.length = some (.ok (r, pre.length + (tokensOf r).length)))
    (T pre rest : List Token) (hT : T = pre ++ (tokensOf e ++ rest)) :
    ∃ f, ∀ fuel, f ≤ fuel →
      parsePrimary fuel T pre.length = some (.ok (e, pre.length + (tokensOf e).length)) ∧
      parseNot fuel T pre.length = some (.ok (e, pre.length + (tokensOf e).length)) := by
  have hT2 : T = pre ++ ⟨TokenTypeLparen, ""⟩ :: (tokensOf l ++ ⟨ty, ""⟩ :: (tokensOf r
      ++ ⟨TokenTypeRparen, ""⟩ :: rest)) := by
    rw [hT, htok]
    simp
  have h0 : T[pre.length]? = some ⟨TokenTypeLparen, ""⟩ := by
    rw [hT2]
    exact getElem?_append_cons _ _ _ _ rfl
  have h1 : T[pre.length + 1 + (tokensOf l).length]? = some ⟨ty, ""⟩ := by
    have e1 : T = (pre ++ ⟨TokenTypeLparen, ""⟩ :: tokensOf l) ++ ⟨ty, ""⟩ :: (tokensOf r
        ++ ⟨TokenTypeRparen, ""⟩ :: rest) := by
      rw [hT2]
      simp
    rw [e1]
    exact getElem?_append_cons _ _ _ _ (by simp; omega)
  have h2 : T[pre.length + 1 + (tokensOf l).length + 1 + (tokensOf r).length]?
      = some ⟨TokenTypeRparen, ""⟩ := by
    have e1 : T = (pre ++ ⟨TokenTypeLparen, ""⟩ :: (tokensOf l ++ ⟨ty, ""⟩ :: tokensOf r))
        ++ ⟨TokenTypeRparen, ""⟩ :: rest := by
      rw [hT2]
      simp
    rw [e1]
    exact getElem?_append_cons _ _ _ _ (by simp; omega)
  obtain ⟨fl, hfl⟩ := ihl T (pre ++ [⟨TokenTypeLparen, ""⟩])
    (⟨ty, ""⟩ :: (tokensOf r ++ ⟨TokenTypeRparen, ""⟩ :: rest)) (by rw [hT2]; simp)
  obtain ⟨fr, hfr⟩ := ihr T (pre ++ ⟨TokenTypeLparen, ""⟩ :: (tokensOf l ++ [⟨ty, ""⟩]))
    (⟨TokenTypeRparen, ""⟩ :: rest) (by rw [hT2]; simp)
  have el : (pre ++ [(⟨TokenTypeLparen, ""⟩ : Token)]).length = pre.length + 1 := by simp
  have er : (pre ++ (⟨TokenTypeLparen, ""⟩ : Token) :: (tokensOf l ++ [⟨ty, ""⟩])).length
      = pre.length + 1 + (tokensOf l).length + 1 := by
    simp
    omega
  rw [el] at hfl
  rw [er] at hfr
  have hend : pre.length + 1 + (tokensOf l).length + 1 + (tokensOf r).length + 1
      = pre.length + (tokensOf e).length := by
    rw [htok]
    simp
    omega
  have hprimary : ∀ m, fl + fr ≤ m →
      parsePrimary (m + 10) T pre.length = some (.ok (e, pre.length + (tokensOf e).length)) := by
    intro m hm
    rw [← hend]
    exact hprim T _ _ _ m h0 (fun j => hfl (m + j) (by omega)) h1
      (fun j => hfr (m + j) (by omega)) h2
  refine ⟨fl + fr + 11, ?_⟩
  intro fuel hfuel
  constructor
  · obtain ⟨m, rfl⟩ : ∃ m, fuel = m + 10 := ⟨fuel - 10, by omega⟩
    exact hprimary m (by omega)
  · obtain ⟨m, rfl⟩ : ∃ m, fuel = m + 11 := ⟨fuel - 11, by omega⟩
    have p0 := peekIs_of_getElem? h0 TokenTypeNot
    rw [parseNot]
    simp only [p0]
    exact hprimary m (by omega)

theorem noNestedNot_binary {a b : Bool} (h : (a && b) = true) : a = true ∧ b = true := by
  simpa using h

/-- On the tokens of a tree without a negation under a negation, placed anywhere
in a token sequence, `parseNot` returns the tree and stops behind its tokens,
and so does `parsePrimary` when the tree is not a negation. -/
theorem parse_tokensOf (t : Expr) (hn : noNestedNot t = true) :
    ∀ (T pre rest : List Token), T = pre ++ (tokensOf t ++ rest) → ∃ f, ∀ fuel, f ≤ fuel →
      (isNot t = false →
        parsePrimary fuel T pre.length = some (.ok (t, pre.length + (tokensOf t).length))) ∧
      parseNot fuel T pre.length = some (.ok (t, pre.length + (tokensOf t).length)) := by
  induction t with
  | Var name =>
    intro T pre rest hT
    have h0 : T[pre.length]? = some ⟨TokenTypeVar, name⟩ := by
      rw [hT]
      exact getElem?_append_cons _ _ _ _ rfl
    have hprimary : ∀ m, parsePrimary (m + 1) T pre.length
        = some (.ok (.Var name, pre.length + (tokensOf (.Var name)).length)) := by
      intro m
      rw [parsePrimary]
      simp [h0, tokensOf]
    refine ⟨2, ?_⟩
    intro fuel hfuel
    obtain ⟨m, rfl⟩ : ∃ m, fuel = m + 2 := ⟨fuel - 2, by omega⟩
    refine ⟨fun _ => hprimary (m + 1), ?_⟩
    have p0 := peekIs_of_getElem? h0 TokenTypeNot
    rw [parseNot]
    simp only [p0]
    exact hprimary m
  | Not operand ih =>
    intro T pre rest hT
    have hn2 : isNot operand = false ∧ noNestedNot operand = true := by
      simpa [noNestedNot] using hn
    have hT2 : T = pre ++ ⟨TokenTypeNot, ""⟩ :: (tokensOf operand ++ rest) := by
      rw [hT]
      simp [tokensOf]
    have h0 : T[pre.length]? = some ⟨TokenTypeNot, ""⟩ := by
      rw [hT2]
      exact getElem?_append_cons _ _ _ _ rfl
    obtain ⟨fo, hfo⟩ := ih hn2.2 T (pre ++ [⟨TokenTypeNot, ""⟩]) rest (by rw [hT2]; simp)
    have el : (pre ++ [(⟨TokenTypeNot, ""⟩ : Token)]).length = pre.length + 1 := by simp
    rw [el] at hfo
    refine ⟨fo + 1, ?_⟩
    intro fuel hfuel
    obtain ⟨m, rfl⟩ : ∃ m, fuel = m + 1 := ⟨fuel - 1, by omega⟩
    refine ⟨fun h => by simp [isNot] at h, ?_⟩
    have p0 := peekIs_of_getElem? h0 TokenTypeNot
    rw [parseNot]
    simp only [p0, (hfo m (by omega)).1 hn2.1]
    simp [tokensOf]
    omega
  | And left right ihl ihr =>
    intro T pre rest hT
    have hn2 := noNestedNot_binary (show (noNestedNot left && noNestedNot right) = true from hn)
    obtain ⟨f, hf⟩ := parse_tokensOf_binary (.And left right) left right TokenTypeAnd rfl
      (parsePrimary_And left right)
      (fun T pre rest hT => (ihl hn2.1 T pre rest hT).imp (fun f h fuel hfuel => (h fuel hfuel).2))
      (fun T pre rest hT => (ihr hn2.2 T pre rest hT).imp (fun f h fuel hfuel => (h fuel hfuel).2))
      T pre rest hT
    exact ⟨f, fun fuel hfuel => ⟨fun _ => (hf fuel hfuel).1, (hf fuel hfuel).2⟩⟩
  | Or left right ihl ihr =>
    intro T pre rest hT
    have hn2 := noNestedNot_binary (show (noNestedNot left && noNestedNot right) = true from hn)
    obtain ⟨f, hf⟩ := parse_tokensOf_binary (.Or left right) left right TokenTypeOr rfl
      (parsePrimary_Or left right)
      (fun T pre rest hT => (ihl hn2.1 T pre rest hT).imp (fun f h fuel hfuel => (h fuel hfuel).2))
      (fun T pre rest hT => (ihr hn2.2 T pre rest hT).imp (fun f h fuel hfuel => (h fuel hfuel).2))
      T pre rest hT
    exact ⟨f, fun fuel hfuel => ⟨fun _ => (hf fuel hfuel).1, (hf fuel hfuel).2⟩⟩
  | Implies left right ihl ihr =>
    intro T pre rest hT
    have hn2 := noNestedNot_binary (show (noNestedNot left && noNestedNot right) = true from hn)
    obtain ⟨f, hf⟩ := parse_tokensOf_binary (.Implies left right) left right TokenTypeImplies rfl
      (parsePrimary_Implies left right)
      (fun T pre rest hT => (ihl hn2.1 T pre rest hT).imp (fun f h fuel hfuel => (h fuel hfuel).2))
      (fun T pre rest hT => (ihr hn2.2 T pre rest hT).imp (fun f h fuel hfuel => (h fuel hfuel).2))
      T pre rest hT
    exact ⟨f, fun fuel hfuel => ⟨fun _ => (hf fuel hfuel).1, (hf fuel hfuel).2⟩⟩
  | Equivalent left right ihl ihr =>
    intro T pre rest hT
    have hn2 := noNestedNot_binary (show (noNestedNot left && noNestedNot right) = true from hn)
    obtain ⟨f, hf⟩ := parse_tokensOf_binary (.Equivalent left right) left right TokenTypeEquivalent rfl
      (parsePrimary_Equivalent left right)
      (fun T pre rest hT => (ihl hn2.1 T pre rest hT).imp (fun f h fuel hfuel => (h fuel hfuel).2))
      (fun T pre rest hT => (ihr hn2.2 T pre rest hT).imp (fun f h fuel hfuel => (h fuel hfuel).2))
      T pre rest hT
    exact ⟨f, fun fuel hfuel => ⟨fun _ => (hf fuel hfuel).1, (hf fuel hfuel).2⟩⟩

theorem peekIs_length (T : List Token) (ty : TokenType) : peekIs T T.length ty = false := by
  simp [peekIs]

/-- The tokens of a tree without a negation under a negation parse to the tree,
with the cursor at the end. -/
theorem parseExpression_tokensOf (t : Expr) (hn : noNestedNot t = true) :
    parseExpression (tokensOf t) = some (.ok (t, (tokensOf t).length)) := by
  obtain ⟨f, hf⟩ := parse_tokensOf t hn (tokensOf t) [] [] (by simp)
  have h := (hf (f + 1) (Nat.le_succ f)).2
  simp only [List.length_nil, Nat.zero_add] at h
  apply parseExpression_of_fuel (tokensOf t) (f + 5)
  simp [parseEquivalent, parseImplies, parseOr, parseAnd, parseAndLoop,
    parseOrLoop, parseImpliesLoop, parseEquivalentLoop, h, peekIs_length]

/-! ## Round trip of the rendering -/

/-- C3, for trees without a negation under a negation: when the input parses to
such a tree, lexing and parsing the rendering of the tree succeeds, returns the
same tree and consumes all tokens. -/
theorem roundtrip_without_nested_negation (s : String) (t : Expr) (p : Nat)
    (h : parseExpression (Lexer s) = some (.ok (t, p))) (hn : noNestedNot t = true) :
    parseExpression (Lexer t.String) = some (.ok (t, (Lexer t.String).length)) := by
  have hv : HasVarNames t := hasVarNames_of_parse s _ 0 t p h
  rw [Lexer_String t hv]
  exact parseExpression_tokensOf t hn

/-- Witness of `roundtrip_without_nested_negation`: the input `!(p→q1)|r`. -/
theorem roundtrip_without_nested_negation_witness :
    parseExpression (Lexer (Expr.Or (.Not (.Implies (.Var "p") (.Var "q1"))) (.Var "r")).String)
      = some (.ok (.Or (.Not (.Implies (.Var "p") (.Var "q1"))) (.Var "r"),
          (Lexer (Expr.Or (.Not (.Implies (.Var "p") (.Var "q1"))) (.Var "r")).String).length)) :=
  roundtrip_without_nested_negation "!(p→q1)|r"
    (.Or (.Not (.Implies (.Var "p") (.Var "q1"))) (.Var "r")) 8 (by decide) (by decide)

/-- C3 fails as stated: the input `!(!p)` parses to `Not{Not{Var p}}`, whose
rendering is `!!p`, and parsing the tokens of `!!p` ends in an error, because
`parseNot` reads the operand of `!` with `parsePrimary`. -/
theorem roundtrip_fails_on_nested_negation :
    parseExpression (Lexer "!(!p)") = some (.ok (.Not (.Not (.Var "p")), 5)) ∧
    (Expr.Not (.Not (.Var "p"))).String = "!!p" ∧
    parseExpression (Lexer (Expr.Not (.Not (.Var "p"))).String)
      = some (.error "unexpected token '' at position 1") := by
  decide

/-! ## The rendering as a row key -/

/-- C18: on trees whose variable names are non-empty ASCII alphanumeric strings
the rendering is injective, so two distinct subexpressions of such a tree (of
every parsed tree, in particular) have distinct row keys. -/
theorem String_injective_on_parser_trees (t1 t2 : Expr) (h1 : HasVarNames t1)
    (h2 : HasVarNames t2) :
    (t1.String = t2.String → t1 = t2) ∧
    (∀ s1 ∈ subexpressions t1, ∀ s2 ∈ subexpressions t1, s1 ≠ s2 → s1.String ≠ s2.String) ∧
    (∀ (s : String) (p : Nat), parseExpression (Lexer s) = some (.ok (t1, p)) →
      ∀ s1 ∈ subexpressions t1, ∀ s2 ∈ subexpressions t1, s1 ≠ s2 → s1.String ≠ s2.String) := by
  have key : ∀ s1 ∈ subexpressions t1, ∀ s2 ∈ subexpressions t1, s1 ≠ s2 →
      s1.String ≠ s2.String := by
    intro s1 hs1 s2 hs2 hne heq
    exact hne (String_injective s1 s2
      (fun x hx => h1 x (occurringVars_of_subexpression t1 s1 hs1 x hx))
      (fun x hx => h1 x (occurringVars_of_subexpression t1 s2 hs2 x hx)) heq)
  exact ⟨String_injective t1 t2 h1 h2, key, fun _ _ _ => key⟩

/-- Witness of `String_injective_on_parser_trees`: `(p & q1)` and `!p`. -/
theorem String_injective_on_parser_trees_witness :
    ((Expr.And (.Var "p") (.Var "q1")).String = (Expr.Not (.Var "p")).String →
      Expr.And (.Var "p") (.Var "q1") = Expr.Not (.Var "p")) ∧
    (∀ s1 ∈ subexpressions (.And (.Var "p") (.Var "q1")),
      ∀ s2 ∈ subexpressions (.And (.Var "p") (.Var "q1")), s1 ≠ s2 → s1.String ≠ s2.String) ∧
    (∀ (s : String) (p : Nat),
      parseExpression (Lexer s) = some (.ok (.And (.Var "p") (.Var "q1"), p)) →
      ∀ s1 ∈ subexpressions (.And (.Var "p") (.Var "q1")),
        ∀ s2 ∈ subexpressions (.And (.Var "p") (.Var "q1")), s1 ≠ s2 → s1.String ≠ s2.String) :=
  String_injective_on_parser_trees (.And (.Var "p") (.Var "q1")) (.Not (.Var "p"))
    (by decide) (by decide)

/-! ## Panics of the evaluator and of the collector -/

theorem Evaluate_error (e : Expr) (sigma : GoMap Bool) (msg : String)
    (h : Evaluate e sigma = .error msg) :
    ∃ x ∈ occurringVars e, sigma.get? x = none ∧ msg = undefinedVariable x := by
  induction e generalizing msg with
  | Var name =>
    cases hx : sigma.get? name with
    | some v => simp [Evaluate, hx] at h
    | none =>
      simp [Evaluate, hx] at h
      exact ⟨name, by simp [occurringVars], hx, by rw [← h]; rfl⟩
  | Not operand ih =>
    cases ho : Evaluate operand sigma with
    | ok b => simp [Evaluate, ho] at h
    | error m =>
      simp [Evaluate, ho] at h
      subst h
      exact ih _ ho
  | And left right ihl ihr =>
    cases hl : Evaluate left sigma with
    | error m =>
      simp [Evaluate, hl] at h
      subst h
      obtain ⟨x, hx, hn, hm⟩ := ihl _ hl
      exact ⟨x, by simp [occurringVars, hx], hn, hm⟩
    | ok a =>
      cases a
      · simp [Evaluate, hl] at h
      · simp [Evaluate, hl] at h
        obtain ⟨x, hx, hn, hm⟩ := ihr _ h
        exact ⟨x, by simp [occurringVars, hx], hn, hm⟩
  | Or left right ihl ihr =>
    cases hl : Evaluate left sigma with
    | error m =>
      simp [Evaluate, hl] at h
      subst h
      obtain ⟨x, hx, hn, hm⟩ := ihl _ hl
      exact ⟨x, by simp [occurringVars, hx], hn, hm⟩
    | ok a =>
      cases a
      · simp [Evaluate, hl] at h
        obtain ⟨x, hx, hn, hm⟩ := ihr _ h
        exact ⟨x, by simp [occurringVars, hx], hn, hm⟩
      · simp [Evaluate, hl] at h
  | Implies left right ihl ihr =>
    cases hl : Evaluate left sigma with
    | error m =>
      simp [Evaluate, hl] at h
      subst h
      obtain ⟨x, hx, hn, hm⟩ := ihl _ hl
      exact ⟨x, by simp [occurringVars, hx], hn, hm⟩
    | ok a =>
      cases a
      · simp [Evaluate, hl] at h
      · simp [Evaluate, hl] at h
        obtain ⟨x, hx, hn, hm⟩ := ihr _ h
        exact ⟨x, by simp [occurringVars, hx], hn, hm⟩
  | Equivalent left right ihl ihr =>
    cases hl : Evaluate left sigma with
    | error m =>
      simp [Evaluate, hl] at h
      subst h
      obtain ⟨x, hx, hn, hm⟩ := ihl _ hl
      exact ⟨x, by simp [occurringVars, hx], hn, hm⟩
    | ok a =>
      cases hr : Evaluate right sigma with
      | error m =>
        obtain ⟨x, hx, hn, hm⟩ := ihr _ hr
        cases a <;> simp [Evaluate, hl, hr] at h <;> subst h <;>
          exact ⟨x, by simp [occurringVars, hx], hn, hm⟩
      | ok b =>
        cases a <;> cases b <;> simp [Evaluate, hl, hr] at h

theorem collector_error (e : Expr) (sigma : GoMap Bool) (msg : String)
    (h : evaluateExpressionAndSubexpressions e sigma = .error msg) :
    ∃ x ∈ occurringVars e, sigma.get? x = none ∧ msg = undefinedVariable x := by
  induction e generalizing msg with
  | Var name =>
    rw [evaluateExpressionAndSubexpressions.eq_1] at h
    cases hE : Evaluate (.Var name) sigma with
    | error m =>
      simp [hE] at h
      subst h
      exact Evaluate_error _ _ _ hE
    | ok b => simp [hE] at h
  | Not operand ih =>
    rw [evaluateExpressionAndSubexpressions.eq_1] at h
    cases hE : Evaluate (.Not operand) sigma with
    | error m =>
      simp [hE] at h
      subst h
      exact Evaluate_error _ _ _ hE
    | ok b =>
      cases h1 : evaluateExpressionAndSubexpressions operand sigma with
      | error m =>
        simp [hE, h1] at h
        subst h
        exact ih _ h1
      | ok r1 => simp [hE, h1] at h
  | And left right ihl ihr =>
    rw [evaluateExpressionAndSubexpressions.eq_1] at h
    cases hE : Evaluate (.And left right) sigma with
    | error m =>
      simp [hE] at h
      subst h
      exact Evaluate_error _ _ _ hE
    | ok b =>
      cases h1 : evaluateExpressionAndSubexpressions left sigma with
      | error m =>
        simp [hE, h1] at h
        subst h
        obtain ⟨x, hx, hn, hm⟩ := ihl _ h1
        exact ⟨x, by simp [occurringVars, hx], hn, hm⟩
      | ok r1 =>
        cases h2 : evaluateExpressionAndSubexpressions right sigma with
        | error m =>
          simp [hE, h1, h2] at h
          subst h
          obtain ⟨x, hx, hn, hm⟩ := ihr _ h2
          exact ⟨x, by simp [occurringVars, hx], hn, hm⟩
        | ok r2 => simp [hE, h1, h2] at h
  | Or left right ihl ihr =>
    rw [evaluateExpressionAndSubexpressions.eq_1] at h
    cases hE : Evaluate (.Or left right) sigma with
    | error m =>
      simp [hE] at h
      subst h
      exact Evaluate_error _ _ _ hE
    | ok b =>
      cases h1 : evaluateExpressionAndSubexpressions left sigma with
      | error m =>
        simp [hE, h1] at h
        subst h
        obtain ⟨x, hx, hn, hm⟩ := ihl _ h1
        exact ⟨x, by simp [occurringVars, hx], hn, hm⟩
      | ok r1 =>
        cases h2 : evaluateExpressionAndSubexpressions right sigma with
        | error m =>
          simp [hE, h1, h2] at h
          subst h
          obtain ⟨x, hx, hn, hm⟩ := ihr _ h2
          exact ⟨x, by simp [occurringVars, hx], hn, hm⟩
        | ok r2 => simp [hE, h1, h2] at h
  | Implies left right ihl ihr =>
    rw [evaluateExpressionAndSubexpressions.eq_1] at h
    cases hE : Evaluate (.Implies left right) sigma with
    | error m =>
      simp [hE] at h
      subst h
      exact Evaluate_error _ _ _ hE
    | ok b =>
      cases h1 : evaluateExpressionAndSubexpressions left sigma with
      | error m =>
        simp [hE, h1] at h
        subst h
        obtain ⟨x, hx, hn, hm⟩ := ihl _ h1
        exact ⟨x, by simp [occurringVars, hx], hn, hm⟩
      | ok r1 =>
        cases h2 : evaluateExpressionAndSubexpressions right sigma with
        | error m =>
          simp [hE, h1, h2] at h
          subst h
          obtain ⟨x, hx, hn, hm⟩ := ihr _ h2
          exact ⟨x, by simp [occurringVars, hx], hn, hm⟩
        | ok r2 => simp [hE, h1, h2] at h
  | Equivalent left right ihl ihr =>
    rw [evaluateExpressionAndSubexpressions.eq_1] at h
    cases hE : Evaluate (.Equivalent left right) sigma with
    | error m =>
      simp [hE] at h
      subst h
      exact Evaluate_error _ _ _ hE
    | ok b =>
      cases h1 : evaluateExpressionAndSubexpressions left sigma with
      | error m =>
        simp [hE, h1] at h
        subst h
        obtain ⟨x, hx, hn, hm⟩ := ihl _ h1
        exact ⟨x, by simp [occurringVars, hx], hn, hm⟩
      | ok r1 =>
        cases h2 : evaluateExpressionAndSubexpressions right sigma with
        | error m =>
          simp [hE, h1, h2] at h
          subst h
          obtain ⟨x, hx, hn, hm⟩ := ihr _ h2
          exact ⟨x, by simp [occurringVars, hx], hn, hm⟩
        | ok r2 => simp [hE, h1, h2] at h

theorem definesAll_of_collector_ok (e : Expr) (sigma : GoMap Bool) (row : GoMap Int)
    (h : evaluateExpressionAndSubexpressions e sigma = .ok row) : DefinesAll sigma e := by
  induction e generalizing row with
  | Var name =>
    rw [evaluateExpressionAndSubexpressions.eq_1] at h
    intro x hx
    have hxn : x = name := by simpa [occurringVars] using hx
    subst hxn
    intro hnone
    simp [Evaluate, hnone] at h
  | Not operand ih =>
    rw [evaluateExpressionAndSubexpressions.eq_1] at h
    cases hE : Evaluate (.Not operand) sigma with
    | error m => simp [hE] at h
    | ok b =>
      cases h1 : evaluateExpressionAndSubexpressions operand sigma with
      | error m => simp [hE, h1] at h
      | ok r1 => exact ih r1 h1
  | And left right ihl ihr =>
    rw [evaluateExpressionAndSubexpressions.eq_1] at h
    cases hE : Evaluate (.And left right) sigma with
    | error m => simp [hE] at h
    | ok b =>
      cases h1 : evaluateExpressionAndSubexpressions left sigma with
      | error m => simp [hE, h1] at h
      | ok r1 =>
        cases h2 : evaluateExpressionAndSubexpressions right sigma with
        | error m => simp [hE, h1, h2] at h
        | ok r2 =>
          intro x hx
          rcases List.mem_append.mp (by simpa [occurringVars] using hx) with hm | hm
          · exact ihl r1 h1 x hm
          · exact ihr r2 h2 x hm
  | Or left right ihl ihr =>
    rw [evaluateExpressionAndSubexpressions.eq_1] at h
    cases hE : Evaluate (.Or left right) sigma with
    | error m => simp [hE] at h
    | ok b =>
      cases h1 : evaluateExpressionAndSubexpressions left sigma with
      | error m => simp [hE, h1] at h
      | ok r1 =>
        cases h2 : evaluateExpressionAndSubexpressions right sigma with
        | error m => simp [hE, h1, h2] at h
        | ok r2 =>
          intro x hx
          rcases List.mem_append.mp (by simpa [occurringVars] using hx) with hm | hm
          · exact ihl r1 h1 x hm
          · exact ihr r2 h2 x hm
  | Implies left right ihl ihr =>
    rw [evaluateExpressionAndSubexpressions.eq_1] at h
    cases hE : Evaluate (.Implies left right) sigma with
    | error m => simp [hE] at h
    | ok b =>
      cases h1 : evaluateExpressionAndSubexpressions left sigma with
      | error m => simp [hE, h1] at h
      | ok r1 =>
        cases h2 : evaluateExpressionAndSubexpressions right sigma with
        | error m => simp [hE, h1, h2] at h
        | ok r2 =>
          intro x hx
          rcases List.mem_append.mp (by simpa [occurringVars] using hx) with hm | hm
          · exact ihl r1 h1 x hm
          · exact ihr r2 h2 x hm
  | Equivalent left right ihl ihr =>
    rw [evaluateExpressionAndSubexpressions.eq_1] at h
    cases hE : Evaluate (.Equivalent left right) sigma with
    | error m => simp [hE] at h
    | ok b =>
      cases h1 : evaluateExpressionAndSubexpressions left sigma with
      | error m => simp [hE, h1] at h
      | ok r1 =>
        cases h2 : evaluateExpressionAndSubexpressions right sigma with
        | error m => simp [hE, h1, h2] at h
        | ok r2 =>
          intro x hx
          rcases List.mem_append.mp (by simpa [occurringVars] using hx) with hm | hm
          · exact ihl r1 h1 x hm
          · exact ihr r2 h2 x hm

/-- C20: the collector panics exactly when a variable occurring anywhere in the
tree is absent from the assignment, and the panic is the undefined-variable
panic of such a variable; this also where `Evaluate` short-circuits: for
`And{Var a, Var b}` with a = false and b absent, `Evaluate` returns false and
the collector panics. -/
theorem collector_panics_iff_variable_absent (e : Expr) (sigma : GoMap Bool) :
    ((∃ msg, evaluateExpressionAndSubexpressions e sigma = .error msg) ↔
      ∃ x ∈ occurringVars e, sigma.get? x = none) ∧
    (∀ msg, evaluateExpressionAndSubexpressions e sigma = .error msg →
      ∃ x ∈ occurringVars e, sigma.get? x = none ∧ msg = "Variable " ++ x ++ " not defined") ∧
    Evaluate (.And (.Var "a") (.Var "b")) [("a", false)] = .ok false ∧
    evaluateExpressionAndSubexpressions (.And (.Var "a") (.Var "b")) [("a", false)]
      = .error "Variable b not defined" := by
  refine ⟨⟨?_, ?_⟩, fun msg h => collector_error e sigma msg h, by decide, by decide⟩
  · rintro ⟨msg, h⟩
    obtain ⟨x, hx, hn, _⟩ := collector_error e sigma msg h
    exact ⟨x, hx, hn⟩
  · rintro ⟨x, hx, hn⟩
    cases h : evaluateExpressionAndSubexpressions e sigma with
    | error msg => exact ⟨msg, rfl⟩
    | ok row => exact absurd hn (definesAll_of_collector_ok e sigma row h x hx)

/-! ## Precedence and associativity on small inputs -/

theorem lex_name (name : String) (hn : IsVarName name) (ts : List Token) (rest : List Char)
    (hrest : CommitsFirst rest) :
    commitVar ((name.data ++ rest).foldl lexStep ⟨ts, ""⟩)
      = commitVar (rest.foldl lexStep ⟨ts ++ [⟨TokenTypeVar, name⟩], ""⟩) := by
  rw [List.foldl_append, foldl_lexStep_varChars _ hn.2]
  have e : ("" : String) ++ String.mk name.data = name := by simp [String.ext_iff]
  simp only [e]
  exact hrest ts name hn.1

/-- Three names separated by two operator characters lex to five tokens. -/
theorem Lexer_three_names (x y z : String) (o1 o2 : Char) (t1 t2 : TokenType)
    (hx : IsVarName x) (hy : IsVarName y) (hz : IsVarName z)
    (h1 : o1 = '&' ∨ o1 = '|' ∨ o1 = '!' ∨ o1 = '→' ∨ o1 = '⇔' ∨ o1 = '(' ∨ o1 = ')')
    (h2 : o2 = '&' ∨ o2 = '|' ∨ o2 = '!' ∨ o2 = '→' ∨ o2 = '⇔' ∨ o2 = '(' ∨ o2 = ')')
    (s1 : ∀ us : List Token, lexStep ⟨us, ""⟩ o1 = ⟨us ++ [⟨t1, ""⟩], ""⟩)
    (s2 : ∀ us : List Token, lexStep ⟨us, ""⟩ o2 = ⟨us ++ [⟨t2, ""⟩], ""⟩) :
    Lexer (x ++ String.singleton o1 ++ y ++ String.singleton o2 ++ z)
      = [⟨TokenTypeVar, x⟩, ⟨t1, ""⟩, ⟨TokenTypeVar, y⟩, ⟨t2, ""⟩, ⟨TokenTypeVar, z⟩] := by
  have hs : ∀ c : Char, (String.singleton c).data = [c] := fun _ => rfl
  have hd : (x ++ String.singleton o1 ++ y ++ String.singleton o2 ++ z).data
      = x.data ++ (o1 :: (y.data ++ (o2 :: (z.data ++ [])))) := by
    simp [String.data_append, hs]
  unfold Lexer
  rw [hd, lex_name x hx _ _ (commitsFirst_op o1 _ h1), List.foldl_cons, s1,
    lex_name y hy _ _ (commitsFirst_op o2 _ h2), List.foldl_cons, s2,
    lex_name z hz _ _ commitsFirst_nil]
  rfl

/-- C14: NOT binds tighter than AND and AND tighter than OR: for non-empty ASCII
alphanumeric names the tokens of `x|y&z` parse to `Or{Var x, And{Var y, Var z}}`
and the tokens of `!x&y` to `And{Not{Var x}, Var y}`; the tree of `p|q&r` is
true under the assignment of index 6 in the order p, q, r, which is p = false,
q = true, r = true. -/
theorem precedence_not_and_or (x y z : String) (hx : IsVarName x) (hy : IsVarName y)
    (hz : IsVarName z) :
    parseExpression (Lexer (x ++ "|" ++ y ++ "&" ++ z))
      = some (.ok (.Or (.Var x) (.And (.Var y) (.Var z)), 5)) ∧
    parseExpression (Lexer ("!" ++ x ++ "&" ++ y))
      = some (.ok (.And (.Not (.Var x)) (.Var y), 4)) ∧
    parseExpression (Lexer "p|q&r")
      = some (.ok (.Or (.Var "p") (.And (.Var "q") (.Var "r")), 5)) ∧
    combinationOf ["p", "q", "r"] 6 = [("p", false), ("q", true), ("r", true)] ∧
    Evaluate (.Or (.Var "p") (.And (.Var "q") (.Var "r"))) (combinationOf ["p", "q", "r"] 6)
      = .ok true := by
  refine ⟨?_, ?_, by decide, by decide, by decide⟩
  · have hl := Lexer_three_names x y z '|' '&' TokenTypeOr TokenTypeAnd hx hy hz
      (by simp) (by simp) (fun us => (lexStep_op_empty us).2.1)
      (fun us => (lexStep_op_empty us).1)
    have e : x ++ "|" ++ y ++ "&" ++ z
        = x ++ String.singleton '|' ++ y ++ String.singleton '&' ++ z := rfl
    rw [e, hl]
    rfl
  · have hd : ("!" ++ x ++ "&" ++ y).data = '!' :: (x.data ++ ('&' :: (y.data ++ []))) := by
      simp [String.data_append]
    have hl : Lexer ("!" ++ x ++ "&" ++ y)
        = [⟨TokenTypeNot, ""⟩, ⟨TokenTypeVar, x⟩, ⟨TokenTypeAnd, ""⟩, ⟨TokenTypeVar, y⟩] := by
      unfold Lexer
      rw [hd, List.foldl_cons, (lexStep_op_empty []).2.2.1,
        lex_name x hx _ _ (commitsFirst_op '&' _ (by simp)), List.foldl_cons,
        (lexStep_op_empty _).1, lex_name y hy _ _ commitsFirst_nil]
      rfl
    rw [hl]
    rfl

/-- Witness of `precedence_not_and_or`: the names `a1`, `b` and `c2`. -/
theorem precedence_not_and_or_witness :
    parseExpression (Lexer ("a1" ++ "|" ++ "b" ++ "&" ++ "c2"))
      = some (.ok (.Or (.Var "a1") (.And (.Var "b") (.Var "c2")), 5)) ∧
    parseExpression (Lexer ("!" ++ "a1" ++ "&" ++ "b"))
      = some (.ok (.And (.Not (.Var "a1")) (.Var "b"), 4)) ∧
    parseExpression (Lexer "p|q&r")
      = some (.ok (.Or (.Var "p") (.And (.Var "q") (.Var "r")), 5)) ∧
    combinationOf ["p", "q", "r"] 6 = [("p", false), ("q", true), ("r", true)] ∧
    Evaluate (.Or (.Var "p") (.And (.Var "q") (.Var "r"))) (combinationOf ["p", "q", "r"] 6)
      = .ok true :=
  precedence_not_and_or "a1" "b" "c2" (by decide) (by decide) (by decide)

theorem parseImplies_fuel_mono (tokens : List Token) (pos : Nat)
    (r : Except String (Expr × Nat)) (fuel fuel2 : Nat) (hle : fuel ≤ fuel2)
    (h : parseImplies fuel tokens pos = some r) :
    parseImplies fuel2 tokens pos = some r := by
  induction hle with
  | refl => exact h
  | step _ ih => exact (fuelMono tokens _).2.2.2.2.2.2.1 _ _ ih

theorem parseImpliesLoop_fuel_mono (tokens : List Token) (e0 : Expr) (pos : Nat)
    (r : Except String (Expr × Nat)) (fuel fuel2 : Nat) (hle : fuel ≤ fuel2)
    (h : parseImpliesLoop fuel tokens e0 pos = some r) :
    parseImpliesLoop fuel2 tokens e0 pos = some r := by
  induction hle with
  | refl => exact h
  | step _ ih => exact (fuelMono tokens _).2.2.2.2.2.2.2.1 _ _ _ ih

/-- Behind a successful `parseImplies`, and behind its loop, the next token is not
`→`. -/
theorem no_implies_behind (tokens : List Token) : ∀ fuel,
    (∀ pos e p, parseImplies fuel tokens pos = some (.ok (e, p)) →
      peekIs tokens p TokenTypeImplies = false) ∧
    (∀ e0 pos e p, parseImpliesLoop fuel tokens e0 pos = some (.ok (e, p)) →
      peekIs tokens p TokenTypeImplies = false) := by
  intro fuel
  induction fuel with
  | zero => exact ⟨fun _ _ _ h => by simp [parseImplies] at h,
      fun _ _ _ _ h => by simp [parseImpliesLoop] at h⟩
  | succ fuel ih =>
    obtain ⟨iI, iL⟩ := ih
    constructor
    · intro pos e p h
      rw [parseImplies] at h
      cases hE : parseOr fuel tokens pos with
      | none => simp [hE] at h
      | some res =>
        rw [hE] at h
        rcases res with msg | ⟨e1, p1⟩
        · simp at h
        · exact iL _ _ _ _ h
    · intro e0 pos e p h
      rw [parseImpliesLoop] at h
      by_cases hc : peekIs tokens pos TokenTypeImplies = true
      · simp only [hc, if_true] at h
        cases hE : parseImplies fuel tokens (pos + 1) with
        | none => simp [hE] at h
        | some res =>
          rw [hE] at h
          rcases res with msg | ⟨e1, p1⟩
          · simp at h
          · exact iL _ _ _ _ h
      · simp [hc] at h
        rw [← h.2]
        simpa using hc

/-- The loop of `parseImplies` wraps at most once: it returns the tree it was
entered with, or that tree and the result of one recursive `parseImplies`. -/
theorem parseImpliesLoop_once (tokens : List Token) (fuel : Nat) (e0 : Expr) (pos : Nat)
    (e : Expr) (p : Nat) (h : parseImpliesLoop fuel tokens e0 pos = some (.ok (e, p))) :
    (peekIs tokens pos TokenTypeImplies = false ∧ e = e0 ∧ p = pos) ∨
    (peekIs tokens pos TokenTypeImplies = true ∧
      ∃ f r, parseImplies f tokens (pos + 1) = some (.ok (r, p)) ∧ e = .Implies e0 r) := by
  cases fuel with
  | zero => simp [parseImpliesLoop] at h
  | succ fuel =>
    rw [parseImpliesLoop] at h
    by_cases hc : peekIs tokens pos TokenTypeImplies = true
    · right
      simp only [hc, if_true] at h
      cases hE : parseImplies fuel tokens (pos + 1) with
      | none => simp [hE] at h
      | some res =>
        rw [hE] at h
        rcases res with msg | ⟨r, p1⟩
        · simp at h
        · have hstop := (no_implies_behind tokens fuel).1 _ _ _ hE
          cases fuel with
          | zero => simp [parseImplies] at hE
          | succ f2 =>
            simp only [] at h
            rw [parseImpliesLoop] at h
            simp [hstop] at h
            exact ⟨hc, f2 + 1, r, by rw [hE, ← h.2], h.1.symm⟩
    · left
      simp [hc] at h
      exact ⟨by simpa using hc, h.1.symm, h.2.symm⟩

/-- C13: implication is right-associative: for names x, y, z the tokens of
`x→y→z` parse, by `parseImplies` and by `parseEquivalent`, to
`Implies{Var x, Implies{Var y, Var z}}`; and the loop of `parseImplies` wraps at
most once per call, because behind the recursive call on the right operand the
next token is never `→`. -/
theorem implies_right_associative (x y z : String) (hx : IsVarName x) (hy : IsVarName y)
    (hz : IsVarName z) :
    Lexer (x ++ "→" ++ y ++ "→" ++ z)
      = [⟨TokenTypeVar, x⟩, ⟨TokenTypeImplies, ""⟩, ⟨TokenTypeVar, y⟩,
          ⟨TokenTypeImplies, ""⟩, ⟨TokenTypeVar, z⟩] ∧
    parseImplies (parseFuel (Lexer (x ++ "→" ++ y ++ "→" ++ z)))
        (Lexer (x ++ "→" ++ y ++ "→" ++ z)) 0
      = some (.ok (.Implies (.Var x) (.Implies (.Var y) (.Var z)), 5)) ∧
    parseExpression (Lexer (x ++ "→" ++ y ++ "→" ++ z))
      = some (.ok (.Implies (.Var x) (.Implies (.Var y) (.Var z)), 5)) ∧
    (∀ (tokens : List Token) (fuel pos : Nat) (e : Expr) (p : Nat),
      parseImplies fuel tokens pos = some (.ok (e, p)) →
      peekIs tokens p TokenTypeImplies = false) ∧
    (∀ (tokens : List Token) (fuel : Nat) (e0 : Expr) (pos : Nat) (e : Expr) (p : Nat),
      parseImpliesLoop fuel tokens e0 pos = some (.ok (e, p)) →
      (peekIs tokens pos TokenTypeImplies = false ∧ e = e0 ∧ p = pos) ∨
      (peekIs tokens pos TokenTypeImplies = true ∧
        ∃ f r, parseImplies f tokens (pos + 1) = some (.ok (r, p)) ∧ e = .Implies e0 r)) := by
  have hl := Lexer_three_names x y z '→' '→' TokenTypeImplies TokenTypeImplies hx hy hz
    (by simp) (by simp) (fun us => (lexStep_op_empty us).2.2.2.1)
    (fun us => (lexStep_op_empty us).2.2.2.1)
  have e : x ++ "→" ++ y ++ "→" ++ z
      = x ++ String.singleton '→' ++ y ++ String.singleton '→' ++ z := rfl
  rw [e, hl]
  exact ⟨rfl, rfl, rfl, fun tokens fuel pos e p h => (no_implies_behind tokens fuel).1 pos e p h,
    fun tokens fuel e0 pos e p h => parseImpliesLoop_once tokens fuel e0 pos e p h⟩

/-- Witness of `implies_right_associative`: the names `a`, `b2` and `c`. -/
theorem implies_right_associative_witness :
    Lexer ("a" ++ "→" ++ "b2" ++ "→" ++ "c")
      = [⟨TokenTypeVar, "a"⟩, ⟨TokenTypeImplies, ""⟩, ⟨TokenTypeVar, "b2"⟩,
          ⟨TokenTypeImplies, ""⟩, ⟨TokenTypeVar, "c"⟩] ∧
    parseImplies (parseFuel (Lexer ("a" ++ "→" ++ "b2" ++ "→" ++ "c")))
        (Lexer ("a" ++ "→" ++ "b2" ++ "→" ++ "c")) 0
      = some (.ok (.Implies (.Var "a") (.Implies (.Var "b2") (.Var "c")), 5)) ∧
    parseExpression (Lexer ("a" ++ "→" ++ "b2" ++ "→" ++ "c"))
      = some (.ok (.Implies (.Var "a") (.Implies (.Var "b2") (.Var "c")), 5)) ∧
    (∀ (tokens : List Token) (fuel pos : Nat) (e : Expr) (p : Nat),
      parseImplies fuel tokens pos = some (.ok (e, p)) →
      peekIs tokens p TokenTypeImplies = false) ∧
    (∀ (tokens : List Token) (fuel : Nat) (e0 : Expr) (pos : Nat) (e : Expr) (p : Nat),
      parseImpliesLoop fuel tokens e0 pos = some (.ok (e, p)) →
      (peekIs tokens pos TokenTypeImplies = false ∧ e = e0 ∧ p = pos) ∨
      (peekIs tokens pos TokenTypeImplies = true ∧
        ∃ f r, parseImplies f tokens (pos + 1) = some (.ok (r, p)) ∧ e = .Implies e0 r)) :=
  implies_right_associative "a" "b2" "c" (by decide) (by decide) (by decide)

theorem parseEquivalentLoop_chain (tokens : List Token) (es : List Expr) :
    ∀ (e0 : Expr) (pos q : Nat), EquivalentChain tokens pos es q →
      peekIs tokens q TokenTypeEquivalent = false →
      ∃ f, ∀ fuel, f ≤ fuel →
        parseEquivalentLoop fuel tokens e0 pos
          = some (.ok (es.foldl Expr.Equivalent e0, q)) := by
  induction es with
  | nil =>
    intro e0 pos q hch hq
    have hqp : q = pos := hch
    subst hqp
    refine ⟨1, fun fuel hf => ?_⟩
    obtain ⟨m, rfl⟩ : ∃ m, fuel = m + 1 := ⟨fuel - 1, by omega⟩
    rw [parseEquivalentLoop]
    simp [hq]
  | cons e es ih =>
    intro e0 pos q hch hq
    obtain ⟨hpeek, p1, ⟨f1, h1⟩, hrest⟩ := hch
    obtain ⟨f2, h2⟩ := ih (.Equivalent e0 e) p1 q hrest hq
    refine ⟨f1 + f2 + 1, fun fuel hf => ?_⟩
    obtain ⟨m, rfl⟩ : ∃ m, fuel = m + 1 := ⟨fuel - 1, by omega⟩
    rw [parseEquivalentLoop]
    simp only [hpeek, if_true, parseImplies_fuel_mono tokens _ _ f1 m (by omega) h1]
    exact h2 m (by omega)

/-- A chain of operands parsed by `parseImplies` and separated by `⇔` tokens is
folded from the left by `parseEquivalent`. -/
theorem parseEquivalent_chain (tokens : List Token) (e1 : Expr) (es : List Expr)
    (pos p1 q : Nat) (h1 : ∃ fuel, parseImplies fuel tokens pos = some (.ok (e1, p1)))
    (hch : EquivalentChain tokens p1 es q)
    (hq : peekIs tokens q TokenTypeEquivalent = false) :
    ∃ fuel, parseEquivalent fuel tokens pos = some (.ok (es.foldl Expr.Equivalent e1, q)) := by
  obtain ⟨f1, h1⟩ := h1
  obtain ⟨f2, h2⟩ := parseEquivalentLoop_chain tokens es e1 p1 q hch hq
  refine ⟨f1 + f2 + 1, ?_⟩
  rw [parseEquivalent]
  simp only [parseImplies_fuel_mono tokens _ _ f1 (f1 + f2) (by omega) h1]
  exact h2 _ (by omega)

/-- C12: the biconditional is left-associative: for names x, y, z the tokens of
`x⇔y⇔z` parse to `Equivalent{Equivalent{Var x, Var y}, Var z}`; and in general,
when operands e1, e2, ..., ek are parsed by `parseImplies` one after another
with a `⇔` token between them and no `⇔` behind the last, `parseEquivalent`
returns them folded from the left, as `parseExpression` does when the chain
starts at position 0. -/
theorem equivalent_left_associative (x y z : String) (hx : IsVarName x) (hy : IsVarName y)
    (hz : IsVarName z) :
    Lexer (x ++ "⇔" ++ y ++ "⇔" ++ z)
      = [⟨TokenTypeVar, x⟩, ⟨TokenTypeEquivalent, ""⟩, ⟨TokenTypeVar, y⟩,
          ⟨TokenTypeEquivalent, ""⟩, ⟨TokenTypeVar, z⟩] ∧
    parseExpression (Lexer (x ++ "⇔" ++ y ++ "⇔" ++ z))
      = some (.ok (.Equivalent (.Equivalent (.Var x) (.Var y)) (.Var z), 5)) ∧
    (∀ (tokens : List Token) (e1 : Expr) (es : List Expr) (pos p1 q : Nat),
      (∃ fuel, parseImplies fuel tokens pos = some (.ok (e1, p1))) →
      EquivalentChain tokens p1 es q → peekIs tokens q TokenTypeEquivalent = false →
      (∃ fuel, parseEquivalent fuel tokens pos
        = some (.ok (es.foldl Expr.Equivalent e1, q))) ∧
      (pos = 0 → parseExpression tokens = some (.ok (es.foldl Expr.Equivalent e1, q)))) := by
  have hl := Lexer_three_names x y z '⇔' '⇔' TokenTypeEquivalent TokenTypeEquivalent hx hy hz
    (by simp) (by simp) (fun us => (lexStep_op_empty us).2.2.2.2.1)
    (fun us => (lexStep_op_empty us).2.2.2.2.1)
  have e : x ++ "⇔" ++ y ++ "⇔" ++ z
      = x ++ String.singleton '⇔' ++ y ++ String.singleton '⇔' ++ z := rfl
  rw [e, hl]
  refine ⟨rfl, rfl, ?_⟩
  intro tokens e1 es pos p1 q h1 hch hq
  obtain ⟨fuel, hf⟩ := parseEquivalent_chain tokens e1 es pos p1 q h1 hch hq
  refine ⟨⟨fuel, hf⟩, ?_⟩
  intro hp
  subst hp
  exact parseExpression_of_fuel tokens fuel _ hf

/-- Witness of `equivalent_left_associative`: the names `a`, `b2` and `c`. -/
theorem equivalent_left_associative_witness :
    Lexer ("a" ++ "⇔" ++ "b2" ++ "⇔" ++ "c")
      = [⟨TokenTypeVar, "a"⟩, ⟨TokenTypeEquivalent, ""⟩, ⟨TokenTypeVar, "b2"⟩,
          ⟨TokenTypeEquivalent, ""⟩, ⟨TokenTypeVar, "c"⟩] ∧
    parseExpression (Lexer ("a" ++ "⇔" ++ "b2" ++ "⇔" ++ "c"))
      = some (.ok (.Equivalent (.Equivalent (.Var "a") (.Var "b2")) (.Var "c"), 5)) ∧
    (∀ (tokens : List Token) (e1 : Expr) (es : List Expr) (pos p1 q : Nat),
      (∃ fuel, parseImplies fuel tokens pos = some (.ok (e1, p1))) →
      EquivalentChain tokens p1 es q → peekIs tokens q TokenTypeEquivalent = false →
      (∃ fuel, parseEquivalent fuel tokens pos
        = some (.ok (es.foldl Expr.Equivalent e1, q))) ∧
      (pos = 0 → parseExpression tokens = some (.ok (es.foldl Expr.Equivalent e1, q)))) :=
  equivalent_left_associative "a" "b2" "c" (by decide) (by decide) (by decide)

/-! ## Tokens behind a complete expression -/

theorem peekIs_append_of_lt (ts r : List Token) (pos : Nat) (ty : TokenType)
    (h : pos < ts.length) : peekIs (ts ++ r) pos ty = peekIs ts pos ty := by
  simp [peekIs, List.getElem?_append_left h]

theorem peekIs_append_false (ts r : List Token) (pos : Nat) (ty : TokenType)
    (hpos : pos ≤ ts.length) (hr : peekIs (ts ++ r) ts.length ty = false)
    (h : peekIs ts pos ty = false) : peekIs (ts ++ r) pos ty = false := by
  rcases Nat.lt_or_ge pos ts.length with hlt | hge
  · rw [peekIs_append_of_lt ts r pos ty hlt]
    exact h
  · have : pos = ts.length := by omega
    rw [this]
    exact hr

theorem extends_all (ts r : List Token)
    (hA : peekIs (ts ++ r) ts.length TokenTypeAnd = false)
    (hO : peekIs (ts ++ r) ts.length TokenTypeOr = false)
    (hI : peekIs (ts ++ r) ts.length TokenTypeImplies = false)
    (hE : peekIs (ts ++ r) ts.length TokenTypeEquivalent = false) :
    ∀ fuel, Extends ts r fuel := by
  intro fuel
  induction fuel with
  | zero =>
    refine ⟨?_, ?_, ?_, ?_, ?_, ?_, ?_, ?_, ?_, ?_⟩ <;> intros <;> rename_i h <;>
      simp [parsePrimary, parseNot, parseAnd, parseAndLoop, parseOr, parseOrLoop, parseImplies,
        parseImpliesLoop, parseEquivalent, parseEquivalentLoop] at h
  | succ fuel ih =>
    obtain ⟨iP, iN, iA, iAL, iO, iOL, iI, iIL, iE, iEL⟩ := ih
    obtain ⟨aP, aN, aA, aAL, aO, aOL, aI, aIL, aE, aEL⟩ := advances ts fuel
    refine ⟨?_, ?_, ?_, ?_, ?_, ?_, ?_, ?_, ?_, ?_⟩
    · intro pos e p h
      rw [parsePrimary] at h ⊢
      cases ht : ts[pos]? with
      | none => simp [ht] at h
      | some token =>
        have hlt : pos < ts.length := (List.getElem?_eq_some_iff.mp ht).1
        rw [List.getElem?_append_left hlt]
        simp only [ht] at h ⊢
        cases hty : token.Typ <;> simp only [hty] at h ⊢ <;> try (simp at h; done)
        · cases hq : parseEquivalent fuel ts (pos + 1) with
          | none => simp [hq] at h
          | some res =>
            rw [hq] at h
            rcases res with msg | ⟨e1, p1⟩
            · simp at h
            · rw [iE _ _ _ hq]
              by_cases hc : peekIs ts p1 TokenTypeRparen = true
              · have hp1 := peekIs_lt hc
                simp only [peekIs_append_of_lt ts r p1 _ hp1]
                exact h
              · simp [hc] at h
        · exact h
    · intro pos e p h
      rw [parseNot] at h ⊢
      by_cases hc : peekIs ts pos TokenTypeNot = true
      · have hp := peekIs_lt hc
        rw [peekIs_append_of_lt ts r pos _ hp]
        simp only [hc, if_true] at h ⊢
        cases hq : parsePrimary fuel ts (pos + 1) with
        | none => simp [hq] at h
        | some res =>
          rw [hq] at h
          rcases res with msg | ⟨e1, p1⟩
          · simp at h
          · rw [iP _ _ _ hq]
            exact h
      · simp only [hc] at h
        have hp := (aP _ _ _ h).1
        have hlen := (aP _ _ _ h).2
        rw [peekIs_append_of_lt ts r pos _ (by omega)]
        simp only [hc]
        exact iP _ _ _ h
    · intro pos e p h
      rw [parseAnd] at h ⊢
      cases hq : parseNot fuel ts pos with
      | none => simp [hq] at h
      | some res =>
        rw [hq] at h
        rcases res with msg | ⟨e1, p1⟩
        · simp at h
        · rw [iN _ _ _ hq]
          exact iAL _ _ _ _ (aN _ _ _ hq).2 h
    · intro e0 pos e p hpos h
      rw [parseAndLoop] at h ⊢
      by_cases hc : peekIs ts pos TokenTypeAnd = true
      · have hp := peekIs_lt hc
        rw [peekIs_append_of_lt ts r pos _ hp]
        simp only [hc, if_true] at h ⊢
        cases hq : parseNot fuel ts (pos + 1) with
        | none => simp [hq] at h
        | some res =>
          rw [hq] at h
          rcases res with msg | ⟨e1, p1⟩
          · simp at h
          · rw [iN _ _ _ hq]
            exact iAL _ _ _ _ (aN _ _ _ hq).2 h
      · have hf : peekIs ts pos TokenTypeAnd = false := by simpa using hc
        rw [peekIs_append_false ts r pos _ hpos hA hf]
        simp only [hf] at h
        exact h
    · intro pos e p h
      rw [parseOr] at h ⊢
      cases hq : parseAnd fuel ts pos with
      | none => simp [hq] at h
      | some res =>
        rw [hq] at h
        rcases res with msg | ⟨e1, p1⟩
        · simp at h
        · rw [iA _ _ _ hq]
          exact iOL _ _ _ _ (aA _ _ _ hq).2 h
    · intro e0 pos e p hpos h
      rw [parseOrLoop] at h ⊢
      by_cases hc : peekIs ts pos TokenTypeOr = true
      · have hp := peekIs_lt hc
        rw [peekIs_append_of_lt ts r pos _ hp]
        simp only [hc, if_true] at h ⊢
        cases hq : parseAnd fuel ts (pos + 1) with
        | none => simp [hq] at h
        | some res =>
          rw [hq] at h
          rcases res with msg | ⟨e1, p1⟩
          · simp at h
          · rw [iA _ _ _ hq]
            exact iOL _ _ _ _ (aA _ _ _ hq).2 h
      · have hf : peekIs ts pos TokenTypeOr = false := by simpa using hc
        rw [peekIs_append_false ts r pos _ hpos hO hf]
        simp only [hf] at h
        exact h
    · intro pos e p h
      rw [parseImplies] at h ⊢
      cases hq : parseOr fuel ts pos with
      | none => simp [hq] at h
      | some res =>
        rw [hq] at h
        rcases res with msg | ⟨e1, p1⟩
        · simp at h
        · rw [iO _ _ _ hq]
          exact iIL _ _ _ _ (aO _ _ _ hq).2 h
    · intro e0 pos e p hpos h
      rw [parseImpliesLoop] at h ⊢
      by_cases hc : peekIs ts pos TokenTypeImplies = true
      · have hp := peekIs_lt hc
        rw [peekIs_append_of_lt ts r pos _ hp]
        simp only [hc, if_true] at h ⊢
        cases hq : parseImplies fuel ts (pos + 1) with
        | none => simp [hq] at h
        | some res =>
          rw [hq] at h
          rcases res with msg | ⟨e1, p1⟩
          · simp at h
          · rw [iI _ _ _ hq]
            exact iIL _ _ _ _ (aI _ _ _ hq).2 h
      · have hf : peekIs ts pos TokenTypeImplies = false := by simpa using hc
        rw [peekIs_append_false ts r pos _ hpos hI hf]
        simp only [hf] at h
        exact h
    · intro pos e p h
      rw [parseEquivalent] at h ⊢
      cases hq : parseImplies fuel ts pos with
      | none => simp [hq] at h
      | some res =>
        rw [hq] at h
        rcases res with msg | ⟨e1, p1⟩
        · simp at h
        · rw [iI _ _ _ hq]
          exact iEL _ _ _ _ (aI _ _ _ hq).2 h
    · intro e0 pos e p hpos h
      rw [parseEquivalentLoop] at h ⊢
      by_cases hc : peekIs ts pos TokenTypeEquivalent = true
      · have hp := peekIs_lt hc
        rw [peekIs_append_of_lt ts r pos _ hp]
        simp only [hc, if_true] at h ⊢
        cases hq : parseImplies fuel ts (pos + 1) with
        | none => simp [hq] at h
        | some res =>
          rw [hq] at h
          rcases res with msg | ⟨e1, p1⟩
          · simp at h
          · rw [iI _ _ _ hq]
            exact iEL _ _ _ _ (aI _ _ _ hq).2 h
      · have hf : peekIs ts pos TokenTypeEquivalent = false := by simpa using hc
        rw [peekIs_append_false ts r pos _ hpos hE hf]
        simp only [hf] at h
        exact h

/-- C17: the parser does not require the whole input to be consumed: when the
parse of `ts` from position 0 returns the tree `t` with the cursor at the end
of `ts`, and `r` starts with `)`, `(`, `!` or a VARIABLE token, the parse of
`ts ++ r` returns the same tree `t` with the cursor at `len(ts)`, short of the
end; so the tokens of `p)` and of `p(q)` parse to `Var p` without an error. -/
theorem parse_leaves_trailing_tokens (ts rest : List Token) (tok : Token) (t : Expr)
    (h : parseExpression ts = some (.ok (t, ts.length)))
    (htok : tok.Typ = TokenTypeRparen ∨ tok.Typ = TokenTypeLparen ∨ tok.Typ = TokenTypeNot ∨
      tok.Typ = TokenTypeVar) :
    parseExpression (ts ++ tok :: rest) = some (.ok (t, ts.length)) ∧
    ts.length < (ts ++ tok :: rest).length ∧
    parseExpression (Lexer "p)") = some (.ok (.Var "p", 1)) ∧
    parseExpression (Lexer "p(q)") = some (.ok (.Var "p", 1)) := by
  have hget : (ts ++ tok :: rest)[ts.length]? = some tok :=
    getElem?_append_cons ts tok rest _ rfl
  have hpeek : ∀ ty, tok.Typ ≠ ty → peekIs (ts ++ tok :: rest) ts.length ty = false := by
    intro ty hne
    simp [peekIs, hget, hne]
  have hext := extends_all ts (tok :: rest)
    (hpeek _ (by rcases htok with h | h | h | h <;> simp [h]))
    (hpeek _ (by rcases htok with h | h | h | h <;> simp [h]))
    (hpeek _ (by rcases htok with h | h | h | h <;> simp [h]))
    (hpeek _ (by rcases htok with h | h | h | h <;> simp [h])) (parseFuel ts)
  refine ⟨?_, by simp, by decide, by decide⟩
  exact parseExpression_of_fuel _ (parseFuel ts) _ (hext.2.2.2.2.2.2.2.2.1 0 t ts.length h)

/-- Witness of `parse_leaves_trailing_tokens`: the tokens of `p|q` followed by
those of `(r)`. -/
theorem parse_leaves_trailing_tokens_witness :
    parseExpression (Lexer "p|q" ++ ⟨TokenTypeLparen, ""⟩ :: Lexer "r)")
      = some (.ok (.Or (.Var "p") (.Var "q"), (Lexer "p|q").length)) ∧
    (Lexer "p|q").length < (Lexer "p|q" ++ ⟨TokenTypeLparen, ""⟩ :: Lexer "r)").length ∧
    parseExpression (Lexer "p)") = some (.ok (.Var "p", 1)) ∧
    parseExpression (Lexer "p(q)") = some (.ok (.Var "p", 1)) :=
  parse_leaves_trailing_tokens (Lexer "p|q") (Lexer "r)") ⟨TokenTypeLparen, ""⟩
    (.Or (.Var "p") (.Var "q")) (by decide) (by decide)

/-! ## The order of `sort.Strings` -/

theorem char_lt_iff (a b : Char) : a.toNat < b.toNat ↔ a < b := Iff.rfl

theorem char_eq_of_not_lt (a b : Char) (h1 : ¬ a.toNat < b.toNat) (h2 : ¬ b.toNat < a.toNat) :
    a = b := by
  apply Char.ext
  apply UInt32.ext
  exact Nat.le_antisymm (Nat.le_of_not_lt h2) (Nat.le_of_not_lt h1)

theorem runesLess_iff_lex (a b : List Char) :
    runesLess a b = true ↔ List.Lex (fun x y : Char => x < y) a b := by
  induction a generalizing b with
  | nil =>
    cases b with
    | nil => simp [runesLess]
    | cons d b => simp [runesLess, List.Lex.nil]
  | cons c a ih =>
    cases b with
    | nil => simp [runesLess]
    | cons d b =>
      rw [runesLess]
      by_cases h1 : c.toNat < d.toNat
      · simp only [h1, if_true, true_iff]
        exact List.Lex.rel h1
      · by_cases h2 : d.toNat < c.toNat
        · simp only [h1, h2, if_true, if_false]
          constructor
          · intro h
            simp at h
          · intro h
            cases h with
            | cons h => exact absurd h2 (Nat.lt_irrefl _)
            | rel h => exact absurd h h1
        · have e := char_eq_of_not_lt c d h1 h2
          subst e
          simp only [h1, if_false, ih]
          exact List.Lex.cons_iff.symm

theorem runesLess_iff_lt (a b : String) : runesLess a.data b.data = true ↔ a < b := by
  rw [String.lt_iff_toList_lt, runesLess_iff_lex]
  rfl

theorem stringLE_iff_le (a b : String) : stringLE a b ↔ a ≤ b := by
  unfold stringLE
  rw [← not_lt, ← runesLess_iff_lt]
  simp

theorem sortStrings_perm (l : List String) : (sortStrings l).Perm l :=
  List.perm_insertionSort stringLE l

theorem sortStrings_sorted (l : List String) (h : l.Nodup) :
    (sortStrings l).Pairwise (fun a b : String => a < b) := by
  haveI : IsTotal String stringLE :=
    ⟨fun a b => by simp only [stringLE_iff_le]; exact le_total a b⟩
  haveI : IsTrans String stringLE :=
    ⟨fun a b c => by simp only [stringLE_iff_le]; exact le_trans⟩
  have h1 : (sortStrings l).Pairwise stringLE := List.sorted_insertionSort stringLE l
  have h2 : (sortStrings l).Nodup := (sortStrings_perm l).nodup_iff.mpr h
  have h3 : (sortStrings l).Pairwise (fun a b : String => a ≠ b) := h2
  refine (h1.and h3).imp ?_
  intro a b hab
  exact lt_of_le_of_ne ((stringLE_iff_le a b).mp hab.1) hab.2

/-! ## Maximal runs of letters -/

theorem maximalRun_of_letters (isLetter : Char → Bool) (cur n : List Char)
    (hcur : ∀ x ∈ cur, isLetter x = true) :
    IsMaximalLetterRun isLetter cur n ↔ n = cur ∧ cur ≠ [] := by
  constructor
  · rintro ⟨pre, post, hs, hne, _, hpre, hpost⟩
    have hpre0 : pre = [] := by
      rcases hpre with h | ⟨p1, x, h, hx⟩
      · exact h
      · have : x ∈ cur := by rw [hs, h]; simp
        rw [hcur x this] at hx
        exact absurd hx (by simp)
    have hpost0 : post = [] := by
      rcases hpost with h | ⟨x, p1, h, hx⟩
      · exact h
      · have : x ∈ cur := by rw [hs, h]; simp
        rw [hcur x this] at hx
        exact absurd hx (by simp)
    subst hpre0 hpost0
    have e : cur = n := by simpa using hs
    exact ⟨e.symm, by rw [e]; exact hne⟩
  · rintro ⟨rfl, hne⟩
    exact ⟨[], [], by simp, hne, hcur, Or.inl rfl, Or.inl rfl⟩

theorem maximalRun_behind_separator (isLetter : Char → Bool) (cur : List Char) (c : Char)
    (l n : List Char) (hcur : ∀ x ∈ cur, isLetter x = true) (hc : isLetter c = false) :
    IsMaximalLetterRun isLetter (cur ++ c :: l) n ↔
      (n = cur ∧ cur ≠ []) ∨ IsMaximalLetterRun isLetter l n := by
  constructor
  · rintro ⟨pre, post, hs, hne, hlet, hpre, hpost⟩
    rw [List.append_assoc] at hs
    rcases List.append_eq_append_iff.mp hs with ⟨a1, h1, h2⟩ | ⟨c1, h1, h2⟩
    · -- the run starts behind `cur`
      right
      cases a1 with
      | nil =>
        obtain ⟨y, n1, hn⟩ := List.exists_cons_of_ne_nil hne
        rw [hn] at h2
        have hy : c = y := by simpa using (List.cons.inj h2).1
        have := hlet y (by rw [hn]; simp)
        rw [← hy, hc] at this
        exact absurd this (by simp)
      | cons d a2 =>
        have hd : c = d ∧ l = a2 ++ (n ++ post) := by simpa using h2
        refine ⟨a2, post, by rw [hd.2]; simp, hne, hlet, ?_, hpost⟩
        rcases List.eq_nil_or_concat a2 with h0 | ⟨a3, y, h3⟩
        · exact Or.inl h0
        · right
          refine ⟨a3, y, by simpa using h3, ?_⟩
          rcases hpre with h | ⟨p1, x, h, hx⟩
          · rw [h1] at h
            simp at h
          · rw [h1, h3] at h
            have e : (cur ++ d :: a3) ++ [y] = p1 ++ [x] := by simpa using h
            have := List.append_inj' e rfl
            have hyx : y = x := by simpa using this.2
            rw [hyx]
            exact hx
    · -- the run starts inside `cur`
      left
      have hpre0 : pre = [] := by
        rcases hpre with h | ⟨p1, x, h, hx⟩
        · exact h
        · have : x ∈ cur := by rw [h1, h]; simp
          rw [hcur x this] at hx
          exact absurd hx (by simp)
      subst hpre0
      have hc1 : cur = c1 := by simpa using h1
      subst hc1
      rcases List.append_eq_append_iff.mp h2 with ⟨a1, h3, h4⟩ | ⟨c2, h3, h4⟩
      · -- `cur = n ++ a1`
        cases a1 with
        | nil => exact ⟨by simpa using h3.symm, by rw [h3]; simpa using hne⟩
        | cons d a2 =>
          rcases hpost with h | ⟨x, p1, h, hx⟩
          · rw [h] at h4
            simp at h4
          · rw [h] at h4
            have hxd : x = d := by simpa using (List.cons.inj h4).1
            have : d ∈ cur := by rw [h3]; simp
            rw [hxd, hcur d this] at hx
            exact absurd hx (by simp)
      · -- `n = cur ++ c2`
        cases c2 with
        | nil => exact ⟨by simpa using h3, by rw [← (by simpa using h3 : n = cur)]; exact hne⟩
        | cons d a2 =>
          have hcd : c = d := by simpa using (List.cons.inj h4).1
          have := hlet d (by rw [h3]; simp)
          rw [← hcd, hc] at this
          exact absurd this (by simp)
  · rintro (⟨rfl, hne⟩ | ⟨pre, post, hs, hne, hlet, hpre, hpost⟩)
    · exact ⟨[], c :: l, by simp, hne, hcur, Or.inl rfl, Or.inr ⟨c, l, rfl, hc⟩⟩
    · refine ⟨cur ++ c :: pre, post, by rw [hs]; simp, hne, hlet, Or.inr ?_, hpost⟩
      rcases hpre with h | ⟨p1, x, h, hx⟩
      · exact ⟨cur, c, by rw [h], hc⟩
      · exact ⟨cur ++ c :: p1, x, by rw [h]; simp, hx⟩

/-! ## The names that `ExtractVariables` finds -/

theorem GoMap.mem_keys_set {T : Type} (m : GoMap T) (k : String) (v : T) (n : String) :
    n ∈ (m.set k v).keys ↔ n = k ∨ n ∈ m.keys := by
  rw [GoMap.keys_set]
  split
  · rename_i h
    constructor
    · exact Or.inr
    · rintro (rfl | h2)
      · exact h
      · exact h2
  · simp [or_comm]

theorem string_length_pos_iff (s : String) : s.length > 0 ↔ s.data ≠ [] := by
  show s.data.length > 0 ↔ s.data ≠ []
  exact List.length_pos

theorem ExtractVariables_eq (isLetter : Char → Bool) (s : String) :
    ExtractVariables isLetter s
      = sortStrings (finalVarSet (s.data.foldl (extractStep isLetter) ⟨[], ""⟩)).keys := rfl

theorem mem_finalVarSet_foldl (isLetter : Char → Bool) (l : List Char) :
    ∀ st : ExtractState, (∀ x ∈ st.currentVar.data, isLetter x = true) → ∀ n : String,
      n ∈ (finalVarSet (l.foldl (extractStep isLetter) st)).keys ↔
        n ∈ st.varSet.keys ∨ IsMaximalLetterRun isLetter (st.currentVar.data ++ l) n.data := by
  induction l with
  | nil =>
    intro st hcur n
    simp only [List.foldl_nil, List.append_nil, maximalRun_of_letters isLetter _ _ hcur]
    unfold finalVarSet
    by_cases h : st.currentVar.length > 0
    · have hd := (string_length_pos_iff _).mp h
      simp only [h, if_true, GoMap.mem_keys_set, String.ext_iff, hd, ne_eq, not_false_eq_true,
        and_true]
      exact or_comm
    · have hd : st.currentVar.data = [] := by
        by_contra hne
        exact h ((string_length_pos_iff _).mpr hne)
      simp [h, hd]
  | cons c l ih =>
    intro st hcur n
    rw [List.foldl_cons]
    by_cases hc : isLetter c = true
    · have hst : extractStep isLetter st c
          = ⟨st.varSet, st.currentVar ++ String.singleton c⟩ := by
        simp [extractStep, hc]
      have hdata : (st.currentVar ++ String.singleton c).data = st.currentVar.data ++ [c] := by
        simp [String.data_append, String.singleton]
      rw [hst, ih _ (by
        intro x hx
        simp only [hdata, List.mem_append, List.mem_singleton] at hx
        rcases hx with hx | rfl
        · exact hcur x hx
        · exact hc)]
      simp only [hdata, List.append_assoc, List.singleton_append]
    · have hcf : isLetter c = false := by simpa using hc
      rw [maximalRun_behind_separator isLetter _ c l _ hcur hcf]
      by_cases h : st.currentVar.length > 0
      · have hd := (string_length_pos_iff _).mp h
        have hst : extractStep isLetter st c = ⟨st.varSet.set st.currentVar (), ""⟩ := by
          simp [extractStep, hcf, h]
        rw [hst, ih _ (by simp)]
        simp only [GoMap.mem_keys_set, String.ext_iff, hd, ne_eq, not_false_eq_true, and_true,
          List.nil_append]
        tauto
      · have hd : st.currentVar.data = [] := by
          by_contra hne
          exact h ((string_length_pos_iff _).mpr hne)
        have hst : extractStep isLetter st c = st := by
          simp [extractStep, hcf, h]
        rw [hst, ih _ hcur]
        simp [hd]

theorem nodup_finalVarSet_foldl (isLetter : Char → Bool) (l : List Char) :
    ∀ st : ExtractState, (GoMap.keys st.varSet).Nodup →
      (GoMap.keys (finalVarSet (l.foldl (extractStep isLetter) st))).Nodup := by
  induction l with
  | nil =>
    intro st h
    simp only [List.foldl_nil, finalVarSet]
    split
    · exact GoMap.nodup_keys_set _ _ _ h
    · exact h
  | cons c l ih =>
    intro st h
    rw [List.foldl_cons]
    apply ih
    unfold extractStep
    split
    · exact h
    · split
      · exact GoMap.nodup_keys_set _ _ _ h
      · exact h

/-- The names of `ExtractVariables` are the maximal runs of letters of the text. -/
theorem mem_ExtractVariables (isLetter : Char → Bool) (s n : String) :
    n ∈ ExtractVariables isLetter s ↔ IsMaximalLetterRun isLetter s.data n.data := by
  rw [ExtractVariables_eq, (sortStrings_perm _).mem_iff,
    mem_finalVarSet_foldl isLetter s.data ⟨[], ""⟩ (by simp)]
  simp [GoMap.keys]

theorem nodup_ExtractVariables (isLetter : Char → Bool) (s : String) :
    (ExtractVariables isLetter s).Nodup := by
  rw [ExtractVariables_eq, (sortStrings_perm _).nodup_iff]
  exact nodup_finalVarSet_foldl isLetter s.data ⟨[], ""⟩ (by simp [GoMap.keys])

theorem digit_not_alpha (c : Char) (hc : c.isDigit = true) : c.val < 128 ∧ c.isAlpha = false := by
  have h1 : c.val ≥ 48 ∧ c.val ≤ 57 := by simpa [Char.isDigit] using hc
  have h57 : c.val.toNat ≤ 57 := h1.2
  have h2 : c.val < 128 := show c.val.toNat < 128 by omega
  have h3 : ¬ (c.val ≥ 97) := fun h => by
    have : 97 ≤ c.val.toNat := h
    omega
  have h4 : ¬ (c.val ≥ 65) := fun h => by
    have : 65 ≤ c.val.toNat := h
    omega
  exact ⟨h2, by simp [Char.isAlpha, Char.isUpper, Char.isLower, h3, h4]⟩

/-- C11: for every text, `ExtractVariables` is strictly increasing in the
lexicographic order of strings, and a name occurs in it exactly when it is a
maximal run of letters of the text; the names hold letters only, and a digit,
which is not a letter, is never part of a name and ends the run before it. -/
theorem ExtractVariables_sorted_maximal_runs (isLetter : Char → Bool)
    (hl : AsciiLetters isLetter) (s : String) :
    (ExtractVariables isLetter s).Pairwise (fun a b : String => a < b) ∧
    (ExtractVariables isLetter s).Pairwise
      (fun a b : String => runesLess a.data b.data = true) ∧
    (∀ n : String, n ∈ ExtractVariables isLetter s ↔
      IsMaximalLetterRun isLetter s.data n.data) ∧
    (∀ n ∈ ExtractVariables isLetter s, ∀ c ∈ n.data, isLetter c = true ∧ c.isDigit = false) ∧
    (∀ c : Char, c.isDigit = true → isLetter c = false) := by
  have hsorted : (ExtractVariables isLetter s).Pairwise (fun a b : String => a < b) := by
    rw [ExtractVariables_eq]
    apply sortStrings_sorted
    exact nodup_finalVarSet_foldl isLetter s.data ⟨[], ""⟩ (by simp [GoMap.keys])
  have hdigit : ∀ c : Char, c.isDigit = true → isLetter c = false := by
    intro c hc
    rw [hl c (digit_not_alpha c hc).1]
    exact (digit_not_alpha c hc).2
  refine ⟨hsorted, hsorted.imp (fun h => (runesLess_iff_lt _ _).mpr h),
    mem_ExtractVariables isLetter s, ?_, hdigit⟩
  intro n hn c hc
  obtain ⟨_, _, _, _, hlet, _, _⟩ := (mem_ExtractVariables isLetter s n).mp hn
  refine ⟨hlet c hc, ?_⟩
  by_contra hd
  have := hdigit c (by simpa using hd)
  rw [hlet c hc] at this
  exact absurd this (by simp)

/-- Witness of `ExtractVariables_sorted_maximal_runs`: the text `q&p1|q`. -/
theorem ExtractVariables_sorted_maximal_runs_witness :
    (ExtractVariables Char.isAlpha "q&p1|q").Pairwise (fun a b : String => a < b) ∧
    (ExtractVariables Char.isAlpha "q&p1|q").Pairwise
      (fun a b : String => runesLess a.data b.data = true) ∧
    (∀ n : String, n ∈ ExtractVariables Char.isAlpha "q&p1|q" ↔
      IsMaximalLetterRun Char.isAlpha "q&p1|q".data n.data) ∧
    (∀ n ∈ ExtractVariables Char.isAlpha "q&p1|q", ∀ c ∈ n.data,
      Char.isAlpha c = true ∧ c.isDigit = false) ∧
    (∀ c : Char, c.isDigit = true → Char.isAlpha c = false) :=
  ExtractVariables_sorted_maximal_runs Char.isAlpha (fun _ _ => rfl) "q&p1|q"

/-! ## The lexer and `ExtractVariables` on texts of letters and operators -/

theorem isVarChar_of_isAlpha (c : Char) (h : c.isAlpha = true) :
    isVarChar c = true ∧ c.val < 128 := by
  have h1 : (c.val ≥ 65 ∧ c.val ≤ 90) ∨ (c.val ≥ 97 ∧ c.val ≤ 122) := by
    simpa [Char.isAlpha, Char.isUpper, Char.isLower] using h
  constructor
  · rcases h1 with ⟨a, b⟩ | ⟨a, b⟩
    · have ha : 'A' ≤ c := a
      have hb : c ≤ 'Z' := b
      simp [isVarChar, ha, hb]
    · have ha : 'a' ≤ c := a
      have hb : c ≤ 'z' := b
      simp [isVarChar, ha, hb]
  · rcases h1 with ⟨_, b⟩ | ⟨_, b⟩
    · have hb : c.val.toNat ≤ 90 := b
      exact show c.val.toNat < 128 by omega
    · have hb : c.val.toNat ≤ 122 := b
      exact show c.val.toNat < 128 by omega

theorem inStep_commit (lst : LexState) (est : ExtractState) (h : InStep lst est) :
    InStep (commitVar lst)
      (if est.currentVar.length > 0 then ⟨est.varSet.set est.currentVar (), ""⟩ else est) := by
  obtain ⟨hcur, htok⟩ := h
  unfold commitVar
  by_cases hc : lst.currentVar = ""
  · have hlen : ¬ est.currentVar.length > 0 := by
      rw [← hcur, hc]
      decide
    rw [if_neg (not_not.mpr hc), if_neg hlen]
    exact ⟨hcur, htok⟩
  · have hlen : est.currentVar.length > 0 := by
      rw [← hcur, string_length_pos_iff]
      intro hd
      exact hc (String.ext hd)
    rw [if_pos hc, if_pos hlen]
    refine ⟨rfl, ?_⟩
    intro tok hmem hty
    rw [GoMap.mem_keys_set]
    rcases List.mem_append.mp hmem with hm | hm
    · exact Or.inr (htok tok hm hty)
    · left
      have : tok = ⟨TokenTypeVar, lst.currentVar⟩ := by simpa using hm
      rw [this, hcur]

theorem inStep_emit (lst : LexState) (est : ExtractState) (ty : TokenType)
    (hty : ty ≠ TokenTypeVar) (h : InStep lst est) :
    InStep (emitToken lst ty)
      (if est.currentVar.length > 0 then ⟨est.varSet.set est.currentVar (), ""⟩ else est) := by
  obtain ⟨hcur, htok⟩ := inStep_commit lst est h
  refine ⟨hcur, ?_⟩
  intro tok hmem hv
  rcases List.mem_append.mp hmem with hm | hm
  · exact htok tok hm hv
  · have : tok = ⟨ty, ""⟩ := by simpa using hm
    subst this
    exact absurd hv hty

theorem inStep_step (isLetter : Char → Bool) (hl : AsciiLetters isLetter)
    (hg : GlyphsNotLetters isLetter) (c : Char) (hc : IsLetterOrOperator c)
    (lst : LexState) (est : ExtractState) (h : InStep lst est) :
    InStep (lexStep lst c) (extractStep isLetter est c) := by
  have hnot : ∀ d : Char, d.val < 128 → d.isAlpha = false → isLetter d = false :=
    fun d h1 h2 => by rw [hl d h1, h2]
  rcases hc with hc | hc | hc | hc | hc | hc | hc | hc
  · have hv := isVarChar_of_isAlpha c hc
    have hlc : isLetter c = true := by rw [hl c hv.2, hc]
    simp only [lexStep, extractStep, hv.1, hlc, if_true]
    exact ⟨by rw [h.1], h.2⟩
  · subst hc
    have := hnot '&' (by decide) (by decide)
    simp only [lexStep, extractStep, this]
    exact inStep_emit lst est _ (by decide) h
  · subst hc
    have := hnot '|' (by decide) (by decide)
    simp only [lexStep, extractStep, this]
    exact inStep_emit lst est _ (by decide) h
  · subst hc
    have := hnot '!' (by decide) (by decide)
    simp only [lexStep, extractStep, this]
    exact inStep_emit lst est _ (by decide) h
  · subst hc
    simp only [lexStep, extractStep, hg.1]
    exact inStep_emit lst est _ (by decide) h
  · subst hc
    simp only [lexStep, extractStep, hg.2]
    exact inStep_emit lst est _ (by decide) h
  · subst hc
    have := hnot '(' (by decide) (by decide)
    simp only [lexStep, extractStep, this]
    exact inStep_emit lst est _ (by decide) h
  · subst hc
    have := hnot ')' (by decide) (by decide)
    simp only [lexStep, extractStep, this]
    exact inStep_emit lst est _ (by decide) h

theorem inStep_foldl (isLetter : Char → Bool) (hl : AsciiLetters isLetter)
    (hg : GlyphsNotLetters isLetter) (l : List Char) (hc : ∀ c ∈ l, IsLetterOrOperator c) :
    ∀ (lst : LexState) (est : ExtractState), InStep lst est →
      InStep (l.foldl lexStep lst) (l.foldl (extractStep isLetter) est) := by
  induction l with
  | nil => exact fun _ _ h => h
  | cons c l ih =>
    intro lst est h
    exact ih (fun d hd => hc d (List.mem_cons_of_mem _ hd)) _ _
      (inStep_step isLetter hl hg c (hc c (List.mem_cons_self _ _)) lst est h)

/-- On a text of ASCII letters and operator characters every VAR token of `Lexer`
carries a name of `ExtractVariables`. -/
theorem Lexer_names_extracted (isLetter : Char → Bool) (hl : AsciiLetters isLetter)
    (hg : GlyphsNotLetters isLetter) (s : String) (hc : ∀ c ∈ s.data, IsLetterOrOperator c) :
    ∀ tok ∈ Lexer s, tok.Typ = TokenTypeVar → tok.Value ∈ ExtractVariables isLetter s := by
  have h0 : InStep ⟨[], ""⟩ ⟨[], ""⟩ := ⟨rfl, by simp⟩
  have h1 := inStep_commit _ _ (inStep_foldl isLetter hl hg s.data hc _ _ h0)
  intro tok hmem hty
  rw [ExtractVariables_eq, (sortStrings_perm _).mem_iff]
  have h2 := h1.2 tok hmem hty
  unfold finalVarSet
  split
  · rename_i hlen
    simpa [hlen] using h2
  · rename_i hlen
    simpa [hlen] using h2

theorem truthTableToJson_ok_of_covered (e : Expr) (variableList : List String)
    (hnd : variableList.Nodup) (hcov : ∀ x ∈ occurringVars e, x ∈ variableList) :
    ∃ rows, truthTableToJson e variableList = .ok rows := by
  obtain ⟨rows, hrows, _⟩ := tableRows_ok e variableList
    (List.range (totalCombinations variableList.length).toNat)
    (fun i _ => collector_ok_of_definesAll e _ (combinationOf_definesAll e _ hnd hcov i))
  exact ⟨rows, hrows⟩

/-- C19: for a text made up of ASCII letters and the characters & | ! → ⇔ ( ) only,
when the parse succeeds every variable of the tree is in
`ExtractVariables(s)`, so `truthTableToJson` returns its rows and the handler
answers with them: the undefined-variable panic is not reached. -/
theorem extracted_variables_cover_tree (isLetter : Char → Bool) (hl : AsciiLetters isLetter)
    (hg : GlyphsNotLetters isLetter) (s : String) (hc : ∀ c ∈ s.data, IsLetterOrOperator c)
    (t : Expr) (p : Nat) (h : parseExpression (Lexer s) = some (.ok (t, p))) :
    (∀ x ∈ occurringVars t, x ∈ ExtractVariables isLetter s) ∧
    ∃ rows, truthTableToJson t (ExtractVariables isLetter s) = .ok rows ∧
      ExpressHandler isLetter s = some (.ok rows) := by
  have hcov : ∀ x ∈ occurringVars t, x ∈ ExtractVariables isLetter s :=
    (namesFrom (fun x => x ∈ ExtractVariables isLetter s) (Lexer s)
      (Lexer_names_extracted isLetter hl hg s hc) _).2.2.2.2.2.2.2.2.1 0 t p h
  obtain ⟨rows, hrows⟩ := truthTableToJson_ok_of_covered t _
    (nodup_ExtractVariables isLetter s) hcov
  exact ⟨hcov, rows, hrows, by simp [ExpressHandler, h, hrows]⟩

/-- Witness of `extracted_variables_cover_tree`: the text `(p→q)⇔!p`. -/
theorem extracted_variables_cover_tree_witness :
    (∀ x ∈ occurringVars (.Equivalent (.Implies (.Var "p") (.Var "q")) (.Not (.Var "p"))),
      x ∈ ExtractVariables Char.isAlpha "(p→q)⇔!p") ∧
    ∃ rows, truthTableToJson (.Equivalent (.Implies (.Var "p") (.Var "q")) (.Not (.Var "p")))
        (ExtractVariables Char.isAlpha "(p→q)⇔!p") = .ok rows ∧
      ExpressHandler Char.isAlpha "(p→q)⇔!p" = some (.ok rows) :=
  extracted_variables_cover_tree Char.isAlpha (fun _ _ => rfl) ⟨rfl, rfl⟩ "(p→q)⇔!p"
    (by decide) (.Equivalent (.Implies (.Var "p") (.Var "q")) (.Not (.Var "p"))) 8 (by decide)

/-! ## End to end on `a→b` -/

/-- C16: on the input `a→b` the parse returns `Implies{Var a, Var b}`,
`ExtractVariables` returns `[a, b]`, the table has 4 rows, and the value under
the key `(a → b)` is 0 in exactly one row, the one of the assignment a = true,
b = false, and 1 in the other three. -/
theorem end_to_end_a_implies_b (isLetter : Char → Bool) (hl : AsciiLetters isLetter)
    (hg : GlyphsNotLetters isLetter) :
    parseExpression (Lexer "a→b") = some (.ok (.Implies (.Var "a") (.Var "b"), 3)) ∧
    ExtractVariables isLetter "a→b" = ["a", "b"] ∧
    ∃ rows, truthTableToJson (.Implies (.Var "a") (.Var "b")) (ExtractVariables isLetter "a→b")
        = .ok rows ∧
      ExpressHandler isLetter "a→b" = some (.ok rows) ∧
      rows.length = 4 ∧
      rows.map (fun row => (GoMap.get? row "(a → b)", GoMap.get? row "a", GoMap.get? row "b"))
        = [(some 1, some 0, some 0), (some 0, some 1, some 0), (some 1, some 0, some 1),
            (some 1, some 1, some 1)] ∧
      (List.range 4).map (fun i => (GoMap.get? (combinationOf ["a", "b"] i) "a",
          GoMap.get? (combinationOf ["a", "b"] i) "b"))
        = [(some false, some false), (some true, some false), (some false, some true),
            (some true, some true)] := by
  have hx : ExtractVariables isLetter "a→b" = ["a", "b"] := by
    have hcongr : ExtractVariables isLetter "a→b" = ExtractVariables Char.isAlpha "a→b" := by
      apply ExtractVariables_congr
      intro c hc
      have : c = 'a' ∨ c = '→' ∨ c = 'b' := by simpa using hc
      rcases this with rfl | rfl | rfl
      · exact hl 'a' (by decide)
      · rw [hg.1]
        rfl
      · exact hl 'b' (by decide)
    rw [hcongr]
    decide
  have hp : parseExpression (Lexer "a→b") = some (.ok (.Implies (.Var "a") (.Var "b"), 3)) := by
    decide
  refine ⟨hp, hx, ?_⟩
  rw [hx]
  have hrows : truthTableToJson (.Implies (.Var "a") (.Var "b")) ["a", "b"]
      = .ok [[("(a → b)", 1), ("a", 0), ("b", 0)], [("(a → b)", 0), ("a", 1), ("b", 0)],
          [("(a → b)", 1), ("a", 0), ("b", 1)], [("(a → b)", 1), ("a", 1), ("b", 1)]] := by
    decide
  refine ⟨_, hrows, ?_, by decide, by decide, by decide⟩
  simp only [ExpressHandler, hp, hx, hrows]

/-- Witness of `end_to_end_a_implies_b`, with the ASCII letter test in the place of
`unicode.IsLetter`. -/
theorem end_to_end_a_implies_b_witness :
    parseExpression (Lexer "a→b") = some (.ok (.Implies (.Var "a") (.Var "b"), 3)) ∧
    ExtractVariables Char.isAlpha "a→b" = ["a", "b"] ∧
    ∃ rows, truthTableToJson (.Implies (.Var "a") (.Var "b"))
        (ExtractVariables Char.isAlpha "a→b") = .ok rows ∧
      ExpressHandler Char.isAlpha "a→b" = some (.ok rows) ∧
      rows.length = 4 ∧
      rows.map (fun row => (GoMap.get? row "(a → b)", GoMap.get? row "a", GoMap.get? row "b"))
        = [(some 1, some 0, some 0), (some 0, some 1, some 0), (some 1, some 0, some 1),
            (some 1, some 1, some 1)] ∧
      (List.range 4).map (fun i => (GoMap.get? (combinationOf ["a", "b"] i) "a",
          GoMap.get? (combinationOf ["a", "b"] i) "b"))
        = [(some false, some false), (some true, some false), (some false, some true),
            (some true, some true)] :=
  end_to_end_a_implies_b Char.isAlpha (fun _ _ => rfl) ⟨rfl, rfl⟩

/-! ## The evaluator never defaults -/

/-- A value that `Evaluate` returns stays the same when the assignment gets more
entries: no variable without an entry was read. -/
theorem Evaluate_ok_of_extension (e : Expr) (sigma sigma2 : GoMap Bool)
    (hext : ∀ y v, sigma.get? y = some v → sigma2.get? y = some v) (b : Bool)
    (h : Evaluate e sigma = .ok b) : Evaluate e sigma2 = .ok b := by
  induction e generalizing b with
  | Var name =>
    cases hx : sigma.get? name with
    | none => simp [Evaluate, hx] at h
    | some v =>
      simp [Evaluate, hx] at h
      simp [Evaluate, hext name v hx, h]
  | Not operand ih =>
    cases ho : Evaluate operand sigma with
    | error m => simp [Evaluate, ho] at h
    | ok a =>
      simp [Evaluate, ho] at h
      simp [Evaluate, ih a ho, h]
  | And left right ihl ihr =>
    cases hl : Evaluate left sigma with
    | error m => simp [Evaluate, hl] at h
    | ok a =>
      cases a
      · simp [Evaluate, hl] at h
        simp [Evaluate, ihl _ hl, h]
      · simp [Evaluate, hl] at h
        simp [Evaluate, ihl _ hl, ihr _ h]
  | Or left right ihl ihr =>
    cases hl : Evaluate left sigma with
    | error m => simp [Evaluate, hl] at h
    | ok a =>
      cases a
      · simp [Evaluate, hl] at h
        simp [Evaluate, ihl _ hl, ihr _ h]
      · simp [Evaluate, hl] at h
        simp [Evaluate, ihl _ hl, h]
  | Implies left right ihl ihr =>
    cases hl : Evaluate left sigma with
    | error m => simp [Evaluate, hl] at h
    | ok a =>
      cases a
      · simp [Evaluate, hl] at h
        simp [Evaluate, ihl _ hl, h]
      · simp [Evaluate, hl] at h
        simp [Evaluate, ihl _ hl, ihr _ h]
  | Equivalent left right ihl ihr =>
    cases hl : Evaluate left sigma with
    | error m => simp [Evaluate, hl] at h
    | ok a =>
      cases hr : Evaluate right sigma with
      | error m => cases a <;> simp [Evaluate, hl, hr] at h
      | ok c =>
        cases a <;> cases c <;> simp [Evaluate, hl, hr] at h <;>
          simp [Evaluate, ihl _ hl, ihr _ hr, h]

/-- C8: `Evaluate` never defaults a missing variable.  For every name and every
assignment, `Var{x}.Evaluate` returns the entry of `x` when there is one and
panics with the undefined-variable message when there is none.  For every tree
and every assignment: if the assignment defines all variables of the tree,
`Evaluate` returns a boolean; every panic is the undefined-variable panic of a
variable of the tree that has no entry; and a boolean that is returned stays
the same under every assignment with more entries, so no missing variable was
given a value. -/
theorem Evaluate_never_defaults (x : String) (e : Expr) (sigma : GoMap Bool) :
    (∀ v, sigma.get? x = some v → Evaluate (.Var x) sigma = .ok v) ∧
    (sigma.get? x = none →
      Evaluate (.Var x) sigma = .error ("Variable " ++ x ++ " not defined")) ∧
    (DefinesAll sigma e → ∃ b, Evaluate e sigma = .ok b) ∧
    (∀ msg, Evaluate e sigma = .error msg →
      ∃ y ∈ occurringVars e, sigma.get? y = none ∧
        msg = "Variable " ++ y ++ " not defined") ∧
    (∀ b, Evaluate e sigma = .ok b → ∀ sigma2 : GoMap Bool,
      (∀ y v, sigma.get? y = some v → sigma2.get? y = some v) →
      Evaluate e sigma2 = .ok b) := by
  refine ⟨?_, ?_, Evaluate_ok_of_definesAll e sigma, fun msg h => Evaluate_error e sigma msg h,
    fun b h sigma2 hext => Evaluate_ok_of_extension e sigma sigma2 hext b h⟩
  · intro v hv
    simp [Evaluate, hv]
  · intro hx
    simp [Evaluate, hx]

/-! ## Errors end the parse; a missing closing parenthesis -/

theorem runCall_fuel_mono (tokens : List Token) (c : Call) (r : Except String (Expr × Nat))
    (fuel fuel2 : Nat) (hle : fuel ≤ fuel2) (h : runCall fuel tokens c = some r) :
    runCall fuel2 tokens c = some r := by
  induction hle with
  | refl => exact h
  | @step n _ ih =>
    obtain ⟨mP, mN, mA, mAL, mO, mOL, mI, mIL, mE, mEL⟩ := fuelMono tokens n
    cases c with
    | primary pos => exact mP _ _ ih
    | not pos => exact mN _ _ ih
    | and pos => exact mA _ _ ih
    | andLoop e pos => exact mAL _ _ _ ih
    | or pos => exact mO _ _ ih
    | orLoop e pos => exact mOL _ _ _ ih
    | implies pos => exact mI _ _ ih
    | impliesLoop e pos => exact mIL _ _ _ ih
    | equivalent pos => exact mE _ _ ih
    | equivalentLoop e pos => exact mEL _ _ _ ih

/-- An error returned by a call is returned by the call that made it. -/
theorem error_of_invoked (tokens : List Token) (c1 c2 : Call) (h : Invokes tokens c1 c2)
    (msg : String) (he : ∃ fuel, runCall fuel tokens c2 = some (.error msg)) :
    ∃ fuel, runCall fuel tokens c1 = some (.error msg) := by
  obtain ⟨f2, h2⟩ := he
  cases h with
  | primary_inner pos token h0 hty =>
    refine ⟨f2 + 1, ?_⟩
    simp only [runCall] at h2 ⊢
    rw [parsePrimary]
    simp [h0, hty, h2]
  | not_operand pos hp =>
    refine ⟨f2 + 1, ?_⟩
    simp only [runCall] at h2 ⊢
    rw [parseNot]
    simp [hp, h2]
  | not_plain pos hp =>
    refine ⟨f2 + 1, ?_⟩
    simp only [runCall] at h2 ⊢
    rw [parseNot]
    simp [hp, h2]
  | and_first pos =>
    refine ⟨f2 + 1, ?_⟩
    simp only [runCall] at h2 ⊢
    rw [parseAnd]
    simp [h2]
  | and_loop pos e p1 hs =>
    obtain ⟨f1, h1⟩ := hs
    have a := runCall_fuel_mono tokens (.not pos) _ f1 (f1 + f2) (by omega) h1
    have b := runCall_fuel_mono tokens _ _ f2 (f1 + f2) (by omega) h2
    refine ⟨f1 + f2 + 1, ?_⟩
    simp only [runCall] at a b ⊢
    rw [parseAnd]
    simp [a, b]
  | andLoop_right e0 pos hp =>
    refine ⟨f2 + 1, ?_⟩
    simp only [runCall] at h2 ⊢
    rw [parseAndLoop]
    simp [hp, h2]
  | andLoop_again e0 pos r p1 hp hs =>
    obtain ⟨f1, h1⟩ := hs
    have a := runCall_fuel_mono tokens (.not (pos + 1)) _ f1 (f1 + f2) (by omega) h1
    have b := runCall_fuel_mono tokens _ _ f2 (f1 + f2) (by omega) h2
    refine ⟨f1 + f2 + 1, ?_⟩
    simp only [runCall] at a b ⊢
    rw [parseAndLoop]
    simp [hp, a, b]
  | or_first pos =>
    refine ⟨f2 + 1, ?_⟩
    simp only [runCall] at h2 ⊢
    rw [parseOr]
    simp [h2]
  | or_loop pos e p1 hs =>
    obtain ⟨f1, h1⟩ := hs
    have a := runCall_fuel_mono tokens (.and pos) _ f1 (f1 + f2) (by omega) h1
    have b := runCall_fuel_mono tokens _ _ f2 (f1 + f2) (by omega) h2
    refine ⟨f1 + f2 + 1, ?_⟩
    simp only [runCall] at a b ⊢
    rw [parseOr]
    simp [a, b]
  | orLoop_right e0 pos hp =>
    refine ⟨f2 + 1, ?_⟩
    simp only [runCall] at h2 ⊢
    rw [parseOrLoop]
    simp [hp, h2]
  | orLoop_again e0 pos r p1 hp hs =>
    obtain ⟨f1, h1⟩ := hs
    have a := runCall_fuel_mono tokens (.and (pos + 1)) _ f1 (f1 + f2) (by omega) h1
    have b := runCall_fuel_mono tokens _ _ f2 (f1 + f2) (by omega) h2
    refine ⟨f1 + f2 + 1, ?_⟩
    simp only [runCall] at a b ⊢
    rw [parseOrLoop]
    simp [hp, a, b]
  | implies_first pos =>
    refine ⟨f2 + 1, ?_⟩
    simp only [runCall] at h2 ⊢
    rw [parseImplies]
    simp [h2]
  | implies_loop pos e p1 hs =>
    obtain ⟨f1, h1⟩ := hs
    have a := runCall_fuel_mono tokens (.or pos) _ f1 (f1 + f2) (by omega) h1
    have b := runCall_fuel_mono tokens _ _ f2 (f1 + f2) (by omega) h2
    refine ⟨f1 + f2 + 1, ?_⟩
    simp only [runCall] at a b ⊢
    rw [parseImplies]
    simp [a, b]
  | impliesLoop_right e0 pos hp =>
    refine ⟨f2 + 1, ?_⟩
    simp only [runCall] at h2 ⊢
    rw [parseImpliesLoop]
    simp [hp, h2]
  | impliesLoop_again e0 pos r p1 hp hs =>
    obtain ⟨f1, h1⟩ := hs
    have a := runCall_fuel_mono tokens (.implies (pos + 1)) _ f1 (f1 + f2) (by omega) h1
    have b := runCall_fuel_mono tokens _ _ f2 (f1 + f2) (by omega) h2
    refine ⟨f1 + f2 + 1, ?_⟩
    simp only [runCall] at a b ⊢
    rw [parseImpliesLoop]
    simp [hp, a, b]
  | equivalent_first pos =>
    refine ⟨f2 + 1, ?_⟩
    simp only [runCall] at h2 ⊢
    rw [parseEquivalent]
    simp [h2]
  | equivalent_loop pos e p1 hs =>
    obtain ⟨f1, h1⟩ := hs
    have a := runCall_fuel_mono tokens (.implies pos) _ f1 (f1 + f2) (by omega) h1
    have b := runCall_fuel_mono tokens _ _ f2 (f1 + f2) (by omega) h2
    refine ⟨f1 + f2 + 1, ?_⟩
    simp only [runCall] at a b ⊢
    rw [parseEquivalent]
    simp [a, b]
  | equivalentLoop_right e0 pos hp =>
    refine ⟨f2 + 1, ?_⟩
    simp only [runCall] at h2 ⊢
    rw [parseEquivalentLoop]
    simp [hp, h2]
  | equivalentLoop_again e0 pos r p1 hp hs =>
    obtain ⟨f1, h1⟩ := hs
    have a := runCall_fuel_mono tokens (.implies (pos + 1)) _ f1 (f1 + f2) (by omega) h1
    have b := runCall_fuel_mono tokens _ _ f2 (f1 + f2) (by omega) h2
    refine ⟨f1 + f2 + 1, ?_⟩
    simp only [runCall] at a b ⊢
    rw [parseEquivalentLoop]
    simp [hp, a, b]

/-- An error returned by a call made in the course of the parse is the outcome of
the parse. -/
theorem parseExpression_error_of_reached (tokens : List Token) (c : Call)
    (h : Reaches tokens c) (msg : String)
    (he : ∃ fuel, runCall fuel tokens c = some (.error msg)) :
    parseExpression tokens = some (.error msg) := by
  have key : ∃ fuel, runCall fuel tokens (.equivalent 0) = some (.error msg) := by
    induction h with
    | refl => exact he
    | tail _ hstep ih => exact ih (error_of_invoked tokens _ _ hstep msg he)
  obtain ⟨fuel, hf⟩ := key
  exact parseExpression_of_fuel tokens fuel _ hf

/-- C15: when `parsePrimary` reads `(` and the inner `parseEquivalent` returns a
tree with the cursor at `k`, and `k` is the end of the tokens or the token at
`k` is not `)`, then `parsePrimary` returns the error `expected ')' at position
k` and no tree; when this call of `parsePrimary` is made in the course of the
parse from position 0, wherever the `(` stands, the parse ends in that error
and returns no tree, as it does with every error of a call it makes; for the
input `(p` the parse ends in `expected ')' at position 2`. -/
theorem parsePrimary_missing_rparen (fuel : Nat) (tokens : List Token) (pos k : Nat)
    (token : Token) (e : Expr) (h0 : tokens[pos]? = some token)
    (hty : token.Typ = TokenTypeLparen)
    (hin : parseEquivalent fuel tokens (pos + 1) = some (.ok (e, k)))
    (hk : tokens.length ≤ k ∨ ∃ tok, tokens[k]? = some tok ∧ tok.Typ ≠ TokenTypeRparen) :
    parsePrimary (fuel + 1) tokens pos
        = some (.error ("expected ')' at position " ++ toString k)) ∧
    (Reaches tokens (.primary pos) →
      parseExpression tokens = some (.error ("expected ')' at position " ++ toString k))) ∧
    (pos = 0 →
      parseExpression tokens = some (.error ("expected ')' at position " ++ toString k))) ∧
    (∀ (c : Call) (msg : String), Reaches tokens c →
      (∃ f, runCall f tokens c = some (.error msg)) →
      parseExpression tokens = some (.error msg)) ∧
    parseExpression (Lexer "(p") = some (.error "expected ')' at position 2") := by
  have hpeek : peekIs tokens k TokenTypeRparen = false := by
    rcases hk with hk | ⟨tok, hk, hne⟩
    · simp [peekIs, List.getElem?_eq_none hk]
    · simp [peekIs, hk, hne]
  have hprim : parsePrimary (fuel + 1) tokens pos
      = some (.error ("expected ')' at position " ++ toString k)) := by
    rw [parsePrimary]
    simp [h0, hty, hin, hpeek]
  refine ⟨hprim, ?_, ?_, ?_, by decide⟩
  · intro hreach
    exact parseExpression_error_of_reached tokens _ hreach _ ⟨fuel + 1, hprim⟩
  · intro hpos
    subst hpos
    apply parseExpression_of_fuel tokens (fuel + 6)
    have hnot : peekIs tokens 0 TokenTypeNot = false := by
      simp [peekIs, h0, hty]
    simp [parseEquivalent, parseImplies, parseOr, parseAnd, parseNot, hnot, hprim]
  · intro c msg hreach he
    exact parseExpression_error_of_reached tokens c hreach msg he

/-- Witness of `parsePrimary_missing_rparen`: the tokens of `p&(q`, where the `(`
is read at position 2, in the right operand of `&`. -/
theorem parsePrimary_missing_rparen_witness :
    parsePrimary (20 + 1) (Lexer "p&(q") 2
        = some (.error ("expected ')' at position " ++ toString 4)) ∧
    Reaches (Lexer "p&(q") (.primary 2) ∧
    parseExpression (Lexer "p&(q")
      = some (.error ("expected ')' at position " ++ toString 4)) :=
  have path : Reaches (Lexer "p&(q") (.primary 2) :=
    ((((((Relation.ReflTransGen.refl.tail (Invokes.equivalent_first 0)).tail
      (Invokes.implies_first 0)).tail (Invokes.or_first 0)).tail
      (Invokes.and_loop 0 (.Var "p") 1 ⟨5, by decide⟩)).tail
      (Invokes.andLoop_right (.Var "p") 1 (by decide))).tail
      (Invokes.not_plain 2 (by decide)))
  have thm := parsePrimary_missing_rparen 20 (Lexer "p&(q") 2 4 ⟨TokenTypeLparen, ""⟩
    (.Var "q") (by decide) (by decide) (by decide) (by decide)
  ⟨thm.1, path, thm.2.1 path⟩

end TruthTable
